import Mathlib

/-!
# VectorVM: a shallow embedding of `Engine/Source/Runtime/VectorVM/Private/VectorVM.cpp`

The vector virtual machine executes a linear byte-code program over batches of
lanes.  This file embeds the decoder, the three arity dispatchers, the kernel
library and the chunked entry point `VectorVM::Exec`, and proves properties of
them.

Modelling conventions.

* Bytes of the program are natural numbers; the code cursor `Context.Code` is the
  list of bytes that remain to be read.  Reading past the end of the program is
  undefined behaviour in C++ and is the outcome `Outcome.undefined`.
* A `VectorRegister*` is an optional `Ptr` (`none` is the null pointer): a caller
  array or temporary buffer together with an element offset.  Distinct arrays do
  not overlap (the pointers are `RESTRICT`), and arrays are unbounded functions.
* `int32` values are integers; the chunk count is computed with two's-complement
  wrap-around (`wrapInt32`).
* Scalars are an arbitrary type `F` with the primitive operations of `Platform`;
  the state of `FMath::Rand` is an arbitrary type `G`.
-/

namespace VectorVM

/-! ## Data model -/

/-- Four-component vector, the `VectorRegister` / `FVector4` of the engine. -/
structure Vec (F : Type) where
  x : F
  y : F
  z : F
  w : F
deriving DecidableEq

/-- Scalar primitives and C-library state used by the kernels.  They are declared
in engine headers that are not part of this source file, so they are parameters. -/
structure Platform (F G : Type) where
  add : F → F → F
  sub : F → F → F
  mul : F → F → F
  div : F → F → F
  fmin : F → F → F
  fmax : F → F → F
  pow : F → F → F
  neg : F → F
  abs : F → F
  sqrt : F → F
  sin : F → F
  rcp : F → F
  rsq : F → F
  ofNat : Nat → F
  one : F
  zero : F
  lit314 : F
  normalize : Vec F → Vec F
  Rand : G → Nat × G
  RAND_MAX : Nat

/-- Opcode names of `VectorVM::EOp::Type` that the source file mentions. -/
inductive EOp where
  | done | add | sub | mul | mad | lerp | rcp | rsq | sqrt | neg | abs
  | exp | exp2 | log | log2 | sin | cos | tan | asin | acos | atan | atan2
  | ceil | floor | fmod | frac | trunc | clamp | min | max | pow | step
  | dot | cross | normalize | random | length | NumOpcodes
deriving DecidableEq

/-- Compile-time constants of the VM header (not in the source tree): the register
limits, the chunk size and the numeric value of every opcode enumerator. -/
structure Header where
  NumTempRegisters : Nat
  MaxInputRegisters : Nat
  VectorsPerChunk : Nat
  opcode : EOp → Nat

/-- The three kinds of vector storage a register slot can refer to. -/
inductive Bank where
  | Temp | Input | Output
deriving DecidableEq

/-- A non-null `VectorRegister*`: array `reg` of `bank`, at element `off`. -/
structure Ptr where
  bank : Bank
  reg : Nat
  off : Nat
deriving DecidableEq

/-- All vector storage reachable by the VM, plus the state of `FMath::Rand`. -/
structure Memory (F G : Type) where
  cell : Bank → Nat → Nat → Vec F
  seed : G

/-- Assignment `p[i] = v` through a non-null pointer. -/
def Memory.store {F G : Type} (m : Memory F G) (p : Ptr) (i : Nat) (v : Vec F) : Memory F G :=
  { m with cell := fun b r o =>
      if b = p.bank ∧ r = p.reg ∧ o = p.off + i then v else m.cell b r o }

/-- Read `p[i]`; `none` when `p` is the null pointer. -/
def Memory.load {F G : Type} (m : Memory F G) (p : Option Ptr) (i : Nat) : Option (Vec F) :=
  p.map fun q => m.cell q.bank q.reg (q.off + i)

/-- How a run ends: normal completion, the fatal log of an unknown opcode (with the
memory at that point), C++ undefined behaviour, or exhausted fuel of the model. -/
inductive Outcome (μ α : Type) where
  | ok (a : α)
  | fatal (op : Nat) (m : μ)
  | undefined
  | outOfFuel

/-- Sequencing of outcomes. -/
def Outcome.bind {μ α β : Type} (r : Outcome μ α) (f : α → Outcome μ β) : Outcome μ β :=
  match r with
  | .ok a => f a
  | .fatal op m => .fatal op m
  | .undefined => .undefined
  | .outOfFuel => .outOfFuel

instance {μ : Type} : Monad (Outcome μ) where
  pure := Outcome.ok
  bind := Outcome.bind

def SRCOP_RRR : Nat := 0x00
def SRCOP_RRC : Nat := 0x01
def SRCOP_RCR : Nat := 0x02
def SRCOP_RCC : Nat := 0x03
def SRCOP_CRC : Nat := 0x05
def SRCOP_CCR : Nat := 0x06
def SRCOP_CCC : Nat := 0x07

/-- Context information passed around during VM execution. -/
structure FVectorVMContext (F : Type) where
  Code : List Nat
  RegisterTable : Nat → Option Ptr
  ConstantTable : Nat → Vec F
  NumVectors : Int

/-! ## Bytecode decoder -/

section Decoder
variable {F G : Type}

/-- Reads `*Context.Code++`. -/
def nextByte (Context : FVectorVMContext F) :
    Outcome (Memory F G) (Nat × FVectorVMContext F) :=
  match Context.Code with
  | [] => .undefined
  | b :: rest => .ok (b, { Context with Code := rest })

/-- Decode the next operation contained in the bytecode. -/
def DecodeOp (Context : FVectorVMContext F) :
    Outcome (Memory F G) (Nat × FVectorVMContext F) :=
  nextByte Context

/-- Decode a register from the bytecode. -/
def DecodeRegister (Context : FVectorVMContext F) :
    Outcome (Memory F G) (Option Ptr × FVectorVMContext F) :=
  (nextByte Context).bind fun bc => .ok (bc.2.RegisterTable bc.1, bc.2)

/-- Decode a constant from the bytecode. -/
def DecodeConstant (Context : FVectorVMContext F) :
    Outcome (Memory F G) (Vec F × FVectorVMContext F) :=
  (nextByte Context).bind fun bc => .ok (bc.2.ConstantTable bc.1, bc.2)

/-- Decode the operand-descriptor byte. -/
def DecodeSrcOperandTypes (Context : FVectorVMContext F) :
    Outcome (Memory F G) (Nat × FVectorVMContext F) :=
  nextByte Context

end Decoder

/-! ## Kernel dispatch templates -/

section Dispatch
variable {F G : Type}

/-- The loop `for (i = 0; i < n; ++i) DoKernel(Dst++, ...)`, started at lane `i` with `k`
iterations left.  `body i m` reads the source operands of lane `i` and yields the
vector to store and the next state of the random generator; it is `none` when a
source pointer is null.  Storing through a null `Dst` is undefined behaviour. -/
def laneLoop (body : Nat → Memory F G → Option (Vec F × G)) (Dst : Option Ptr) :
    Nat → Nat → Memory F G → Outcome (Memory F G) (Memory F G)
  | 0, _, m => .ok m
  | k + 1, i, m =>
    match Dst, body i m with
    | some d, some vg => laneLoop body Dst k (i + 1) { (m.store d i vg.1) with seed := vg.2 }
    | _, _ => .undefined

/-- The counted loop over the `NumVectors` lanes of the chunk. -/
def forLanes (body : Nat → Memory F G → Option (Vec F × G)) (Dst : Option Ptr)
    (NumVectors : Int) (m : Memory F G) : Outcome (Memory F G) (Memory F G) :=
  laneLoop body Dst NumVectors.toNat 0 m

/-- Base class for vector kernels with one dest and one src operand. -/
def TUnaryVectorKernel.Exec (DoKernel : G → Vec F → Vec F × G)
    (Context : FVectorVMContext F) (m : Memory F G) :
    Outcome (Memory F G) (FVectorVMContext F × Memory F G) := do
  let (Dst, Context) ← DecodeRegister Context
  let (SrcOpTypes, Context) ← DecodeSrcOperandTypes Context
  let NumVectors := Context.NumVectors
  if SrcOpTypes = SRCOP_RRR then
    let (Src0, Context) ← DecodeRegister Context
    let m ← forLanes (fun i m => (m.load Src0 i).map fun a => DoKernel m.seed a)
      Dst NumVectors m
    pure (Context, m)
  else if SrcOpTypes = SRCOP_RRC then
    let (Src0, Context) ← DecodeConstant Context
    let m ← forLanes (fun _ m => some (DoKernel m.seed Src0)) Dst NumVectors m
    pure (Context, m)
  else
    pure (Context, m)

/-- Base class for vector kernels with one dest and two src operands. -/
def TBinaryVectorKernel.Exec (DoKernel : G → Vec F → Vec F → Vec F × G)
    (Context : FVectorVMContext F) (m : Memory F G) :
    Outcome (Memory F G) (FVectorVMContext F × Memory F G) := do
  let (Dst, Context) ← DecodeRegister Context
  let (SrcOpTypes, Context) ← DecodeSrcOperandTypes Context
  let NumVectors := Context.NumVectors
  if SrcOpTypes = SRCOP_RRR then
    let (Src0, Context) ← DecodeRegister Context
    let (Src1, Context) ← DecodeRegister Context
    let m ← forLanes (fun i m => (m.load Src0 i).bind fun a => (m.load Src1 i).map fun b =>
      DoKernel m.seed a b) Dst NumVectors m
    pure (Context, m)
  else if SrcOpTypes = SRCOP_RRC then
    let (Src0, Context) ← DecodeConstant Context
    let (Src1, Context) ← DecodeRegister Context
    let m ← forLanes (fun i m => (m.load Src1 i).map fun b => DoKernel m.seed Src0 b)
      Dst NumVectors m
    pure (Context, m)
  else if SrcOpTypes = SRCOP_RCR then
    let (Src0, Context) ← DecodeRegister Context
    let (Src1, Context) ← DecodeConstant Context
    let m ← forLanes (fun i m => (m.load Src0 i).map fun a => DoKernel m.seed a Src1)
      Dst NumVectors m
    pure (Context, m)
  else if SrcOpTypes = SRCOP_RCC then
    let (Src0, Context) ← DecodeConstant Context
    let (Src1, Context) ← DecodeConstant Context
    let m ← forLanes (fun _ m => some (DoKernel m.seed Src0 Src1)) Dst NumVectors m
    pure (Context, m)
  else
    pure (Context, m)

/-- Base class for vector kernels with one dest and three src operands. -/
def TTrinaryVectorKernel.Exec (DoKernel : G → Vec F → Vec F → Vec F → Vec F × G)
    (Context : FVectorVMContext F) (m : Memory F G) :
    Outcome (Memory F G) (FVectorVMContext F × Memory F G) := do
  let (Dst, Context) ← DecodeRegister Context
  let (SrcOpTypes, Context) ← DecodeSrcOperandTypes Context
  let NumVectors := Context.NumVectors
  if SrcOpTypes = SRCOP_RRR then
    let (Src0, Context) ← DecodeRegister Context
    let (Src1, Context) ← DecodeRegister Context
    let (Src2, Context) ← DecodeRegister Context
    let m ← forLanes (fun i m => (m.load Src0 i).bind fun a => (m.load Src1 i).bind fun b =>
      (m.load Src2 i).map fun c => DoKernel m.seed a b c) Dst NumVectors m
    pure (Context, m)
  else if SrcOpTypes = SRCOP_RRC then
    let (Src0, Context) ← DecodeConstant Context
    let (Src1, Context) ← DecodeRegister Context
    let (Src2, Context) ← DecodeRegister Context
    let m ← forLanes (fun i m => (m.load Src1 i).bind fun b => (m.load Src2 i).map fun c =>
      DoKernel m.seed Src0 b c) Dst NumVectors m
    pure (Context, m)
  else if SrcOpTypes = SRCOP_CCC then
    let (Src0, Context) ← DecodeConstant Context
    let (Src1, Context) ← DecodeConstant Context
    let (Src2, Context) ← DecodeConstant Context
    let m ← forLanes (fun _ m => some (DoKernel m.seed Src0 Src1 Src2)) Dst NumVectors m
    pure (Context, m)
  else if SrcOpTypes = SRCOP_CCR then
    let (Src0, Context) ← DecodeRegister Context
    let (Src1, Context) ← DecodeConstant Context
    let (Src2, Context) ← DecodeConstant Context
    let m ← forLanes (fun i m => (m.load Src0 i).map fun a => DoKernel m.seed a Src1 Src2)
      Dst NumVectors m
    pure (Context, m)
  else if SrcOpTypes = SRCOP_RCC then
    let (Src0, Context) ← DecodeConstant Context
    let (Src1, Context) ← DecodeConstant Context
    let (Src2, Context) ← DecodeRegister Context
    let m ← forLanes (fun i m => (m.load Src2 i).map fun c => DoKernel m.seed Src0 Src1 c)
      Dst NumVectors m
    pure (Context, m)
  else if SrcOpTypes = SRCOP_RCR then
    let (Src0, Context) ← DecodeRegister Context
    let (Src1, Context) ← DecodeConstant Context
    let (Src2, Context) ← DecodeRegister Context
    let m ← forLanes (fun i m => (m.load Src0 i).bind fun a => (m.load Src2 i).map fun c =>
      DoKernel m.seed a Src1 c) Dst NumVectors m
    pure (Context, m)
  else
    pure (Context, m)

end Dispatch

/-! ## Vector intrinsics -/

section Intrinsics
variable {F G : Type} (P : Platform F G)

/-- Modelled from the spec: the engine intrinsic `VectorAdd` (platform math header, not in
the source tree), "standard elementwise". -/
def VectorAdd (a b : Vec F) : Vec F :=
  ⟨P.add a.x b.x, P.add a.y b.y, P.add a.z b.z, P.add a.w b.w⟩

/-- Modelled from the spec: the engine intrinsic `VectorSubtract`, "standard elementwise". -/
def VectorSubtract (a b : Vec F) : Vec F :=
  ⟨P.sub a.x b.x, P.sub a.y b.y, P.sub a.z b.z, P.sub a.w b.w⟩

/-- Modelled from the spec: the engine intrinsic `VectorMultiply`, "standard elementwise". -/
def VectorMultiply (a b : Vec F) : Vec F :=
  ⟨P.mul a.x b.x, P.mul a.y b.y, P.mul a.z b.z, P.mul a.w b.w⟩

/-- Modelled from the spec: the engine intrinsic `VectorMultiplyAdd`, "mad(a,b,c) = a·b + c". -/
def VectorMultiplyAdd (a b c : Vec F) : Vec F :=
  ⟨P.add (P.mul a.x b.x) c.x, P.add (P.mul a.y b.y) c.y,
   P.add (P.mul a.z b.z) c.z, P.add (P.mul a.w b.w) c.w⟩

/-- Modelled from the spec: the engine intrinsic `VectorReciprocal`, "standard unary". -/
def VectorReciprocal (a : Vec F) : Vec F :=
  ⟨P.rcp a.x, P.rcp a.y, P.rcp a.z, P.rcp a.w⟩

/-- Modelled from the spec: the engine intrinsic `VectorReciprocalSqrt`, "standard unary". -/
def VectorReciprocalSqrt (a : Vec F) : Vec F :=
  ⟨P.rsq a.x, P.rsq a.y, P.rsq a.z, P.rsq a.w⟩

/-- Modelled from the spec: the engine intrinsic `VectorNegate`, "standard unary". -/
def VectorNegate (a : Vec F) : Vec F :=
  ⟨P.neg a.x, P.neg a.y, P.neg a.z, P.neg a.w⟩

/-- Modelled from the spec: the engine intrinsic `VectorAbs`, "standard unary". -/
def VectorAbs (a : Vec F) : Vec F :=
  ⟨P.abs a.x, P.abs a.y, P.abs a.z, P.abs a.w⟩

/-- Modelled from the spec: the engine intrinsic `VectorMin`, "standard binary". -/
def VectorMin (a b : Vec F) : Vec F :=
  ⟨P.fmin a.x b.x, P.fmin a.y b.y, P.fmin a.z b.z, P.fmin a.w b.w⟩

/-- Modelled from the spec: the engine intrinsic `VectorMax`, "standard binary". -/
def VectorMax (a b : Vec F) : Vec F :=
  ⟨P.fmax a.x b.x, P.fmax a.y b.y, P.fmax a.z b.z, P.fmax a.w b.w⟩

/-- Modelled from the spec: the engine intrinsic `VectorPow`, "pow(base,exp): standard binary". -/
def VectorPow (a b : Vec F) : Vec F :=
  ⟨P.pow a.x b.x, P.pow a.y b.y, P.pow a.z b.z, P.pow a.w b.w⟩

/-- Modelled from the spec: the engine intrinsic `VectorDot4`, "four-component dot product,
result broadcast across all four output lanes". -/
def VectorDot4 (a b : Vec F) : Vec F :=
  let d := P.add (P.add (P.add (P.mul a.x b.x) (P.mul a.y b.y)) (P.mul a.z b.z)) (P.mul a.w b.w)
  ⟨d, d, d, d⟩

/-- Modelled from the spec: the engine intrinsic `VectorCross`, "standard 3-component cross
product", fourth component zero. -/
def VectorCross (a b : Vec F) : Vec F :=
  ⟨P.sub (P.mul a.y b.z) (P.mul a.z b.y), P.sub (P.mul a.z b.x) (P.mul a.x b.z),
   P.sub (P.mul a.x b.y) (P.mul a.y b.x), P.zero⟩

/-- Modelled from the spec: the engine intrinsic `VectorNormalize`; its convention at
length zero is left to the platform. -/
def VectorNormalize (a : Vec F) : Vec F :=
  P.normalize a

/-- The engine helper `MakeVectorRegister(x, y, z, w)`. -/
def MakeVectorRegister (x y z w : F) : Vec F :=
  ⟨x, y, z, w⟩

end Intrinsics

/-! ## Implementation of all kernel operations

Each `DoKernel` returns the vector the source stores through `Dst` together with
the next state of the random generator (unchanged by every kernel but `random`). -/

section Kernels
variable {F G : Type} (P : Platform F G)

def FVectorKernelAdd.DoKernel (g : G) (Src0 Src1 : Vec F) : Vec F × G :=
  (VectorAdd P Src0 Src1, g)

def FVectorKernelSub.DoKernel (g : G) (Src0 Src1 : Vec F) : Vec F × G :=
  (VectorSubtract P Src0 Src1, g)

def FVectorKernelMul.DoKernel (g : G) (Src0 Src1 : Vec F) : Vec F × G :=
  (VectorMultiply P Src0 Src1, g)

def FVectorKernelMad.DoKernel (g : G) (Src0 Src1 Src2 : Vec F) : Vec F × G :=
  (VectorMultiplyAdd P Src0 Src1 Src2, g)

def FVectorKernelLerp.DoKernel (g : G) (Src0 Src1 Src2 : Vec F) : Vec F × G :=
  let One := MakeVectorRegister P.one P.one P.one P.one
  let OneMinusAlpha := VectorSubtract P One Src2
  let Tmp := VectorMultiply P Src0 OneMinusAlpha
  (VectorMultiplyAdd P Src1 Src2 Tmp, g)

def FVectorKernelRcp.DoKernel (g : G) (Src0 : Vec F) : Vec F × G :=
  (VectorReciprocal P Src0, g)

def FVectorKernelRsq.DoKernel (g : G) (Src0 : Vec F) : Vec F × G :=
  (VectorReciprocalSqrt P Src0, g)

def FVectorKernelSqrt.DoKernel (g : G) (Src0 : Vec F) : Vec F × G :=
  (⟨P.sqrt Src0.x, P.sqrt Src0.y, P.sqrt Src0.z, P.sqrt Src0.w⟩, g)

def FVectorKernelNeg.DoKernel (g : G) (Src0 : Vec F) : Vec F × G :=
  (VectorNegate P Src0, g)

def FVectorKernelAbs.DoKernel (g : G) (Src0 : Vec F) : Vec F × G :=
  (VectorAbs P Src0, g)

def FVectorKernelClamp.DoKernel (g : G) (Src0 Src1 Src2 : Vec F) : Vec F × G :=
  let Tmp := VectorMax P Src0 Src1
  (VectorMin P Tmp Src2, g)

def FVectorKernelSin.DoKernel (g : G) (Src0 : Vec F) : Vec F × G :=
  let v := Src0.x
  let sn := P.sin (P.mul v P.lit314)
  (MakeVectorRegister sn sn sn sn, g)

def FVectorKernelDot.DoKernel (g : G) (Src0 Src1 : Vec F) : Vec F × G :=
  (VectorDot4 P Src0 Src1, g)

def FVectorKernelLength.DoKernel (g : G) (Src0 : Vec F) : Vec F × G :=
  let Temp := VectorDot4 P Src0 Src0
  let SDot := P.sqrt Temp.x
  (MakeVectorRegister SDot SDot SDot SDot, g)

def FVectorKernelCross.DoKernel (g : G) (Src0 Src1 : Vec F) : Vec F × G :=
  (VectorCross P Src0 Src1, g)

def FVectorKernelNormalize.DoKernel (g : G) (Src0 : Vec F) : Vec F × G :=
  (VectorNormalize P Src0, g)

/-- The four calls of `FMath::Rand` are taken in argument order. -/
def FVectorKernelRandom.DoKernel (g : G) (Src0 : Vec F) : Vec F × G :=
  let rm := P.ofNat P.RAND_MAX
  let r0 := P.Rand g
  let r1 := P.Rand r0.2
  let r2 := P.Rand r1.2
  let r3 := P.Rand r2.2
  let Result := MakeVectorRegister (P.div (P.ofNat r0.1) rm) (P.div (P.ofNat r1.1) rm)
    (P.div (P.ofNat r2.1) rm) (P.div (P.ofNat r3.1) rm)
  (VectorMultiply P Result Src0, r3.2)

def FVectorKernelMin.DoKernel (g : G) (Src0 Src1 : Vec F) : Vec F × G :=
  (VectorMin P Src0 Src1, g)

def FVectorKernelMax.DoKernel (g : G) (Src0 Src1 : Vec F) : Vec F × G :=
  (VectorMax P Src0 Src1, g)

def FVectorKernelPow.DoKernel (g : G) (Src0 Src1 : Vec F) : Vec F × G :=
  (VectorPow P Src0 Src1, g)

end Kernels

/-! ## The chunk scheduler `VectorVM::Exec` -/

section Scheduler
variable {F G : Type}

/-- Two's-complement reduction of an integer to the `int32` range. -/
def wrapInt32 (x : Int) : Int :=
  (x + 2147483648) % 4294967296 - 2147483648

/-- The kernel classes derived from `TUnaryVectorKernel`. -/
inductive UnaryKernel where
  | Rcp | Rsq | Sqrt | Neg | Abs | Sin | Length | Normalize | Random
deriving DecidableEq

/-- The kernel classes derived from `TBinaryVectorKernel`. -/
inductive BinaryKernel where
  | Add | Sub | Mul | Min | Max | Pow | Dot | Cross
deriving DecidableEq

/-- The kernel classes derived from `TTrinaryVectorKernel`. -/
inductive TrinaryKernel where
  | Mad | Lerp | Clamp
deriving DecidableEq

/-- A kernel class `FVectorKernel...` together with the template it derives from. -/
inductive KernelClass where
  | unary (k : UnaryKernel)
  | binary (k : BinaryKernel)
  | trinary (k : TrinaryKernel)
deriving DecidableEq

def UnaryKernel.DoKernel (P : Platform F G) : UnaryKernel → G → Vec F → Vec F × G
  | .Rcp => FVectorKernelRcp.DoKernel P
  | .Rsq => FVectorKernelRsq.DoKernel P
  | .Sqrt => FVectorKernelSqrt.DoKernel P
  | .Neg => FVectorKernelNeg.DoKernel P
  | .Abs => FVectorKernelAbs.DoKernel P
  | .Sin => FVectorKernelSin.DoKernel P
  | .Length => FVectorKernelLength.DoKernel P
  | .Normalize => FVectorKernelNormalize.DoKernel P
  | .Random => FVectorKernelRandom.DoKernel P

def BinaryKernel.DoKernel (P : Platform F G) : BinaryKernel → G → Vec F → Vec F → Vec F × G
  | .Add => FVectorKernelAdd.DoKernel P
  | .Sub => FVectorKernelSub.DoKernel P
  | .Mul => FVectorKernelMul.DoKernel P
  | .Min => FVectorKernelMin.DoKernel P
  | .Max => FVectorKernelMax.DoKernel P
  | .Pow => FVectorKernelPow.DoKernel P
  | .Dot => FVectorKernelDot.DoKernel P
  | .Cross => FVectorKernelCross.DoKernel P

def TrinaryKernel.DoKernel (P : Platform F G) :
    TrinaryKernel → G → Vec F → Vec F → Vec F → Vec F × G
  | .Mad => FVectorKernelMad.DoKernel P
  | .Lerp => FVectorKernelLerp.DoKernel P
  | .Clamp => FVectorKernelClamp.DoKernel P

/-- The member `Exec` a kernel class inherits from its base template. -/
def KernelClass.Exec (P : Platform F G) (k : KernelClass) (Context : FVectorVMContext F)
    (m : Memory F G) : Outcome (Memory F G) (FVectorVMContext F × Memory F G) :=
  match k with
  | .unary k => TUnaryVectorKernel.Exec (k.DoKernel P) Context m
  | .binary k => TBinaryVectorKernel.Exec (k.DoKernel P) Context m
  | .trinary k => TTrinaryVectorKernel.Exec (k.DoKernel P) Context m

/-- The kernel cases of the `switch (Op)` in source order; `none` when `Op` is none of
the twenty dispatched opcodes. -/
def switchOp (H : Header) (Op : Nat) : Option KernelClass :=
  if Op = H.opcode .add then some (.binary .Add)
  else if Op = H.opcode .sub then some (.binary .Sub)
  else if Op = H.opcode .mul then some (.binary .Mul)
  else if Op = H.opcode .mad then some (.trinary .Mad)
  else if Op = H.opcode .lerp then some (.trinary .Lerp)
  else if Op = H.opcode .rcp then some (.unary .Rcp)
  else if Op = H.opcode .rsq then some (.unary .Rsq)
  else if Op = H.opcode .sqrt then some (.unary .Sqrt)
  else if Op = H.opcode .neg then some (.unary .Neg)
  else if Op = H.opcode .abs then some (.unary .Abs)
  else if Op = H.opcode .clamp then some (.trinary .Clamp)
  else if Op = H.opcode .min then some (.binary .Min)
  else if Op = H.opcode .max then some (.binary .Max)
  else if Op = H.opcode .pow then some (.binary .Pow)
  else if Op = H.opcode .sin then some (.unary .Sin)
  else if Op = H.opcode .dot then some (.binary .Dot)
  else if Op = H.opcode .length then some (.unary .Length)
  else if Op = H.opcode .cross then some (.binary .Cross)
  else if Op = H.opcode .normalize then some (.unary .Normalize)
  else if Op = H.opcode .random then some (.unary .Random)
  else none

/-- The `do ... while (Op != EOp::done)` loop of one chunk.  Every iteration reads at
least one byte, so `fuel` larger than the length of the program is never used up. -/
def execChunk (H : Header) (P : Platform F G) :
    Nat → FVectorVMContext F → Memory F G → Outcome (Memory F G) (Memory F G)
  | 0, _, _ => .outOfFuel
  | fuel + 1, Context, m =>
    (DecodeOp Context).bind fun oc =>
      match switchOp H oc.1 with
      | some k => (k.Exec P oc.2 m).bind fun cm => execChunk H P fuel cm.1 cm.2
      | none => if oc.1 = H.opcode .done then .ok m else .fatal oc.1 m

/-- The loop `for (i = 0; i < NumTempRegisters; ++i) RegisterTable[i] = TempRegisters[i]`
on a table that starts out all null. -/
def mapTempRegisters (H : Header) : Nat → Option Ptr :=
  (List.range H.NumTempRegisters).foldl
    (fun T i => Function.update T i (some ⟨Bank.Temp, i, 0⟩)) (fun _ => none)

/-- The two loops that map the input and then the output registers of a chunk. -/
def mapChunkRegisters (H : Header) (NumInputRegisters NumOutputRegisters ChunkIndex : Nat)
    (RegisterTable : Nat → Option Ptr) : Nat → Option Ptr :=
  let T := (List.range NumInputRegisters).foldl
    (fun T i => Function.update T (H.NumTempRegisters + i)
      (some ⟨Bank.Input, i, ChunkIndex * H.VectorsPerChunk⟩)) RegisterTable
  (List.range NumOutputRegisters).foldl
    (fun T i => Function.update T (H.NumTempRegisters + H.MaxInputRegisters + i)
      (some ⟨Bank.Output, i, ChunkIndex * H.VectorsPerChunk⟩)) T

/-- The chunk loop `for (ChunkIndex = 0; ChunkIndex < NumChunks; ++ChunkIndex)`, with
`remaining = NumChunks - ChunkIndex` iterations left. -/
def chunkLoop (H : Header) (P : Platform F G) (Code : List Nat)
    (NumInputRegisters NumOutputRegisters : Nat) (ConstantTable : Nat → Vec F) :
    Nat → Nat → Int → (Nat → Option Ptr) → Memory F G → Outcome (Memory F G) (Memory F G)
  | 0, _, _, _, m => .ok m
  | remaining + 1, ChunkIndex, NumVectors, RegisterTable, m =>
    let RegisterTable :=
      mapChunkRegisters H NumInputRegisters NumOutputRegisters ChunkIndex RegisterTable
    let VectorsThisChunk := min NumVectors (H.VectorsPerChunk : Int)
    let Context : FVectorVMContext F := ⟨Code, RegisterTable, ConstantTable, VectorsThisChunk⟩
    (execChunk H P (Code.length + 1) Context m).bind fun m =>
      chunkLoop H P Code NumInputRegisters NumOutputRegisters ConstantTable
        remaining (ChunkIndex + 1) (NumVectors - H.VectorsPerChunk) RegisterTable m

/-- The chunk count `(NumVectors + VectorsPerChunk - 1) / VectorsPerChunk` in `int32`
arithmetic with truncating division. -/
def NumChunks (H : Header) (NumVectors : Int) : Int :=
  Int.tdiv (wrapInt32 (wrapInt32 (NumVectors + H.VectorsPerChunk) - 1)) H.VectorsPerChunk

/-- The entry point `VectorVM::Exec`.  The caller arrays `InputRegisters[i]` and
`OutputRegisters[i]` are the arrays `i` of the banks `Input` and `Output` of `m`; the
bank `Temp` of `m` is the uninitialised local `TempRegisters`. -/
def Exec (H : Header) (P : Platform F G) (Code : List Nat)
    (NumInputRegisters NumOutputRegisters : Nat) (ConstantTable : Nat → Vec F)
    (NumVectors : Int) (m : Memory F G) : Outcome (Memory F G) (Memory F G) :=
  chunkLoop H P Code NumInputRegisters NumOutputRegisters ConstantTable
    (NumChunks H NumVectors).toNat 0 NumVectors (mapTempRegisters H) m

end Scheduler

/-! ## Decoded programs

The bytes an iteration of the decode loop consumes do not depend on the data, so a
program can be decoded ahead of execution into a list of instructions.  The
definitions below restate the decoder and the dispatchers in that form; the
theorems `KernelClass.Exec_eq` and `execChunk_eq` show that they agree with the
embedded code. -/

section Decoded
variable {F G : Type}

/-- A source operand as selected by the descriptor: register index or constant index. -/
inductive Operand where
  | reg (i : Nat)
  | const (i : Nat)
deriving DecidableEq

/-- One iteration of the decode loop that dispatched a kernel: a wired instruction of
arity one, two or three, or `nop` for a descriptor that matches no wired case. -/
inductive Instr where
  | un (k : UnaryKernel) (dst : Nat) (a : Operand)
  | bin (k : BinaryKernel) (dst : Nat) (a b : Operand)
  | tri (k : TrinaryKernel) (dst : Nat) (a b c : Operand)
  | nop (k : KernelClass) (dst desc : Nat)
deriving DecidableEq

/-- Bytes read by `TUnaryVectorKernel::Exec`; `none` when the program ends early. -/
def decodeUnary (k : UnaryKernel) : List Nat → Option (Instr × List Nat)
  | dst :: d :: rest =>
    if d = SRCOP_RRR then
      match rest with
      | a :: rest => some (.un k dst (.reg a), rest)
      | [] => none
    else if d = SRCOP_RRC then
      match rest with
      | a :: rest => some (.un k dst (.const a), rest)
      | [] => none
    else some (.nop (.unary k) dst d, rest)
  | _ => none

/-- Bytes read by `TBinaryVectorKernel::Exec`; `none` when the program ends early. -/
def decodeBinary (k : BinaryKernel) : List Nat → Option (Instr × List Nat)
  | dst :: d :: rest =>
    if d = SRCOP_RRR then
      match rest with
      | a :: b :: rest => some (.bin k dst (.reg a) (.reg b), rest)
      | _ => none
    else if d = SRCOP_RRC then
      match rest with
      | a :: b :: rest => some (.bin k dst (.const a) (.reg b), rest)
      | _ => none
    else if d = SRCOP_RCR then
      match rest with
      | a :: b :: rest => some (.bin k dst (.reg a) (.const b), rest)
      | _ => none
    else if d = SRCOP_RCC then
      match rest with
      | a :: b :: rest => some (.bin k dst (.const a) (.const b), rest)
      | _ => none
    else some (.nop (.binary k) dst d, rest)
  | _ => none

/-- Bytes read by `TTrinaryVectorKernel::Exec`; `none` when the program ends early. -/
def decodeTrinary (k : TrinaryKernel) : List Nat → Option (Instr × List Nat)
  | dst :: d :: rest =>
    if d = SRCOP_RRR then
      match rest with
      | a :: b :: c :: rest => some (.tri k dst (.reg a) (.reg b) (.reg c), rest)
      | _ => none
    else if d = SRCOP_RRC then
      match rest with
      | a :: b :: c :: rest => some (.tri k dst (.const a) (.reg b) (.reg c), rest)
      | _ => none
    else if d = SRCOP_CCC then
      match rest with
      | a :: b :: c :: rest => some (.tri k dst (.const a) (.const b) (.const c), rest)
      | _ => none
    else if d = SRCOP_CCR then
      match rest with
      | a :: b :: c :: rest => some (.tri k dst (.reg a) (.const b) (.const c), rest)
      | _ => none
    else if d = SRCOP_RCC then
      match rest with
      | a :: b :: c :: rest => some (.tri k dst (.const a) (.const b) (.reg c), rest)
      | _ => none
    else if d = SRCOP_RCR then
      match rest with
      | a :: b :: c :: rest => some (.tri k dst (.reg a) (.const b) (.reg c), rest)
      | _ => none
    else some (.nop (.trinary k) dst d, rest)
  | _ => none

/-- Bytes read by the `Exec` of a kernel class. -/
def decodeKernel : KernelClass → List Nat → Option (Instr × List Nat)
  | .unary k => decodeUnary k
  | .binary k => decodeBinary k
  | .trinary k => decodeTrinary k

/-- How the decode loop of a chunk ends. -/
inductive Ending where
  | done
  | unknown (op : Nat)
  | overrun
  | outOfFuel
deriving DecidableEq

/-- The instructions the decode loop dispatches, in order, and how the loop ends. -/
def decodeProgram (H : Header) : Nat → List Nat → List Instr × Ending
  | 0, _ => ([], .outOfFuel)
  | _ + 1, [] => ([], .overrun)
  | fuel + 1, Op :: rest =>
    match switchOp H Op with
    | some k =>
      match decodeKernel k rest with
      | some (ins, rest) => ((decodeProgram H fuel rest).1.cons ins, (decodeProgram H fuel rest).2)
      | none => ([], .overrun)
    | none => if Op = H.opcode .done then ([], .done) else ([], .unknown Op)

/-- Value of a source operand at lane `i`: a register operand is read through the
register table, a constant operand is the same vector for every lane. -/
def Operand.read (T : Nat → Option Ptr) (C : Nat → Vec F) (m : Memory F G) (i : Nat) :
    Operand → Option (Vec F)
  | .reg r => m.load (T r) i
  | .const c => some (C c)

/-- The destination register index of an instruction. -/
def Instr.dst : Instr → Nat
  | .un _ d _ => d
  | .bin _ d _ _ => d
  | .tri _ d _ _ _ => d
  | .nop _ d _ => d

/-- The source operands of an instruction, left to right. -/
def Instr.srcs : Instr → List Operand
  | .un _ _ a => [a]
  | .bin _ _ a b => [a, b]
  | .tri _ _ a b c => [a, b, c]
  | .nop _ _ _ => []

/-- The loop body of an instruction: kernel applied to the operands of lane `i`. -/
def Instr.body (P : Platform F G) (T : Nat → Option Ptr) (C : Nat → Vec F) :
    Instr → Nat → Memory F G → Option (Vec F × G)
  | .un k _ a => fun i m => (a.read T C m i).map fun x => k.DoKernel P m.seed x
  | .bin k _ a b => fun i m => (a.read T C m i).bind fun x => (b.read T C m i).map fun y =>
      k.DoKernel P m.seed x y
  | .tri k _ a b c => fun i m => (a.read T C m i).bind fun x => (b.read T C m i).bind fun y =>
      (c.read T C m i).map fun z => k.DoKernel P m.seed x y z
  | .nop _ _ _ => fun _ _ => none

/-- Effect of one decoded instruction on the memory of a chunk of `n` lanes. -/
def Instr.exec (P : Platform F G) (T : Nat → Option Ptr) (C : Nat → Vec F) (n : Int)
    (ins : Instr) (m : Memory F G) : Outcome (Memory F G) (Memory F G) :=
  match ins with
  | .nop _ _ _ => .ok m
  | ins => forLanes (ins.body P T C) (T ins.dst) n m

/-- Effect of a list of decoded instructions. -/
def execInstrs (P : Platform F G) (T : Nat → Option Ptr) (C : Nat → Vec F) (n : Int) :
    List Instr → Memory F G → Outcome (Memory F G) (Memory F G)
  | [], m => .ok m
  | ins :: rest, m => (ins.exec P T C n m).bind (execInstrs P T C n rest)

/-- The outcome of a chunk whose decode loop ends in the given way. -/
def Ending.outcome (e : Ending) (m : Memory F G) : Outcome (Memory F G) (Memory F G) :=
  match e with
  | .done => .ok m
  | .unknown op => .fatal op m
  | .overrun => .undefined
  | .outOfFuel => .outOfFuel

end Decoded

/-! ## Single-lane semantics and closed forms -/

section LaneDefs
variable {F G : Type}

/-- The memory in which lanes `0 .. n-1` of the array behind `d` hold `val 0 .. val (n-1)`. -/
def Memory.writeLanes (m : Memory F G) (d : Ptr) (n : Nat) (val : Nat → Vec F) : Memory F G :=
  { m with cell := fun b r o =>
      if b = d.bank ∧ r = d.reg ∧ d.off ≤ o ∧ o < d.off + n then val (o - d.off)
      else m.cell b r o }

/-- The state of a machine that processes one lane: one vector per register slot and
the state of the random generator. -/
structure Lane (F G : Type) where
  reg : Nat → Vec F
  seed : G

/-- Value of a source operand on a single lane. -/
def Operand.value (C : Nat → Vec F) (R : Nat → Vec F) : Operand → Vec F
  | .reg r => R r
  | .const c => C c

/-- One instruction evaluated on a single lane: the kernel applied to the operand
values, the result assigned to the destination register. -/
def Instr.evalLane (P : Platform F G) (C : Nat → Vec F) (ins : Instr) (s : Lane F G) : Lane F G :=
  match ins with
  | .un k d a =>
    ⟨Function.update s.reg d (k.DoKernel P s.seed (a.value C s.reg)).1,
     (k.DoKernel P s.seed (a.value C s.reg)).2⟩
  | .bin k d a b =>
    ⟨Function.update s.reg d (k.DoKernel P s.seed (a.value C s.reg) (b.value C s.reg)).1,
     (k.DoKernel P s.seed (a.value C s.reg) (b.value C s.reg)).2⟩
  | .tri k d a b c =>
    ⟨Function.update s.reg d
       (k.DoKernel P s.seed (a.value C s.reg) (b.value C s.reg) (c.value C s.reg)).1,
     (k.DoKernel P s.seed (a.value C s.reg) (b.value C s.reg) (c.value C s.reg)).2⟩
  | .nop _ _ _ => s

/-- The instructions of a program evaluated in order on a single lane. -/
def evalLane (P : Platform F G) (C : Nat → Vec F) (instrs : List Instr) (s : Lane F G) :
    Lane F G :=
  instrs.foldl (fun s ins => ins.evalLane P C s) s

/-- Whether the instruction runs the `random` kernel. -/
def Instr.usesRandom : Instr → Bool
  | .un .Random _ _ => true
  | _ => false

/-- Whether the descriptor of the instruction matched a wired case. -/
def Instr.wired : Instr → Bool
  | .nop _ _ _ => false
  | _ => true

/-- The register table during chunk `ChunkIndex`, in closed form. -/
def chunkTable (H : Header) (NumInputRegisters NumOutputRegisters ChunkIndex : Nat) :
    Nat → Option Ptr := fun s =>
  if H.NumTempRegisters + H.MaxInputRegisters ≤ s ∧
      s < H.NumTempRegisters + H.MaxInputRegisters + NumOutputRegisters then
    some ⟨Bank.Output, s - (H.NumTempRegisters + H.MaxInputRegisters),
      ChunkIndex * H.VectorsPerChunk⟩
  else if H.NumTempRegisters ≤ s ∧ s < H.NumTempRegisters + NumInputRegisters then
    some ⟨Bank.Input, s - H.NumTempRegisters, ChunkIndex * H.VectorsPerChunk⟩
  else if s < H.NumTempRegisters then some ⟨Bank.Temp, s, 0⟩
  else none

/-- The register indices among the source operands of an instruction. -/
def Instr.srcRegs (ins : Instr) : List Nat :=
  ins.srcs.filterMap fun o => match o with
    | .reg r => some r
    | .const _ => none

/-- Every register index an executed instruction passes through the register table:
the destination and the register operands of a wired instruction.  An unwired
instruction decodes its destination pointer but never uses it. -/
def Instr.regs : Instr → List Nat
  | .nop _ _ _ => []
  | ins => ins.dst :: ins.srcRegs

/-- Kernel result of an instruction on the register values `R` of one lane. -/
def Instr.result (P : Platform F G) (C : Nat → Vec F) (ins : Instr) (g : G) (R : Nat → Vec F) :
    Option (Vec F × G) :=
  match ins with
  | .un k _ a => some (k.DoKernel P g (a.value C R))
  | .bin k _ a b => some (k.DoKernel P g (a.value C R) (b.value C R))
  | .tri k _ a b c => some (k.DoKernel P g (a.value C R) (b.value C R) (c.value C R))
  | .nop _ _ _ => none

/-- Lane `j` of a chunk seen through the register table `T`: slot `s` holds element `j`
of the array the slot is bound to.  (The value given to an unbound slot is not used
by any result below.) -/
def Memory.lane (m : Memory F G) (T : Nat → Option Ptr) (j : Nat) : Nat → Vec F := fun s =>
  match T s with
  | some p => m.cell p.bank p.reg (p.off + j)
  | none => m.cell Bank.Temp 0 0

/-- No array is bound to two slots of the register table. -/
def TableOK (T : Nat → Option Ptr) : Prop :=
  ∀ s1 s2 p1 p2, T s1 = some p1 → T s2 = some p2 → p1.bank = p2.bank → p1.reg = p2.reg →
    s1 = s2

/-- Every register read by the instructions is in `S` or was written by an earlier
wired instruction of the list. -/
def definedBefore (S : Nat → Bool) : List Instr → Bool
  | [] => true
  | ins :: rest =>
    ins.srcRegs.all S && definedBefore (fun r => S r || (ins.wired && r == ins.dst)) rest

/-- Slot `s` is bound by `VectorVM::Exec`: a temporary, an input or an output slot. -/
def boundSlot (H : Header) (NumInputRegisters NumOutputRegisters : Nat) (s : Nat) : Bool :=
  (chunkTable H NumInputRegisters NumOutputRegisters 0 s).isSome

/-- The single lane `R` holds lane `g` of the caller arrays: input slot `k` holds element
`g` of input array `k`, output slot `k` element `g` of output array `k`. -/
def holdsLane (H : Header) (NumInputRegisters NumOutputRegisters : Nat) (m : Memory F G)
    (g : Nat) (R : Nat → Vec F) : Prop :=
  (∀ k, k < NumInputRegisters → R (H.NumTempRegisters + k) = m.cell Bank.Input k g) ∧
  (∀ k, k < NumOutputRegisters →
    R (H.NumTempRegisters + H.MaxInputRegisters + k) = m.cell Bank.Output k g)

/-- The lane count `VectorsThisChunk` of chunk `ChunkIndex` in a call with `NumVectors`
lanes: `Min(NumVectors, VectorsPerChunk)` after `ChunkIndex` decrements. -/
def VectorsThisChunk (H : Header) (NumVectors : Int) (ChunkIndex : Nat) : Int :=
  min (NumVectors - ChunkIndex * H.VectorsPerChunk) (H.VectorsPerChunk : Int)

/-- The chunk loop in decoded form: chunk `c` runs the decoded instructions through
the table `chunkTable c` over `VectorsThisChunk` lanes and ends as the program ends. -/
def runChunks (H : Header) (P : Platform F G) (NumInputRegisters NumOutputRegisters : Nat)
    (C : Nat → Vec F) (instrs : List Instr) (e : Ending) (NumVectors : Int) :
    Nat → Nat → Memory F G → Outcome (Memory F G) (Memory F G)
  | 0, _, m => .ok m
  | remaining + 1, c, m =>
    ((execInstrs P (chunkTable H NumInputRegisters NumOutputRegisters c) C
        (VectorsThisChunk H NumVectors c) instrs m).bind e.outcome).bind
      (runChunks H P NumInputRegisters NumOutputRegisters C instrs e NumVectors remaining (c + 1))

end LaneDefs

/-! ## Well-formedness of programs and statements of the contracts -/

section Contracts
variable {F G : Type}

/-- The instructions the decode loop dispatches on the program `Code`. -/
def Program.instrs (H : Header) (Code : List Nat) : List Instr :=
  (decodeProgram H (Code.length + 1) Code).1

/-- How the decode loop ends on the program `Code`. -/
def Program.ending (H : Header) (Code : List Nat) : Ending :=
  (decodeProgram H (Code.length + 1) Code).2

/-- Every register index the instructions use is a bound slot. -/
def registersBound (H : Header) (NumInputRegisters NumOutputRegisters : Nat)
    (instrs : List Instr) : Bool :=
  instrs.all fun ins => ins.regs.all (boundSlot H NumInputRegisters NumOutputRegisters)

/-- Every register the instructions read is a bound input or output slot or was
written by an earlier instruction: temporaries are written before they are read. -/
def temporariesWritten (H : Header) (NumInputRegisters NumOutputRegisters : Nat)
    (instrs : List Instr) : Bool :=
  definedBefore (fun r => boundSlot H NumInputRegisters NumOutputRegisters r &&
    decide (H.NumTempRegisters ≤ r)) instrs

/-- No instruction runs the `random` kernel. -/
def randomFree (instrs : List Instr) : Bool :=
  instrs.all fun ins => !ins.usesRandom

/-- No wired instruction has an input slot as its destination. -/
def inputsNotWritten (H : Header) (NumInputRegisters : Nat) (instrs : List Instr) : Bool :=
  instrs.all fun ins => !(ins.wired && decide (H.NumTempRegisters ≤ ins.dst) &&
    decide (ins.dst < H.NumTempRegisters + NumInputRegisters))

/-- The call over `L` lanes completes, and lane `g` of every output array is what the
instructions of the program compute, in order, on any single lane whose input and
output registers hold lane `g` of the caller arrays, with the constants of the call. -/
def LaneRefinement (H : Header) (P : Platform F G) (Code : List Nat)
    (NumInputRegisters NumOutputRegisters : Nat) (C : Nat → Vec F) (L : Nat)
    (m : Memory F G) : Prop :=
  ∃ m2, Exec H P Code NumInputRegisters NumOutputRegisters C (L : Int) m = .ok m2 ∧
    ∀ g, g < L → ∀ s : Lane F G, holdsLane H NumInputRegisters NumOutputRegisters m g s.reg →
      ∀ k, k < NumOutputRegisters →
        m2.cell Bank.Output k g =
          (evalLane P C (Program.instrs H Code) s).reg
            (H.NumTempRegisters + H.MaxInputRegisters + k)

/-- Every input array of the call is the same after a normal return as before. -/
def InputsPreserved (H : Header) (P : Platform F G) (Code : List Nat)
    (NumInputRegisters NumOutputRegisters : Nat) (C : Nat → Vec F) (NumVectors : Int)
    (m : Memory F G) : Prop :=
  ∀ m2, Exec H P Code NumInputRegisters NumOutputRegisters C NumVectors m = .ok m2 →
    ∀ k g, m2.cell Bank.Input k g = m.cell Bank.Input k g

/-- The memory a separate call on the slice that starts at lane `start` sees: the
caller's input and output arrays rebased to element `start`, and the call's own
uninitialised temporaries `temp` and generator state `seed`. -/
def Memory.rebase (m : Memory F G) (start : Nat) (temp : Nat → Nat → Vec F) (seed : G) :
    Memory F G :=
  ⟨fun b k o => match b with
    | .Temp => temp k o
    | b => m.cell b k (start + o), seed⟩

/-- One call over `L` lanes completes and agrees, lane for lane, with separate calls of
the same program on every slice of every partition of the `L` lanes into
consecutive slices of at most `VectorsPerChunk` lanes. -/
def SliceTransparent (H : Header) (P : Platform F G) (Code : List Nat)
    (NumInputRegisters NumOutputRegisters : Nat) (C : Nat → Vec F) (L : Nat)
    (m : Memory F G) : Prop :=
  ∃ m2, Exec H P Code NumInputRegisters NumOutputRegisters C (L : Int) m = .ok m2 ∧
    ∀ slices : List Nat, slices.sum = L → (∀ l ∈ slices, l ≤ H.VectorsPerChunk) →
      ∀ (i : Nat) (hi : i < slices.length) (temp : Nat → Nat → Vec F) (seed : G),
        ∃ ms2, Exec H P Code NumInputRegisters NumOutputRegisters C
            ((slices.get ⟨i, hi⟩ : Nat) : Int) (m.rebase (slices.take i).sum temp seed)
            = .ok ms2 ∧
          ∀ k, k < NumOutputRegisters → ∀ g, g < slices.get ⟨i, hi⟩ →
            ms2.cell Bank.Output k g = m2.cell Bank.Output k ((slices.take i).sum + g)

/-- A single lane that holds lane `g` of the caller arrays of `m`. -/
def laneOfArrays (H : Header) (m : Memory F G) (g : Nat) : Nat → Vec F := fun s =>
  if H.NumTempRegisters + H.MaxInputRegisters ≤ s then
    m.cell Bank.Output (s - (H.NumTempRegisters + H.MaxInputRegisters)) g
  else m.cell Bank.Input (s - H.NumTempRegisters) g

/-- The two runs complete and agree on the outputs of the lanes of chunk `c` when their
input arrays and their output arrays before the call agree on the lanes of chunk `c`. -/
def ChunkIndependent (H : Header) (P : Platform F G) (Code : List Nat)
    (NumInputRegisters NumOutputRegisters : Nat) (C : Nat → Vec F) (NumVectors : Int)
    (c : Nat) (m1 m2 : Memory F G) : Prop :=
  (∀ g, c * H.VectorsPerChunk ≤ g → g < (c + 1) * H.VectorsPerChunk → (g : Int) < NumVectors →
    (∀ k, k < NumInputRegisters → m1.cell Bank.Input k g = m2.cell Bank.Input k g) ∧
    (∀ k, k < NumOutputRegisters → m1.cell Bank.Output k g = m2.cell Bank.Output k g)) →
  ∃ r1 r2, Exec H P Code NumInputRegisters NumOutputRegisters C NumVectors m1 = .ok r1 ∧
    Exec H P Code NumInputRegisters NumOutputRegisters C NumVectors m2 = .ok r2 ∧
    ∀ g, c * H.VectorsPerChunk ≤ g → g < (c + 1) * H.VectorsPerChunk → (g : Int) < NumVectors →
      ∀ k, k < NumOutputRegisters → r1.cell Bank.Output k g = r2.cell Bank.Output k g

/-- Two runs on memories with the same input arrays and the same output arrays before
the call, whatever their temporaries and generator states, complete with identical
output arrays. -/
def Deterministic (H : Header) (P : Platform F G) (Code : List Nat)
    (NumInputRegisters NumOutputRegisters : Nat) (C : Nat → Vec F) (NumVectors : Int)
    (m1 m2 : Memory F G) : Prop :=
  (∀ k g, m1.cell Bank.Input k g = m2.cell Bank.Input k g) →
  (∀ k g, m1.cell Bank.Output k g = m2.cell Bank.Output k g) →
  ∃ r1 r2, Exec H P Code NumInputRegisters NumOutputRegisters C NumVectors m1 = .ok r1 ∧
    Exec H P Code NumInputRegisters NumOutputRegisters C NumVectors m2 = .ok r2 ∧
    ∀ k, k < NumOutputRegisters → ∀ g, r1.cell Bank.Output k g = r2.cell Bank.Output k g

/-- The call over `L` lanes runs `L / VectorsPerChunk + 1` chunks, every chunk but the
last over `VectorsPerChunk` lanes and the last over `L mod VectorsPerChunk` lanes,
`L` lanes in all; a normal return leaves every element of every output array at a
lane index `>= L` as it was; and the call returns normally when the register
indices of the program are bound slots. -/
def PartialLastChunk (H : Header) (P : Platform F G) (Code : List Nat)
    (NumInputRegisters NumOutputRegisters : Nat) (C : Nat → Vec F) (L : Nat)
    (m : Memory F G) : Prop :=
  Exec H P Code NumInputRegisters NumOutputRegisters C (L : Int) m =
      runChunks H P NumInputRegisters NumOutputRegisters C (Program.instrs H Code) .done
        (L : Int) (L / H.VectorsPerChunk + 1) 0 m ∧
    (∀ c, c < L / H.VectorsPerChunk →
      VectorsThisChunk H (L : Int) c = (H.VectorsPerChunk : Int)) ∧
    VectorsThisChunk H (L : Int) (L / H.VectorsPerChunk) = ((L % H.VectorsPerChunk : Nat) : Int) ∧
    ((List.range (L / H.VectorsPerChunk + 1)).map
      (fun c => VectorsThisChunk H (L : Int) c)).sum = (L : Int) ∧
    (∀ m2, Exec H P Code NumInputRegisters NumOutputRegisters C (L : Int) m = .ok m2 →
      ∀ k g, L ≤ g → m2.cell Bank.Output k g = m.cell Bank.Output k g) ∧
    (registersBound H NumInputRegisters NumOutputRegisters (Program.instrs H Code) = true →
      ∃ m2, Exec H P Code NumInputRegisters NumOutputRegisters C (L : Int) m = .ok m2)

/-- The twenty opcodes that have a kernel case in the `switch` of `VectorVM::Exec`. -/
def dispatchedOps : List EOp :=
  [.add, .sub, .mul, .mad, .lerp, .rcp, .rsq, .sqrt, .neg, .abs, .clamp, .min, .max, .pow,
   .sin, .dot, .length, .cross, .normalize, .random]

/-- If the decode loop meets, at an opcode position, a byte `b` that is neither `done`
nor a dispatched opcode, then, as soon as one chunk runs, the call ends in the fatal
outcome for `b`, which is not a normal return, with the memory left by the
instructions of the first chunk that were decoded before `b`; if the decode loop
meets `done` first, the call returns normally.  A chunk runs for every lane count
`L >= 1` whose chunk count does not overflow `int32`. -/
def UnknownOpcodeFatal (H : Header) (P : Platform F G) (Code : List Nat)
    (NumInputRegisters NumOutputRegisters : Nat) (C : Nat → Vec F) (L : Nat)
    (m : Memory F G) : Prop :=
  (∀ b, Program.ending H Code = .unknown b →
    (b ≠ H.opcode .done ∧ ∀ e ∈ dispatchedOps, b ≠ H.opcode e) ∧
    (0 < (NumChunks H (L : Int)).toNat →
      ∃ m1, execInstrs P (chunkTable H NumInputRegisters NumOutputRegisters 0) C
          (VectorsThisChunk H (L : Int) 0) (Program.instrs H Code) m = .ok m1 ∧
        Exec H P Code NumInputRegisters NumOutputRegisters C (L : Int) m = .fatal b m1 ∧
        ∀ m2, Exec H P Code NumInputRegisters NumOutputRegisters C (L : Int) m ≠ .ok m2)) ∧
  (Program.ending H Code = .done →
    ∃ m2, Exec H P Code NumInputRegisters NumOutputRegisters C (L : Int) m = .ok m2) ∧
  (0 < H.VectorsPerChunk → 1 ≤ L → L + H.VectorsPerChunk < 2147483648 →
    0 < (NumChunks H (L : Int)).toNat)

/-- The kernel of a class applied to a list of operand values, in order. -/
def KernelClass.apply (P : Platform F G) : KernelClass → G → List (Vec F) → Option (Vec F × G)
  | .unary k, g, [a] => some (k.DoKernel P g a)
  | .binary k, g, [a, b] => some (k.DoKernel P g a b)
  | .trinary k, g, [a, b, c] => some (k.DoKernel P g a b c)
  | _, _, _ => none

/-- The values of a list of operands at lane `i`, read from left to right. -/
def readAll (T : Nat → Option Ptr) (C : Nat → Vec F) (m : Memory F G) (i : Nat) :
    List Operand → Option (List (Vec F))
  | [] => some []
  | o :: os => (o.read T C m i).bind fun v => (readAll T C m i os).map fun vs => v :: vs

/-- The number of source operands of a kernel class. -/
def KernelClass.arity : KernelClass → Nat
  | .unary _ => 1
  | .binary _ => 2
  | .trinary _ => 3

/-- Whether the descriptor byte `d` matches a wired case of the dispatcher of `k`. -/
def wiredDescriptor : KernelClass → Nat → Bool
  | .unary _, d => decide (d = SRCOP_RRR ∨ d = SRCOP_RRC)
  | .binary _, d => decide (d = SRCOP_RRR ∨ d = SRCOP_RRC ∨ d = SRCOP_RCR ∨ d = SRCOP_RCC)
  | .trinary _, d => decide (d = SRCOP_RRR ∨ d = SRCOP_RRC ∨ d = SRCOP_CCC ∨ d = SRCOP_CCR ∨
      d = SRCOP_RCC ∨ d = SRCOP_RCR)

/-- The register or constant index an operand was decoded from. -/
def Operand.index : Operand → Nat
  | .reg i => i
  | .const i => i

end Contracts

/-! ## The opcode metadata table -/

section Metadata

/-- The operand kinds `EOpSrc::Type` of a metadata entry. -/
inductive EOpSrc where
  | Invalid | Register | Const
deriving DecidableEq

/-- An entry of the metadata table, with the arguments of the `FVectorVMOpInfo`
constructor in the order the table passes them: the opcode, the flag set (as the two
flags `Implemented` and `Commutative`), three operand kinds and the display name.
The structure is declared in the VM header, which is not part of the source tree. -/
structure FVectorVMOpInfo where
  BaseOpcode : EOp
  Implemented : Bool
  Commutative : Bool
  Src0 : EOpSrc
  Src1 : EOpSrc
  Src2 : EOpSrc
  FriendlyName : String
deriving DecidableEq

/-- The static table `VectorVM::GOpInfo`, row by row. -/
def GOpInfo : List FVectorVMOpInfo :=
  [⟨.done, false, false, .Invalid, .Invalid, .Invalid, "done"⟩,
   ⟨.add, true, true, .Register, .Register, .Invalid, "Add"⟩,
   ⟨.add, false, false, .Register, .Const, .Invalid, "addi"⟩,
   ⟨.sub, true, false, .Register, .Register, .Invalid, "Sub"⟩,
   ⟨.sub, false, false, .Register, .Const, .Invalid, "subi"⟩,
   ⟨.mul, true, true, .Register, .Register, .Invalid, "Multiply"⟩,
   ⟨.mul, false, false, .Register, .Const, .Invalid, "muli"⟩,
   ⟨.mad, true, true, .Register, .Register, .Register, "Multply-Add"⟩,
   ⟨.mad, false, false, .Register, .Register, .Const, "madrri"⟩,
   ⟨.mad, false, false, .Register, .Const, .Register, "madrir"⟩,
   ⟨.mad, false, false, .Register, .Const, .Const, "madrii"⟩,
   ⟨.mad, false, false, .Const, .Const, .Register, "madiir"⟩,
   ⟨.mad, false, false, .Const, .Const, .Const, "madiii"⟩,
   ⟨.lerp, true, false, .Register, .Register, .Register, "Lerp"⟩,
   ⟨.lerp, false, false, .Const, .Register, .Register, "lerpirr"⟩,
   ⟨.lerp, false, false, .Register, .Const, .Register, "lerprir"⟩,
   ⟨.lerp, false, false, .Register, .Register, .Const, "lerprri"⟩,
   ⟨.lerp, false, false, .Const, .Const, .Register, "lerpiir"⟩,
   ⟨.rcp, true, false, .Register, .Invalid, .Invalid, "Reciprocal"⟩,
   ⟨.rsq, true, false, .Register, .Invalid, .Invalid, "Reciprocal Sqrt"⟩,
   ⟨.sqrt, true, false, .Register, .Invalid, .Invalid, "Sqrt"⟩,
   ⟨.neg, true, false, .Register, .Invalid, .Invalid, "Negate"⟩,
   ⟨.abs, true, false, .Register, .Invalid, .Invalid, "Absolute"⟩,
   ⟨.exp, false, false, .Register, .Invalid, .Invalid, "Exp"⟩,
   ⟨.exp2, false, false, .Register, .Invalid, .Invalid, "Exp2"⟩,
   ⟨.log, false, false, .Register, .Invalid, .Invalid, "Log"⟩,
   ⟨.log2, false, false, .Register, .Invalid, .Invalid, "Log base 2"⟩,
   ⟨.sin, true, false, .Register, .Invalid, .Invalid, "Sin"⟩,
   ⟨.sin, false, false, .Const, .Invalid, .Invalid, "sini"⟩,
   ⟨.cos, false, false, .Register, .Invalid, .Invalid, "Cos"⟩,
   ⟨.tan, false, false, .Register, .Invalid, .Invalid, "Tan"⟩,
   ⟨.asin, false, false, .Register, .Invalid, .Invalid, "Arcsin"⟩,
   ⟨.acos, false, false, .Register, .Invalid, .Invalid, "Arccos"⟩,
   ⟨.atan, false, false, .Register, .Invalid, .Invalid, "Arctan"⟩,
   ⟨.atan2, false, false, .Register, .Register, .Invalid, "Arctan2"⟩,
   ⟨.ceil, false, false, .Register, .Invalid, .Invalid, "Round up"⟩,
   ⟨.floor, false, false, .Register, .Invalid, .Invalid, "Round down"⟩,
   ⟨.fmod, false, false, .Register, .Register, .Invalid, "Modulo"⟩,
   ⟨.frac, false, false, .Register, .Invalid, .Invalid, "Fractional"⟩,
   ⟨.trunc, false, false, .Register, .Invalid, .Invalid, "Trunc"⟩,
   ⟨.clamp, true, false, .Register, .Register, .Register, "Clamp"⟩,
   ⟨.clamp, false, false, .Register, .Const, .Register, "clampir"⟩,
   ⟨.clamp, false, false, .Register, .Register, .Const, "clampri"⟩,
   ⟨.clamp, false, false, .Register, .Const, .Const, "clampii"⟩,
   ⟨.min, true, false, .Register, .Register, .Invalid, "Min"⟩,
   ⟨.min, false, false, .Register, .Const, .Invalid, "mini"⟩,
   ⟨.max, true, false, .Register, .Register, .Invalid, "Max"⟩,
   ⟨.max, false, false, .Register, .Const, .Invalid, "maxi"⟩,
   ⟨.pow, true, false, .Register, .Register, .Invalid, "Pow"⟩,
   ⟨.pow, false, false, .Register, .Const, .Invalid, "powi"⟩,
   ⟨.add, false, false, .Register, .Invalid, .Invalid, "Sign"⟩,
   ⟨.step, false, false, .Register, .Register, .Invalid, "Step"⟩,
   ⟨.step, false, false, .Register, .Const, .Invalid, "stepi"⟩,
   ⟨.add, false, false, .Invalid, .Invalid, .Invalid, "tex1d"⟩,
   ⟨.dot, true, false, .Register, .Register, .Invalid, "Dot Product"⟩,
   ⟨.cross, true, true, .Register, .Register, .Invalid, "Cross Product"⟩,
   ⟨.cross, false, false, .Register, .Const, .Invalid, "Cross Product with const"⟩,
   ⟨.normalize, true, false, .Register, .Invalid, .Invalid, "Normalize"⟩,
   ⟨.random, true, false, .Const, .Invalid, .Invalid, "Random"⟩,
   ⟨.length, true, false, .Register, .Invalid, .Invalid, "Vector Length"⟩,
   ⟨.length, false, false, .Const, .Invalid, .Invalid, "Vector Length (const)"⟩,
   ⟨.add, false, false, .Invalid, .Invalid, .Invalid, "invalid"⟩]

/-- Modelled from the spec: the engine helper `FMath::Clamp<int32>` (engine math library,
not in the source tree), "clamps out-of-range values into the valid table range",
"clamp(x,lo,hi) = min(max(x,lo), hi)". -/
def FMathClampInt32 (X Min Max : Int) : Int :=
  min (max X Min) Max

/-- The table position `FMath::Clamp<int32>(OpCodeIndex, 0, EOp::NumOpcodes)` that
`GetOpCodeInfo` reads. -/
def GOpInfoIndex (H : Header) (OpCodeIndex : Nat) : Int :=
  FMathClampInt32 (OpCodeIndex : Int) 0 (H.opcode .NumOpcodes)

/-- The lookup `VectorVM::GetOpCodeInfo`; `none` when the position is outside the table,
which is undefined behaviour in C++. -/
def GetOpCodeInfo (H : Header) (OpCodeIndex : Nat) : Option FVectorVMOpInfo :=
  if 0 ≤ GOpInfoIndex H OpCodeIndex then GOpInfo.get? (GOpInfoIndex H OpCodeIndex).toNat
  else none

/-- The function `VectorVM::GetNumOpCodes`. -/
def GetNumOpCodes (H : Header) : Nat :=
  H.opcode .NumOpcodes

end Metadata

/-! ## The state of the chunk loop and byte-level programs -/

section LoopState
variable {F G : Type}

/-- The variable `NumVectors` of `VectorVM::Exec` at the start of iteration `ChunkIndex`
of the chunk loop: every iteration ends with `NumVectors -= VectorsPerChunk`. -/
def NumVectorsAt (H : Header) (NumVectors : Int) : Nat → Int
  | 0 => NumVectors
  | ChunkIndex + 1 => NumVectorsAt H NumVectors ChunkIndex - H.VectorsPerChunk

/-- The array `RegisterTable` of `VectorVM::Exec` at the start of iteration `ChunkIndex`
of the chunk loop: the table with the temporaries mapped, then the table the
earlier iteration left. -/
def RegisterTableAt (H : Header) (NumInputRegisters NumOutputRegisters : Nat) :
    Nat → Nat → Option Ptr
  | 0 => mapTempRegisters H
  | ChunkIndex + 1 =>
    mapChunkRegisters H NumInputRegisters NumOutputRegisters ChunkIndex
      (RegisterTableAt H NumInputRegisters NumOutputRegisters ChunkIndex)

/-- The object `Context` that iteration `ChunkIndex` of the chunk loop constructs: the
start of the program, the register table with the inputs and outputs of the chunk
mapped, the constant table and `VectorsThisChunk = Min(NumVectors, VectorsPerChunk)`. -/
def chunkContext (H : Header) (Code : List Nat) (NumInputRegisters NumOutputRegisters : Nat)
    (ConstantTable : Nat → Vec F) (NumVectors : Int) (ChunkIndex : Nat) : FVectorVMContext F :=
  ⟨Code,
   mapChunkRegisters H NumInputRegisters NumOutputRegisters ChunkIndex
     (RegisterTableAt H NumInputRegisters NumOutputRegisters ChunkIndex),
   ConstantTable,
   min (NumVectorsAt H NumVectors ChunkIndex) (H.VectorsPerChunk : Int)⟩

/-- The decode loop run on the contexts `ctx c`, `ctx (c + 1)`, ... of `remaining`
chunks, one after the other. -/
def execContexts (H : Header) (P : Platform F G) (ctx : Nat → FVectorVMContext F) :
    Nat → Nat → Memory F G → Outcome (Memory F G) (Memory F G)
  | 0, _, m => .ok m
  | remaining + 1, c, m =>
    (execChunk H P ((ctx c).Code.length + 1) (ctx c) m).bind
      (execContexts H P ctx remaining (c + 1))

/-- Whether bit `k` of the descriptor byte `d` is set. -/
def descriptorBit (d k : Nat) : Bool :=
  d / 2 ^ k % 2 == 1

/-- The operands a descriptor read as a bit mask assigns to the operand bytes `ops`:
operand `k` is the constant with index `ops[k]` if bit `k` of `d` is set and the
register with index `ops[k]` if it is clear. -/
def maskOperands (d : Nat) (ops : List Nat) : List Operand :=
  ops.enum.map fun kb => if descriptorBit d kb.1 then Operand.const kb.2 else Operand.reg kb.2

/-- Whether a source operand is constant-sourced. -/
def Operand.isConst : Operand → Bool
  | .reg _ => false
  | .const _ => true

/-- The bytes of one instruction: opcode, destination register, operand descriptor and
operand bytes. -/
structure Encoded where
  Op : Nat
  dst : Nat
  d : Nat
  ops : List Nat
deriving DecidableEq

/-- The bytes of an instruction in program order. -/
def Encoded.bytes (e : Encoded) : List Nat :=
  e.Op :: e.dst :: e.d :: e.ops

/-- The instruction has a dispatched opcode, a descriptor wired for the arity of its
kernel and as many operand bytes as the arity. -/
def Encoded.wellFormed (H : Header) (e : Encoded) : Bool :=
  match switchOp H e.Op with
  | some k => wiredDescriptor k e.d && e.ops.length == k.arity
  | none => false

/-- The lane loop of one instruction: the kernel of its opcode applied, lane by lane,
to the operands its descriptor selects. -/
def Encoded.run (H : Header) (P : Platform F G) (T : Nat → Option Ptr) (C : Nat → Vec F)
    (n : Int) (e : Encoded) (m : Memory F G) : Outcome (Memory F G) (Memory F G) :=
  match switchOp H e.Op with
  | some k =>
    forLanes (fun i m2 => (readAll T C m2 i (maskOperands e.d e.ops)).bind (k.apply P m2.seed))
      (T e.dst) n m
  | none => .fatal e.Op m

/-- The lane loops of a list of instructions in order. -/
def runEncoded (H : Header) (P : Platform F G) (T : Nat → Option Ptr) (C : Nat → Vec F)
    (n : Int) : List Encoded → Memory F G → Outcome (Memory F G) (Memory F G)
  | [], m => .ok m
  | e :: rest, m => (e.run H P T C n m).bind (runEncoded H P T C n rest)

/-- The bytes of the instructions `es`, without a terminator. -/
def encodedBytes : List Encoded → List Nat
  | [] => []
  | e :: rest => e.bytes ++ encodedBytes rest

/-- The program made of the instructions `es` followed by one `done` byte. -/
def programOf (H : Header) (es : List Encoded) : List Nat :=
  encodedBytes es ++ [H.opcode .done]

/-- A register-sourced operand is bound in the register table `T`; a constant-sourced
operand needs no binding. -/
def Operand.bound (T : Nat → Option Ptr) : Operand → Bool
  | .reg r => (T r).isSome
  | .const _ => true

/-- The destination and the register-sourced operands of the instruction are bound in
the register table `T`. -/
def Encoded.bound (T : Nat → Option Ptr) (e : Encoded) : Bool :=
  (T e.dst).isSome && (maskOperands e.d e.ops).all (Operand.bound T)

/-- The lane counts of the chunks of a call over `L` lanes: the call runs the decode loop
on the contexts of `NumChunks` chunks; the lane count of chunk `c` is
`min(L - c * VectorsPerChunk, VectorsPerChunk)`, at least 1 and at most
`VectorsPerChunk`; the lane counts of all chunks sum to `L`; and the remaining-lane
counter after the last chunk is `L - NumChunks * VectorsPerChunk`, which is `<= 0` and
`> -VectorsPerChunk`. -/
def ChunkLaneCounts (H : Header) (P : Platform F G) (Code : List Nat)
    (NumInputRegisters NumOutputRegisters : Nat) (C : Nat → Vec F) (L : Nat)
    (m : Memory F G) : Prop :=
  Exec H P Code NumInputRegisters NumOutputRegisters C (L : Int) m =
      execContexts H P (chunkContext H Code NumInputRegisters NumOutputRegisters C (L : Int))
        (NumChunks H (L : Int)).toNat 0 m ∧
    (∀ c, c < (NumChunks H (L : Int)).toNat →
      (chunkContext H Code NumInputRegisters NumOutputRegisters C (L : Int) c).NumVectors =
          min ((L : Int) - c * H.VectorsPerChunk) (H.VectorsPerChunk : Int) ∧
        1 ≤ (chunkContext H Code NumInputRegisters NumOutputRegisters C (L : Int) c).NumVectors ∧
        (chunkContext H Code NumInputRegisters NumOutputRegisters C (L : Int) c).NumVectors ≤
          H.VectorsPerChunk) ∧
    ((List.range (NumChunks H (L : Int)).toNat).map fun c =>
      (chunkContext H Code NumInputRegisters NumOutputRegisters C (L : Int) c).NumVectors).sum =
        (L : Int) ∧
    NumVectorsAt H (L : Int) (NumChunks H (L : Int)).toNat =
      (L : Int) - (NumChunks H (L : Int)).toNat * H.VectorsPerChunk ∧
    NumVectorsAt H (L : Int) (NumChunks H (L : Int)).toNat ≤ 0 ∧
    -(H.VectorsPerChunk : Int) < NumVectorsAt H (L : Int) (NumChunks H (L : Int)).toNat

/-- The bindings of the input and output slots in chunk `c`: input slot
`NumTempRegisters + k` is bound to caller input array `k` at element
`c * VectorsPerChunk`, output slot `NumTempRegisters + MaxInputRegisters + k` to caller
output array `k` at element `c * VectorsPerChunk`, so lane `j` of the chunk in
those slots is element `c * VectorsPerChunk + j` of the caller array. -/
def ChunkBindings (H : Header) (Code : List Nat) (NumInputRegisters NumOutputRegisters : Nat)
    (C : Nat → Vec F) (NumVectors : Int) (c : Nat) (m : Memory F G) : Prop :=
  (∀ k, k < NumInputRegisters →
    (chunkContext H Code NumInputRegisters NumOutputRegisters C NumVectors c).RegisterTable
        (H.NumTempRegisters + k) = some ⟨Bank.Input, k, c * H.VectorsPerChunk⟩ ∧
    ∀ j, m.load ((chunkContext H Code NumInputRegisters NumOutputRegisters C NumVectors
        c).RegisterTable (H.NumTempRegisters + k)) j =
      some (m.cell Bank.Input k (c * H.VectorsPerChunk + j))) ∧
  (∀ k, k < NumOutputRegisters →
    (chunkContext H Code NumInputRegisters NumOutputRegisters C NumVectors c).RegisterTable
        (H.NumTempRegisters + H.MaxInputRegisters + k) =
      some ⟨Bank.Output, k, c * H.VectorsPerChunk⟩ ∧
    ∀ j, m.load ((chunkContext H Code NumInputRegisters NumOutputRegisters C NumVectors
        c).RegisterTable (H.NumTempRegisters + H.MaxInputRegisters + k)) j =
      some (m.cell Bank.Output k (c * H.VectorsPerChunk + j)))

/-- The partition of the register table: in the table of every chunk `c` the slots
`[0, NumTempRegisters)` are bound to the temporary buffers, the same buffer in every
chunk, the slots `[NumTempRegisters, NumTempRegisters + NumInputRegisters)` to the
input arrays, the slots from `NumTempRegisters + MaxInputRegisters` on, as many as
there are output registers, to the output arrays, every other slot is null, and
the three ranges are pairwise disjoint. -/
def TablePartition (H : Header) (Code : List Nat) (NumInputRegisters NumOutputRegisters : Nat)
    (C : Nat → Vec F) (NumVectors : Int) : Prop :=
  (∀ c s, s < H.NumTempRegisters →
    (chunkContext H Code NumInputRegisters NumOutputRegisters C NumVectors c).RegisterTable s =
      some ⟨Bank.Temp, s, 0⟩) ∧
  (∀ c s, H.NumTempRegisters ≤ s → s < H.NumTempRegisters + NumInputRegisters →
    (chunkContext H Code NumInputRegisters NumOutputRegisters C NumVectors c).RegisterTable s =
      some ⟨Bank.Input, s - H.NumTempRegisters, c * H.VectorsPerChunk⟩) ∧
  (∀ c s, H.NumTempRegisters + H.MaxInputRegisters ≤ s →
    s < H.NumTempRegisters + H.MaxInputRegisters + NumOutputRegisters →
    (chunkContext H Code NumInputRegisters NumOutputRegisters C NumVectors c).RegisterTable s =
      some ⟨Bank.Output, s - (H.NumTempRegisters + H.MaxInputRegisters),
        c * H.VectorsPerChunk⟩) ∧
  (∀ c s, H.NumTempRegisters + NumInputRegisters ≤ s →
    (s < H.NumTempRegisters + H.MaxInputRegisters ∨
      H.NumTempRegisters + H.MaxInputRegisters + NumOutputRegisters ≤ s) →
    (chunkContext H Code NumInputRegisters NumOutputRegisters C NumVectors c).RegisterTable s =
      none) ∧
  (∀ s, ¬(s < H.NumTempRegisters ∧
      (H.NumTempRegisters ≤ s ∧ s < H.NumTempRegisters + NumInputRegisters)) ∧
    ¬(s < H.NumTempRegisters ∧ (H.NumTempRegisters + H.MaxInputRegisters ≤ s ∧
      s < H.NumTempRegisters + H.MaxInputRegisters + NumOutputRegisters)) ∧
    ¬((H.NumTempRegisters ≤ s ∧ s < H.NumTempRegisters + NumInputRegisters) ∧
      (H.NumTempRegisters + H.MaxInputRegisters ≤ s ∧
        s < H.NumTempRegisters + H.MaxInputRegisters + NumOutputRegisters))) ∧
  (∀ c c2 s, s < H.NumTempRegisters →
    (chunkContext H Code NumInputRegisters NumOutputRegisters C NumVectors c).RegisterTable s =
      (chunkContext H Code NumInputRegisters NumOutputRegisters C NumVectors c2).RegisterTable s)

/-- The decode loop of a chunk on the program `programOf H es` followed by the bytes
`extra`, started with `fuel` iterations in the context with register table `T`,
constants `C` and lane count `n`: it runs the lane loops of the instructions `es` in
program order and then ends; after `j` instructions it goes on with the cursor on
instruction `j`; every instruction moves the cursor forward; on the terminator the
loop ends whatever bytes follow; and it completes when the registers of the
instructions are bound. -/
def DecodeLoopDispatches (H : Header) (P : Platform F G) (es : List Encoded)
    (extra : List Nat) (T : Nat → Option Ptr) (C : Nat → Vec F) (n : Int) (fuel : Nat)
    (m : Memory F G) : Prop :=
  execChunk H P fuel ⟨programOf H es ++ extra, T, C, n⟩ m = runEncoded H P T C n es m ∧
  (∀ j, j ≤ es.length →
    execChunk H P fuel ⟨programOf H es ++ extra, T, C, n⟩ m =
      (runEncoded H P T C n (es.take j) m).bind fun m2 =>
        execChunk H P (fuel - j) ⟨programOf H (es.drop j) ++ extra, T, C, n⟩ m2) ∧
  (∀ j, j < es.length →
    (programOf H (es.drop (j + 1)) ++ extra).length <
      (programOf H (es.drop j) ++ extra).length) ∧
  (∀ m2 : Memory F G, execChunk H P (fuel - es.length)
      ⟨programOf H (es.drop es.length) ++ extra, T, C, n⟩ m2 = .ok m2) ∧
  (es.all (Encoded.bound T) = true →
    ∃ m2, execChunk H P fuel ⟨programOf H es ++ extra, T, C, n⟩ m = .ok m2)

end LoopState

/-! ## The metadata table against the dispatchers -/

section MetadataDispatch

/-- The kernel class whose `Exec` the `switch` of `VectorVM::Exec` calls in the case of
the enumerator; `none` for an enumerator without a kernel case. -/
def EOp.kernel : EOp → Option KernelClass
  | .add => some (.binary .Add)
  | .sub => some (.binary .Sub)
  | .mul => some (.binary .Mul)
  | .mad => some (.trinary .Mad)
  | .lerp => some (.trinary .Lerp)
  | .rcp => some (.unary .Rcp)
  | .rsq => some (.unary .Rsq)
  | .sqrt => some (.unary .Sqrt)
  | .neg => some (.unary .Neg)
  | .abs => some (.unary .Abs)
  | .clamp => some (.trinary .Clamp)
  | .min => some (.binary .Min)
  | .max => some (.binary .Max)
  | .pow => some (.binary .Pow)
  | .sin => some (.unary .Sin)
  | .dot => some (.binary .Dot)
  | .length => some (.unary .Length)
  | .cross => some (.binary .Cross)
  | .normalize => some (.unary .Normalize)
  | .random => some (.unary .Random)
  | _ => none

/-- Whether some row of `GOpInfo` for the opcode carries the flag `Implemented`. -/
def hasImplementedEntry (e : EOp) : Bool :=
  GOpInfo.any fun r => decide (r.BaseOpcode = e) && r.Implemented

/-- The descriptor bit of an operand kind: 0 for `Register`, 1 for `Const`; an `Invalid`
kind has none. -/
def EOpSrc.bit : EOpSrc → Option Nat
  | .Register => some 0
  | .Const => some 1
  | .Invalid => none

/-- The descriptor of the operand kinds of a row for a kernel of the given arity: bit
`j` is set exactly when kind `j` is `Const`; `none` when one of the first `arity`
kinds is `Invalid`. -/
def FVectorVMOpInfo.descriptor (r : FVectorVMOpInfo) : Nat → Option Nat
  | 1 => r.Src0.bit
  | 2 => r.Src0.bit.bind fun b0 => r.Src1.bit.map fun b1 => b0 + 2 * b1
  | 3 => r.Src0.bit.bind fun b0 => r.Src1.bit.bind fun b1 => r.Src2.bit.map fun b2 =>
      b0 + 2 * b1 + 4 * b2
  | _ => none

/-- Whether the operand-kind pattern of a row is a wired case of the dispatcher of its
opcode; `none` when the opcode has no kernel case or a kind within the arity is
`Invalid`. -/
def FVectorVMOpInfo.executable (r : FVectorVMOpInfo) : Option Bool :=
  r.BaseOpcode.kernel.bind fun k => (r.descriptor k.arity).map (wiredDescriptor k)

end MetadataDispatch

/-! ## A concrete instance

The header constants, the scalar type and the random generator are parameters of
the embedding.  The instance below fixes them for the closed statements. -/

section Instance

/-- Enumerators of `EOp::Type` numbered in declaration order, `done = 0`. -/
def EOp.toNat : EOp → Nat
  | .done => 0 | .add => 1 | .sub => 2 | .mul => 3 | .mad => 4 | .lerp => 5 | .rcp => 6
  | .rsq => 7 | .sqrt => 8 | .neg => 9 | .abs => 10 | .exp => 11 | .exp2 => 12 | .log => 13
  | .log2 => 14 | .sin => 15 | .cos => 16 | .tan => 17 | .asin => 18 | .acos => 19
  | .atan => 20 | .atan2 => 21 | .ceil => 22 | .floor => 23 | .fmod => 24 | .frac => 25
  | .trunc => 26 | .clamp => 27 | .min => 28 | .max => 29 | .pow => 30 | .step => 31
  | .dot => 32 | .cross => 33 | .normalize => 34 | .random => 35 | .length => 36
  | .NumOpcodes => 37

/-- Header constants that agree with the register numbers of `FVectorVMTest`: `r8` is the
first input slot and `r40` (`0x28`) the first output slot; chunks of 128 vectors. -/
def testHeader : Header := ⟨8, 32, 128, EOp.toNat⟩

/-- Exact rational scalars.  Addition, subtraction, multiplication, division, negation,
absolute value, minimum and maximum are the exact operations (which the float
operations compute without rounding on small integers); square root, sine, power
and normalisation have no rational model and are fixed arbitrarily, and no closed
statement below executes them.  `Rand` is the linear congruential generator of the
C standard's sample `rand`, with `RAND_MAX = 32767`. -/
def ratPlatform : Platform ℚ Nat where
  add := fun a b => a + b
  sub := fun a b => a - b
  mul := fun a b => a * b
  div := fun a b => a / b
  fmin := fun a b => min a b
  fmax := fun a b => max a b
  pow := fun a _ => a
  neg := fun a => -a
  abs := fun a => |a|
  sqrt := fun a => a
  sin := fun a => a
  rcp := fun a => 1 / a
  rsq := fun a => a
  ofNat := fun n => (n : ℚ)
  one := 1
  zero := 0
  lit314 := 314 / 100
  normalize := fun v => v
  Rand := fun g =>
    ((g * 1103515245 + 12345) % 2147483648 / 65536 % 32768,
     (g * 1103515245 + 12345) % 2147483648)
  RAND_MAX := 32767

/-- Exact scalars in an ordered field `F`: addition, subtraction, multiplication,
division, negation, absolute value, minimum and maximum are the operations of the
field, the float literals `1.0f` and `3.14f` are the numbers 1 and 3.14, and the
conversion from `int` is the cast.  Square root, sine, power, normalisation and the
random generator are those given. -/
def exactPlatform {F G : Type} [LinearOrderedField F] (sqrt sin : F → F) (pow : F → F → F)
    (normalize : Vec F → Vec F) (Rand : G → Nat × G) (RAND_MAX : Nat) : Platform F G where
  add := fun a b => a + b
  sub := fun a b => a - b
  mul := fun a b => a * b
  div := fun a b => a / b
  fmin := fun a b => min a b
  fmax := fun a b => max a b
  pow := pow
  neg := fun a => -a
  abs := fun a => |a|
  sqrt := sqrt
  sin := sin
  rcp := fun a => 1 / a
  rsq := fun a => 1 / sqrt a
  ofNat := fun n => (n : F)
  one := 1
  zero := 0
  lit314 := 314 / 100
  normalize := normalize
  Rand := Rand
  RAND_MAX := RAND_MAX

/-- Rounded scalars in an ordered field `F`: the conversion from `int` and every
arithmetic result pass through the rounding `rnd` of the float format, as the
operations of IEEE 754 return the rounded exact result; minimum, maximum, negation
and absolute value are exact.  With `rnd = id` this is `exactPlatform`. -/
def roundedPlatform {F G : Type} [LinearOrderedField F] (rnd : F → F) (sqrt sin : F → F)
    (pow : F → F → F) (normalize : Vec F → Vec F) (Rand : G → Nat × G) (RAND_MAX : Nat) :
    Platform F G where
  add := fun a b => rnd (a + b)
  sub := fun a b => rnd (a - b)
  mul := fun a b => rnd (a * b)
  div := fun a b => rnd (a / b)
  fmin := fun a b => min a b
  fmax := fun a b => max a b
  pow := pow
  neg := fun a => -a
  abs := fun a => |a|
  sqrt := sqrt
  sin := sin
  rcp := fun a => rnd (1 / a)
  rsq := fun a => rnd (1 / sqrt a)
  ofNat := fun n => rnd (n : F)
  one := 1
  zero := 0
  lit314 := rnd (314 / 100)
  normalize := normalize
  Rand := Rand
  RAND_MAX := RAND_MAX

/-- The factor `static_cast<float>(FMath::Rand()) / rm` of the random kernel for a
value `r` returned by `FMath::Rand`. -/
def FVectorKernelRandom.factor {F G : Type} (P : Platform F G) (r : Nat) : F :=
  P.div (P.ofNat r) (P.ofNat P.RAND_MAX)

/-- The vector with four equal components. -/
def splat (q : ℚ) : Vec ℚ := ⟨q, q, q, q⟩

/-- The bytecode `TestCode` of `FVectorVMTest::RunTest`. -/
def TestCode (H : Header) : List Nat :=
  [H.opcode .mul, 0x00, SRCOP_RRR, 0x08, 0x08,
   H.opcode .mad, 0x01, SRCOP_RRR, 0x09, 0x09, 0x00,
   H.opcode .mad, 0x00, SRCOP_RRR, 0x0a, 0x0a, 0x01,
   H.opcode .add, 0x01, SRCOP_RRC, 0x00, 0x01,
   H.opcode .neg, 0x00, SRCOP_RRR, 0x01,
   H.opcode .clamp, 0x28, SRCOP_CCR, 0x00, 0x02, 0x03,
   0x00]

/-- The constant table of `FVectorVMTest::RunTest`: `c0 = 0`, `c1 = 5`, `c2 = -20`,
`c3 = 20`; the entries the test leaves uninitialised are set to zero. -/
def TestConstants : Nat → Vec ℚ := fun i =>
  if i = 1 then splat 5 else if i = 2 then splat (-20) else if i = 3 then splat 20 else splat 0

/-- The memory `FVectorVMTest::RunTest` passes: float `i` of each of the three input
arrays holds `i`, so vector `o` holds `4o, 4o+1, 4o+2, 4o+3`.  The output arrays hold
zero, the uninitialised temporaries hold `t`, and the generator state is 1. -/
def TestMemory (t : ℚ) : Memory ℚ Nat :=
  ⟨fun b _ o => match b with
    | .Input => ⟨4 * o, 4 * o + 1, 4 * o + 2, 4 * o + 3⟩
    | .Output => splat 0
    | .Temp => splat t, 1⟩

/-- The test memory with the first vector of every input array replaced by `(7, 7, 7, 7)`. -/
def TestMemoryAltered : Memory ℚ Nat :=
  ⟨fun b k o => if b = .Input ∧ o = 0 then splat 7 else (TestMemory 0).cell b k o, 1⟩

/-- A program of one wired instruction and the terminator: `random r40, c1`. -/
def RandomCode : List Nat := [35, 0x28, SRCOP_RRC, 0x01, 0x00]

/-- Modelled from the spec: the engine helper `FMath::Clamp` (engine math library, not in
the source tree), "clamp(x,lo,hi) = min(max(x,lo), hi)". -/
def FMathClamp (X Min Max : ℚ) : ℚ :=
  min (max X Min) Max

/-- The value `Expected` that `FVectorVMTest::RunTest` compares float `i` of the output
with; the three inputs `Ins[0]`, `Ins[1]`, `Ins[2]` all hold `i`. -/
def TestExpected (i : Nat) : ℚ :=
  FMathClamp (-((i : ℚ) * i + (i : ℚ) * i + (i : ℚ) * i + 5)) (-20) 20

/-- The six instructions of `TestCode`, byte by byte. -/
def TestEncoded (H : Header) : List Encoded :=
  [⟨H.opcode .mul, 0x00, SRCOP_RRR, [0x08, 0x08]⟩,
   ⟨H.opcode .mad, 0x01, SRCOP_RRR, [0x09, 0x09, 0x00]⟩,
   ⟨H.opcode .mad, 0x00, SRCOP_RRR, [0x0a, 0x0a, 0x01]⟩,
   ⟨H.opcode .add, 0x01, SRCOP_RRC, [0x00, 0x01]⟩,
   ⟨H.opcode .neg, 0x00, SRCOP_RRR, [0x01]⟩,
   ⟨H.opcode .clamp, 0x28, SRCOP_CCR, [0x00, 0x02, 0x03]⟩]

/-- A terminated program whose destination is an input slot: `neg r8, r8`. -/
def NegInputCode : List Nat := [9, 0x08, SRCOP_RRR, 0x08, 0x00]

/-- A terminated program that reads temporary `r0` before it writes it:
`neg r40, r0; neg r0, r8`. -/
def LeakCode : List Nat :=
  [9, 0x28, SRCOP_RRR, 0x00,
   9, 0x00, SRCOP_RRR, 0x08,
   0x00]

/-- A program with the undispatched opcode `exp` (11) after one instruction:
`neg r40, r8; exp; neg r40, r40; done`. -/
def UnknownCode : List Nat :=
  [9, 0x28, SRCOP_RRR, 0x08,
   11,
   9, 0x28, SRCOP_RRR, 0x28,
   0x00]

end Instance

/-! ## Basic lemmas -/

section Basic
variable {F G : Type} {μ α β : Type}

@[simp] theorem Outcome.bind_ok (a : α) (f : α → Outcome μ β) : (Outcome.ok a).bind f = f a := rfl

@[simp] theorem Outcome.bind_fatal (op : Nat) (m : μ) (f : α → Outcome μ β) :
    (Outcome.fatal op m : Outcome μ α).bind f = .fatal op m := rfl

@[simp] theorem Outcome.bind_undefined (f : α → Outcome μ β) :
    (Outcome.undefined : Outcome μ α).bind f = .undefined := rfl

@[simp] theorem Outcome.bind_outOfFuel (f : α → Outcome μ β) :
    (Outcome.outOfFuel : Outcome μ α).bind f = .outOfFuel := rfl

@[simp] theorem Outcome.monad_bind (r : Outcome μ α) (f : α → Outcome μ β) :
    (r >>= f) = r.bind f := rfl

@[simp] theorem Outcome.monad_pure (a : α) : (pure a : Outcome μ α) = .ok a := rfl

theorem Outcome.bind_assoc {γ : Type} (r : Outcome μ α) (f : α → Outcome μ β)
    (g : β → Outcome μ γ) : (r.bind f).bind g = r.bind fun a => (f a).bind g := by
  cases r <;> rfl

@[simp] theorem nextByte_nil (RT : Nat → Option Ptr) (C : Nat → Vec F) (n : Int) :
    (nextByte ⟨[], RT, C, n⟩ : Outcome (Memory F G) _) = .undefined := rfl

@[simp] theorem nextByte_cons (b : Nat) (rest : List Nat) (RT : Nat → Option Ptr)
    (C : Nat → Vec F) (n : Int) :
    (nextByte ⟨b :: rest, RT, C, n⟩ : Outcome (Memory F G) _) = .ok (b, ⟨rest, RT, C, n⟩) := rfl

/-- The template dispatchers agree with the decoded form of the instruction. -/
theorem KernelClass.Exec_eq (P : Platform F G) (k : KernelClass) (Context : FVectorVMContext F)
    (m : Memory F G) :
    k.Exec P Context m =
      match decodeKernel k Context.Code with
      | none => .undefined
      | some (ins, rest) =>
        (ins.exec P Context.RegisterTable Context.ConstantTable Context.NumVectors m).bind
          fun m => .ok ({ Context with Code := rest }, m) := by
  obtain ⟨code, RT, C, n⟩ := Context
  cases k with
  | unary k =>
    rcases code with _ | ⟨dst, _ | ⟨d, rest⟩⟩
    · rfl
    · rfl
    · simp only [KernelClass.Exec, decodeKernel, TUnaryVectorKernel.Exec, decodeUnary,
        DecodeRegister, DecodeSrcOperandTypes, DecodeConstant, nextByte_cons,
        Outcome.monad_bind, Outcome.bind_ok, Outcome.monad_pure]
      split_ifs with h0 h1
      · cases rest <;> rfl
      · cases rest <;> rfl
      · rfl
  | binary k =>
    rcases code with _ | ⟨dst, _ | ⟨d, rest⟩⟩
    · rfl
    · rfl
    · simp only [KernelClass.Exec, decodeKernel, TBinaryVectorKernel.Exec, decodeBinary,
        DecodeRegister, DecodeSrcOperandTypes, DecodeConstant, nextByte_cons,
        Outcome.monad_bind, Outcome.bind_ok, Outcome.monad_pure]
      split_ifs <;> (rcases rest with _ | ⟨a, _ | ⟨b, rest⟩⟩ <;>
        first | rfl | simp [Instr.exec, Instr.body, Operand.read, Instr.dst, Option.map_eq_bind])
  | trinary k =>
    rcases code with _ | ⟨dst, _ | ⟨d, rest⟩⟩
    · rfl
    · rfl
    · simp only [KernelClass.Exec, decodeKernel, TTrinaryVectorKernel.Exec, decodeTrinary,
        DecodeRegister, DecodeSrcOperandTypes, DecodeConstant, nextByte_cons,
        Outcome.monad_bind, Outcome.bind_ok, Outcome.monad_pure]
      split_ifs <;> (rcases rest with _ | ⟨a, _ | ⟨b, _ | ⟨c, rest⟩⟩⟩ <;>
        first | rfl | simp [Instr.exec, Instr.body, Operand.read, Instr.dst, Option.map_eq_bind])

/-- The decode loop of a chunk runs the decoded instructions in order and then ends as
the decoded program ends. -/
theorem execChunk_eq (H : Header) (P : Platform F G) (fuel : Nat) (Context : FVectorVMContext F)
    (m : Memory F G) :
    execChunk H P fuel Context m =
      (execInstrs P Context.RegisterTable Context.ConstantTable Context.NumVectors
        (decodeProgram H fuel Context.Code).1 m).bind
        (decodeProgram H fuel Context.Code).2.outcome := by
  induction fuel generalizing Context m with
  | zero => rfl
  | succ fuel ih =>
    obtain ⟨code, RT, C, n⟩ := Context
    cases code with
    | nil => rfl
    | cons Op rest =>
      simp only [execChunk, DecodeOp, nextByte_cons, Outcome.bind_ok, decodeProgram]
      cases hk : switchOp H Op with
      | none =>
        simp only []
        split_ifs <;> rfl
      | some k =>
        simp only [KernelClass.Exec_eq]
        cases hd : decodeKernel k rest with
        | none => rfl
        | some ir =>
          obtain ⟨ins, rest2⟩ := ir
          simp only [execInstrs, List.cons, Outcome.bind_assoc, Outcome.bind_ok]
          congr 1
          funext m2
          exact ih _ m2

theorem decodeUnary_length {k : UnaryKernel} {code rest : List Nat} {ins : Instr}
    (h : decodeUnary k code = some (ins, rest)) : rest.length < code.length := by
  rcases code with _ | ⟨dst, _ | ⟨d, tl⟩⟩
  · simp [decodeUnary] at h
  · simp [decodeUnary] at h
  · simp only [decodeUnary] at h
    split_ifs at h <;> (try rcases tl with _ | ⟨a, tl⟩) <;> simp at h <;>
      (obtain ⟨_, rfl⟩ := h
       simp only [List.length_cons, List.length_nil]
       omega)

theorem decodeBinary_length {k : BinaryKernel} {code rest : List Nat} {ins : Instr}
    (h : decodeBinary k code = some (ins, rest)) : rest.length < code.length := by
  rcases code with _ | ⟨dst, _ | ⟨d, tl⟩⟩
  · simp [decodeBinary] at h
  · simp [decodeBinary] at h
  · simp only [decodeBinary] at h
    split_ifs at h <;> (try rcases tl with _ | ⟨a, _ | ⟨b, tl⟩⟩) <;> simp at h <;>
      (obtain ⟨_, rfl⟩ := h
       simp only [List.length_cons, List.length_nil]
       omega)

theorem decodeTrinary_length {k : TrinaryKernel} {code rest : List Nat} {ins : Instr}
    (h : decodeTrinary k code = some (ins, rest)) : rest.length < code.length := by
  rcases code with _ | ⟨dst, _ | ⟨d, tl⟩⟩
  · simp [decodeTrinary] at h
  · simp [decodeTrinary] at h
  · simp only [decodeTrinary] at h
    split_ifs at h <;> (try rcases tl with _ | ⟨a, _ | ⟨b, _ | ⟨c, tl⟩⟩⟩) <;> simp at h <;>
      (obtain ⟨_, rfl⟩ := h
       simp only [List.length_cons, List.length_nil]
       omega)

theorem decodeKernel_length {k : KernelClass} {code rest : List Nat} {ins : Instr}
    (h : decodeKernel k code = some (ins, rest)) : rest.length < code.length := by
  cases k with
  | unary k => exact decodeUnary_length h
  | binary k => exact decodeBinary_length h
  | trinary k => exact decodeTrinary_length h

/-- Fuel above the length of the program is never used up. -/
theorem decodeProgram_fuel (H : Header) (fuel : Nat) (code : List Nat)
    (h : code.length < fuel) : (decodeProgram H fuel code).2 ≠ .outOfFuel := by
  induction fuel generalizing code with
  | zero => omega
  | succ fuel ih =>
    cases code with
    | nil => simp [decodeProgram]
    | cons Op rest =>
      cases hk : switchOp H Op with
      | none =>
        simp only [decodeProgram, hk]
        split_ifs <;> simp
      | some k =>
        cases hd : decodeKernel k rest with
        | none => simp [decodeProgram, hk, hd]
        | some ir =>
          obtain ⟨ins, rest2⟩ := ir
          simp only [decodeProgram, hk, hd]
          apply ih
          have := decodeKernel_length hd
          simp only [List.length_cons] at h
          omega

theorem Memory.ext_iff {m m2 : Memory F G} :
    m = m2 ↔ m.cell = m2.cell ∧ m.seed = m2.seed := by
  constructor
  · rintro rfl
    exact ⟨rfl, rfl⟩
  · rintro ⟨h1, h2⟩
    cases m
    cases m2
    simp only at h1 h2
    subst h1
    subst h2
    rfl

@[simp] theorem Memory.writeLanes_seed (m : Memory F G) (d : Ptr) (n : Nat) (val : Nat → Vec F) :
    (m.writeLanes d n val).seed = m.seed := rfl

theorem Memory.writeLanes_zero (m : Memory F G) (d : Ptr) (val : Nat → Vec F) :
    m.writeLanes d 0 val = m := by
  rw [Memory.ext_iff]
  refine ⟨?_, rfl⟩
  funext b r o
  simp only [Memory.writeLanes]
  rw [if_neg]
  omega

theorem Memory.writeLanes_succ (m : Memory F G) (d : Ptr) (i : Nat) (val : Nat → Vec F) :
    ({ (m.writeLanes d i val).store d i (val i) with seed := m.seed } : Memory F G) =
      m.writeLanes d (i + 1) val := by
  rw [Memory.ext_iff]
  refine ⟨?_, rfl⟩
  funext b r o
  simp only [Memory.writeLanes, Memory.store]
  by_cases h1 : b = d.bank ∧ r = d.reg ∧ o = d.off + i
  · obtain ⟨hb, hr, ho⟩ := h1
    rw [if_pos ⟨hb, hr, ho⟩, if_pos ⟨hb, hr, by omega, by omega⟩]
    congr 1
    omega
  · rw [if_neg h1]
    by_cases h2 : b = d.bank ∧ r = d.reg ∧ d.off ≤ o ∧ o < d.off + i
    · obtain ⟨hb, hr, h3, h4⟩ := h2
      rw [if_pos ⟨hb, hr, h3, h4⟩, if_pos ⟨hb, hr, h3, by omega⟩]
    · rw [if_neg h2, if_neg]
      rintro ⟨hb, hr, h3, h4⟩
      by_cases h5 : o = d.off + i
      · exact h1 ⟨hb, hr, h5⟩
      · exact h2 ⟨hb, hr, h3, by omega⟩

/-- Closed form of the lane loop when every lane computes its value from cells that
the earlier lanes of the same loop did not change. -/
theorem laneLoop_closed (body : Nat → Memory F G → Option (Vec F × G)) (d : Ptr)
    (val : Nat → Vec F) (m : Memory F G) (k i : Nat)
    (hb : ∀ j, i ≤ j → j < i + k → body j (m.writeLanes d j val) = some (val j, m.seed)) :
    laneLoop body (some d) k i (m.writeLanes d i val) = .ok (m.writeLanes d (i + k) val) := by
  induction k generalizing i with
  | zero => rfl
  | succ k ih =>
    have h0 := hb i (le_refl i) (by omega)
    simp only [laneLoop, h0]
    rw [Memory.writeLanes_succ]
    have := ih (i + 1) (fun j h1 h2 => hb j (by omega) (by omega))
    rw [this]
    congr 2
    omega

/-- The lane loop ends normally or in undefined behaviour. -/
theorem laneLoop_cases (body : Nat → Memory F G → Option (Vec F × G)) (Dst : Option Ptr)
    (k i : Nat) (m : Memory F G) :
    (∃ m2, laneLoop body Dst k i m = .ok m2) ∨ laneLoop body Dst k i m = .undefined := by
  induction k generalizing i m with
  | zero => exact Or.inl ⟨m, rfl⟩
  | succ k ih =>
    cases Dst with
    | none => exact Or.inr rfl
    | some d =>
      cases hb : body i m with
      | none => exact Or.inr (by simp [laneLoop, hb])
      | some vg =>
        simp only [laneLoop, hb]
        exact ih _ _

/-- The lane loop changes only the lanes of the destination that it runs over. -/
theorem laneLoop_frame (body : Nat → Memory F G → Option (Vec F × G)) (Dst : Option Ptr)
    (k i : Nat) (m m2 : Memory F G) (h : laneLoop body Dst k i m = .ok m2)
    (b : Bank) (r o : Nat)
    (hn : ∀ d, Dst = some d → ¬(b = d.bank ∧ r = d.reg ∧ d.off + i ≤ o ∧ o < d.off + i + k)) :
    m2.cell b r o = m.cell b r o := by
  induction k generalizing i m with
  | zero =>
    simp only [laneLoop, Outcome.ok.injEq] at h
    rw [h]
  | succ k ih =>
    cases Dst with
    | none => simp [laneLoop] at h
    | some d =>
      cases hb : body i m with
      | none => simp [laneLoop, hb] at h
      | some vg =>
        simp only [laneLoop, hb] at h
        rw [ih (i + 1) _ h]
        · simp only [Memory.store]
          rw [if_neg]
          rintro ⟨h1, h2, h3⟩
          exact hn d rfl ⟨h1, h2, by omega, by omega⟩
        · intro d2 hd2
          cases hd2
          intro ⟨h1, h2, h3, h4⟩
          exact hn d rfl ⟨h1, h2, by omega, by omega⟩

end Basic

/-! ## Instructions act lane by lane -/

section Lanewise
variable {F G : Type}

theorem Instr.exec_wired (P : Platform F G) (T : Nat → Option Ptr) (C : Nat → Vec F) (n : Int)
    (ins : Instr) (m : Memory F G) (hw : ins.wired = true) :
    ins.exec P T C n m = forLanes (ins.body P T C) (T ins.dst) n m := by
  cases ins <;> first | rfl | simp [Instr.wired] at hw

theorem Instr.exec_unwired (P : Platform F G) (T : Nat → Option Ptr) (C : Nat → Vec F) (n : Int)
    (ins : Instr) (m : Memory F G) (hw : ins.wired = false) :
    ins.exec P T C n m = .ok m := by
  cases ins <;> first | rfl | simp [Instr.wired] at hw

theorem Instr.evalLane_unwired (P : Platform F G) (C : Nat → Vec F) (ins : Instr) (s : Lane F G)
    (hw : ins.wired = false) : ins.evalLane P C s = s := by
  cases ins <;> first | rfl | simp [Instr.wired] at hw

theorem Instr.result_wired (P : Platform F G) (C : Nat → Vec F) (ins : Instr) (g : G)
    (R : Nat → Vec F) (hw : ins.wired = true) : ∃ vg, ins.result P C g R = some vg := by
  cases ins <;> first | exact ⟨_, rfl⟩ | simp [Instr.wired] at hw

theorem Instr.evalLane_eq_result (P : Platform F G) (C : Nat → Vec F) (ins : Instr) (g : G)
    (R : Nat → Vec F) (vg : Vec F × G) (h : ins.result P C g R = some vg) :
    ins.evalLane P C ⟨R, g⟩ = ⟨Function.update R ins.dst vg.1, vg.2⟩ := by
  cases ins <;> simp only [Instr.result, Option.some.injEq] at h <;>
    first | (subst h; rfl) | cases h

theorem Operand.read_eq (T : Nat → Option Ptr) (C : Nat → Vec F) (m : Memory F G) (j : Nat)
    (o : Operand) (h : ∀ r, o = .reg r → (T r).isSome = true) :
    o.read T C m j = some (o.value C (m.lane T j)) := by
  cases o with
  | const c => rfl
  | reg r =>
    have h1 := h r rfl
    cases hp : T r with
    | none => simp [hp] at h1
    | some p => simp [Operand.read, Operand.value, Memory.load, Memory.lane, hp]

theorem Instr.mem_srcRegs {ins : Instr} {r : Nat} :
    r ∈ ins.srcRegs ↔ Operand.reg r ∈ ins.srcs := by
  simp only [Instr.srcRegs, List.mem_filterMap]
  constructor
  · rintro ⟨o, ho, h⟩
    cases o with
    | reg r2 =>
      simp only [Option.some.injEq] at h
      subst h
      exact ho
    | const c => simp at h
  · intro h
    exact ⟨.reg r, h, rfl⟩

/-- On bound source registers the loop body is the kernel result on the lane. -/
theorem Instr.body_eq_result (P : Platform F G) (T : Nat → Option Ptr) (C : Nat → Vec F)
    (ins : Instr) (j : Nat) (m : Memory F G) (hw : ins.wired = true)
    (hb : ∀ r ∈ ins.srcRegs, (T r).isSome = true) :
    ins.body P T C j m = ins.result P C m.seed (m.lane T j) := by
  have key : ∀ o ∈ ins.srcs, o.read T C m j = some (o.value C (m.lane T j)) := by
    intro o ho
    apply Operand.read_eq
    intro r hr
    subst hr
    exact hb r (Instr.mem_srcRegs.mpr ho)
  cases ins with
  | nop k d e => simp [Instr.wired] at hw
  | un k d a =>
    simp only [Instr.srcs, List.mem_cons, List.mem_singleton, List.not_mem_nil, or_false,
      forall_eq_or_imp, forall_eq] at key
    simp [Instr.body, Instr.result, key]
  | bin k d a b =>
    simp only [Instr.srcs, List.mem_cons, List.mem_singleton, List.not_mem_nil, or_false,
      forall_eq_or_imp, forall_eq] at key
    simp [Instr.body, Instr.result, key.1, key.2]
  | tri k d a b c =>
    simp only [Instr.srcs, List.mem_cons, List.mem_singleton, List.not_mem_nil, or_false,
      forall_eq_or_imp, forall_eq] at key
    simp [Instr.body, Instr.result, key.1, key.2.1, key.2.2]

theorem Operand.value_congr (C : Nat → Vec F) (R R2 : Nat → Vec F) (o : Operand)
    (h : ∀ r, o = .reg r → R r = R2 r) : o.value C R = o.value C R2 := by
  cases o with
  | const c => rfl
  | reg r => exact h r rfl

/-- The kernel result depends on the lane only through the source registers. -/
theorem Instr.result_congr (P : Platform F G) (C : Nat → Vec F) (ins : Instr) (g : G)
    (R R2 : Nat → Vec F) (h : ∀ r ∈ ins.srcRegs, R r = R2 r) :
    ins.result P C g R = ins.result P C g R2 := by
  have key : ∀ o ∈ ins.srcs, o.value C R = o.value C R2 := by
    intro o ho
    apply Operand.value_congr
    intro r hr
    subst hr
    exact h r (Instr.mem_srcRegs.mpr ho)
  cases ins with
  | nop k d e => rfl
  | un k d a =>
    simp only [Instr.srcs, List.mem_cons, List.mem_singleton, List.not_mem_nil, or_false,
      forall_eq_or_imp, forall_eq] at key
    simp [Instr.result, key]
  | bin k d a b =>
    simp only [Instr.srcs, List.mem_cons, List.mem_singleton, List.not_mem_nil, or_false,
      forall_eq_or_imp, forall_eq] at key
    simp [Instr.result, key.1, key.2]
  | tri k d a b c =>
    simp only [Instr.srcs, List.mem_cons, List.mem_singleton, List.not_mem_nil, or_false,
      forall_eq_or_imp, forall_eq] at key
    simp [Instr.result, key.1, key.2.1, key.2.2]

/-- Every kernel but `random` leaves the random generator alone. -/
theorem Instr.result_seed (P : Platform F G) (C : Nat → Vec F) (ins : Instr) (g : G)
    (R : Nat → Vec F) (vg : Vec F × G) (hr : ins.usesRandom = false)
    (h : ins.result P C g R = some vg) : vg.2 = g := by
  cases ins with
  | nop k d e => cases h
  | un k d a =>
    simp only [Instr.result, Option.some.injEq] at h
    subst h
    cases k <;> first | rfl | simp [Instr.usesRandom] at hr
  | bin k d a b =>
    simp only [Instr.result, Option.some.injEq] at h
    subst h
    cases k <;> rfl
  | tri k d a b c =>
    simp only [Instr.result, Option.some.injEq] at h
    subst h
    cases k <;> rfl

/-- The vector of every kernel but `random` does not depend on the generator state. -/
theorem Instr.result_value (P : Platform F G) (C : Nat → Vec F) (ins : Instr) (g g2 : G)
    (R : Nat → Vec F) (hr : ins.usesRandom = false) :
    (ins.result P C g R).map Prod.fst = (ins.result P C g2 R).map Prod.fst := by
  cases ins with
  | nop k d e => rfl
  | un k d a => cases k <;> first | rfl | simp [Instr.usesRandom] at hr
  | bin k d a b => cases k <;> rfl
  | tri k d a b c => cases k <;> rfl

theorem Instr.dst_mem_regs (ins : Instr) (hw : ins.wired = true) : ins.dst ∈ ins.regs := by
  cases ins <;> first | (simp [Instr.wired] at hw; done) | simp [Instr.regs, Instr.dst]

theorem Instr.srcRegs_subset_regs (ins : Instr) (r : Nat) (h : r ∈ ins.srcRegs) :
    r ∈ ins.regs := by
  cases ins with
  | nop k d e => simp [Instr.srcRegs, Instr.srcs] at h
  | un k d a => exact List.mem_cons_of_mem _ h
  | bin k d a b => exact List.mem_cons_of_mem _ h
  | tri k d a b c => exact List.mem_cons_of_mem _ h

/-- Writing lanes below `j` of the destination does not change lane `j` of a bound slot. -/
theorem Memory.lane_writeLanes (T : Nat → Option Ptr) (hT : TableOK T) (m : Memory F G)
    (dst : Nat) (d : Ptr) (hd : T dst = some d) (j : Nat) (val : Nat → Vec F) (s : Nat)
    (hs : (T s).isSome = true) : (m.writeLanes d j val).lane T j s = m.lane T j s := by
  cases hp : T s with
  | none => simp [hp] at hs
  | some p =>
    simp only [Memory.lane, hp, Memory.writeLanes]
    rw [if_neg]
    rintro ⟨h1, h2, h3, h4⟩
    have := hT s dst p d hp hd h1 h2
    subst this
    rw [hp] at hd
    cases hd
    omega

/-- A wired instruction without `random`, all of whose registers are bound, runs to
completion, and lane `j` of every bound slot afterwards is what the instruction
computes on lane `j` alone. -/
theorem Instr.exec_lanewise (P : Platform F G) (T : Nat → Option Ptr) (C : Nat → Vec F)
    (hT : TableOK T) (ins : Instr) (hb : ∀ r ∈ ins.regs, (T r).isSome = true)
    (hr : ins.usesRandom = false) (n : Nat) (m : Memory F G) :
    ∃ m2, ins.exec P T C (n : Int) m = .ok m2 ∧ m2.seed = m.seed ∧
      (∀ j, j < n → ∀ s, (T s).isSome = true →
        m2.lane T j s = (ins.evalLane P C ⟨m.lane T j, m.seed⟩).reg s) ∧
      (∀ b r o, (∀ p, T ins.dst = some p →
          ¬(b = p.bank ∧ r = p.reg ∧ p.off ≤ o ∧ o < p.off + n)) →
        m2.cell b r o = m.cell b r o) := by
  cases hw : ins.wired with
  | false =>
    refine ⟨m, Instr.exec_unwired P T C _ ins m hw, rfl, ?_, fun _ _ _ _ => rfl⟩
    intro j _ s _
    rw [Instr.evalLane_unwired P C ins _ hw]
  | true =>
    have hdst := hb ins.dst (Instr.dst_mem_regs ins hw)
    obtain ⟨d, hd⟩ := Option.isSome_iff_exists.mp hdst
    have hsrc : ∀ r ∈ ins.srcRegs, (T r).isSome = true :=
      fun r h => hb r (Instr.srcRegs_subset_regs ins r h)
    have hres : ∀ j, ∃ v, ins.result P C m.seed (m.lane T j) = some (v, m.seed) := by
      intro j
      obtain ⟨vg, hvg⟩ := Instr.result_wired P C ins m.seed (m.lane T j) hw
      have := Instr.result_seed P C ins m.seed _ vg hr hvg
      exact ⟨vg.1, by rw [hvg, ← this]⟩
    choose val hval using hres
    have hloop := laneLoop_closed (ins.body P T C) d val m n 0 (by
      intro j _ _
      rw [Instr.body_eq_result P T C ins j _ hw hsrc, Memory.writeLanes_seed,
        Instr.result_congr P C ins m.seed _ (m.lane T j)
          (fun r h => Memory.lane_writeLanes T hT m ins.dst d hd j val r (hsrc r h))]
      exact hval j)
    rw [Memory.writeLanes_zero, Nat.zero_add] at hloop
    refine ⟨m.writeLanes d n val, ?_, rfl, ?_, ?_⟩
    · rw [Instr.exec_wired P T C _ ins m hw, forLanes, hd, Int.toNat_ofNat]
      exact hloop
    · intro j hj s hs
      rw [Instr.evalLane_eq_result P C ins m.seed _ _ (hval j)]
      obtain ⟨p, hp⟩ := Option.isSome_iff_exists.mp hs
      simp only [Memory.lane, hp, Memory.writeLanes]
      by_cases hsd : s = ins.dst
      · subst hsd
        rw [hp] at hd
        cases hd
        rw [if_pos ⟨rfl, rfl, by omega, by omega⟩]
        simp
      · rw [if_neg, Function.update_noteq hsd]
        · simp [Memory.lane, hp]
        · rintro ⟨h1, h2, _, _⟩
          exact hsd (hT s ins.dst p d hp hd h1 h2)
    · intro b r o hn
      simp only [Memory.writeLanes]
      rw [if_neg]
      exact hn d hd

theorem evalLane_cons (P : Platform F G) (C : Nat → Vec F) (ins : Instr) (rest : List Instr)
    (s : Lane F G) : evalLane P C (ins :: rest) s = evalLane P C rest (ins.evalLane P C s) := rfl

theorem Instr.evalLane_step_seed (P : Platform F G) (C : Nat → Vec F) (ins : Instr) (s : Lane F G)
    (hr : ins.usesRandom = false) : (ins.evalLane P C s).seed = s.seed := by
  cases hw : ins.wired with
  | false => rw [Instr.evalLane_unwired P C ins s hw]
  | true =>
    obtain ⟨vg, hvg⟩ := Instr.result_wired P C ins s.seed s.reg hw
    have h1 := Instr.evalLane_eq_result P C ins s.seed s.reg vg hvg
    have h2 := Instr.result_seed P C ins s.seed s.reg vg hr hvg
    have h3 : (⟨s.reg, s.seed⟩ : Lane F G) = s := rfl
    rw [h3] at h1
    rw [h1]
    exact h2

theorem evalLane_seed (P : Platform F G) (C : Nat → Vec F) (instrs : List Instr) (s : Lane F G)
    (hr : ∀ ins ∈ instrs, ins.usesRandom = false) : (evalLane P C instrs s).seed = s.seed := by
  induction instrs generalizing s with
  | nil => rfl
  | cons ins rest ih =>
    rw [evalLane_cons, ih _ (fun i hi => hr i (List.mem_cons_of_mem _ hi)),
      Instr.evalLane_step_seed P C ins s (hr ins (List.mem_cons_self _ _))]

/-- One instruction maps lanes that agree on `S` to lanes that agree on `S` and on the
destination, provided it reads only registers of `S`. -/
theorem Instr.evalLane_step_congr (P : Platform F G) (C : Nat → Vec F) (ins : Instr)
    (S : Nat → Bool) (hS : ins.srcRegs.all S = true) (s1 s2 : Lane F G)
    (hseed : s1.seed = s2.seed) (h : ∀ r, S r = true → s1.reg r = s2.reg r) :
    (ins.evalLane P C s1).seed = (ins.evalLane P C s2).seed ∧
      ∀ r, (S r || (ins.wired && r == ins.dst)) = true →
        (ins.evalLane P C s1).reg r = (ins.evalLane P C s2).reg r := by
  cases hw : ins.wired with
  | false =>
    rw [Instr.evalLane_unwired P C ins s1 hw, Instr.evalLane_unwired P C ins s2 hw]
    refine ⟨hseed, fun r hr => h r ?_⟩
    simpa using hr
  | true =>
    obtain ⟨vg, hvg⟩ := Instr.result_wired P C ins s1.seed s1.reg hw
    have hvg2 : ins.result P C s2.seed s2.reg = some vg := by
      rw [← hseed, ← Instr.result_congr P C ins s1.seed s1.reg s2.reg
        (fun r hr => h r (List.all_eq_true.mp hS r hr))]
      exact hvg
    have e1 := Instr.evalLane_eq_result P C ins s1.seed s1.reg vg hvg
    have e2 := Instr.evalLane_eq_result P C ins s2.seed s2.reg vg hvg2
    have h1 : (⟨s1.reg, s1.seed⟩ : Lane F G) = s1 := rfl
    have h2 : (⟨s2.reg, s2.seed⟩ : Lane F G) = s2 := rfl
    rw [h1] at e1
    rw [h2] at e2
    rw [e1, e2]
    refine ⟨rfl, fun r hr => ?_⟩
    by_cases hrd : r = ins.dst
    · subst hrd
      simp
    · simp only [Function.update_noteq hrd]
      apply h
      simpa [hrd] using hr

/-- Lanes that agree on `S` and on the seed stay in agreement, on `S` and on every
register written, under a program that reads registers only after they are in `S` or
written. -/
theorem evalLane_congr (P : Platform F G) (C : Nat → Vec F) (instrs : List Instr)
    (S : Nat → Bool) (hdef : definedBefore S instrs = true) (s1 s2 : Lane F G)
    (hseed : s1.seed = s2.seed) (h : ∀ r, S r = true → s1.reg r = s2.reg r) :
    (evalLane P C instrs s1).seed = (evalLane P C instrs s2).seed ∧
      ∀ r, S r = true → (evalLane P C instrs s1).reg r = (evalLane P C instrs s2).reg r := by
  induction instrs generalizing S s1 s2 with
  | nil => exact ⟨hseed, h⟩
  | cons ins rest ih =>
    simp only [definedBefore, Bool.and_eq_true] at hdef
    obtain ⟨h1, h2⟩ := Instr.evalLane_step_congr P C ins S hdef.1 s1 s2 hseed h
    obtain ⟨h3, h4⟩ := ih _ hdef.2 _ _ h1 h2
    refine ⟨h3, fun r hr => h4 r ?_⟩
    simp [hr]

theorem definedBefore_of_all (S : Nat → Bool) (instrs : List Instr)
    (h : ∀ ins ∈ instrs, ∀ r ∈ ins.srcRegs, S r = true) : definedBefore S instrs = true := by
  induction instrs generalizing S with
  | nil => rfl
  | cons ins rest ih =>
    simp only [definedBefore, Bool.and_eq_true, List.all_eq_true]
    refine ⟨h ins (List.mem_cons_self _ _), ih _ ?_⟩
    intro i hi r hr
    simp [h i (List.mem_cons_of_mem _ hi) r hr]

/-- An instruction ends normally or in undefined behaviour. -/
theorem Instr.exec_cases (P : Platform F G) (T : Nat → Option Ptr) (C : Nat → Vec F) (n : Int)
    (ins : Instr) (m : Memory F G) :
    (∃ m2, ins.exec P T C n m = .ok m2) ∨ ins.exec P T C n m = .undefined := by
  cases hw : ins.wired with
  | false => exact Or.inl ⟨m, Instr.exec_unwired P T C n ins m hw⟩
  | true =>
    rw [Instr.exec_wired P T C n ins m hw]
    exact laneLoop_cases _ _ _ _ _

/-- An instruction changes nothing but the lanes `0 .. n-1` of its destination. -/
theorem Instr.exec_frame (P : Platform F G) (T : Nat → Option Ptr) (C : Nat → Vec F) (n : Int)
    (ins : Instr) (m m2 : Memory F G) (h : ins.exec P T C n m = .ok m2) (b : Bank) (r o : Nat)
    (hn : ins.wired = true → ∀ p, T ins.dst = some p →
      ¬(b = p.bank ∧ r = p.reg ∧ (p.off : Int) ≤ o ∧ (o : Int) < p.off + n)) :
    m2.cell b r o = m.cell b r o := by
  cases hw : ins.wired with
  | false =>
    rw [Instr.exec_unwired P T C n ins m hw] at h
    cases h
    rfl
  | true =>
    rw [Instr.exec_wired P T C n ins m hw] at h
    apply laneLoop_frame _ _ _ _ _ _ h
    intro d hd ⟨h1, h2, h3, h4⟩
    apply hn hw d hd
    refine ⟨h1, h2, by omega, by omega⟩

/-- The lane loop completes when the destination is not null and the body never fails. -/
theorem laneLoop_ok (body : Nat → Memory F G → Option (Vec F × G)) (d : Ptr)
    (hb : ∀ j m, (body j m).isSome = true) (k i : Nat) (m : Memory F G) :
    ∃ m2, laneLoop body (some d) k i m = .ok m2 := by
  induction k generalizing i m with
  | zero => exact ⟨m, rfl⟩
  | succ k ih =>
    obtain ⟨vg, hvg⟩ := Option.isSome_iff_exists.mp (hb i m)
    simp only [laneLoop, hvg]
    exact ih _ _

/-- An instruction whose registers are all bound runs to completion. -/
theorem Instr.exec_ok (P : Platform F G) (T : Nat → Option Ptr) (C : Nat → Vec F) (n : Int)
    (ins : Instr) (m : Memory F G) (hb : ∀ r ∈ ins.regs, (T r).isSome = true) :
    ∃ m2, ins.exec P T C n m = .ok m2 := by
  cases hw : ins.wired with
  | false => exact ⟨m, Instr.exec_unwired P T C n ins m hw⟩
  | true =>
    rw [Instr.exec_wired P T C n ins m hw]
    obtain ⟨d, hd⟩ := Option.isSome_iff_exists.mp (hb ins.dst (Instr.dst_mem_regs ins hw))
    rw [forLanes, hd]
    apply laneLoop_ok
    intro j m2
    rw [Instr.body_eq_result P T C ins j m2 hw
      (fun r h => hb r (Instr.srcRegs_subset_regs ins r h))]
    obtain ⟨vg, hvg⟩ := Instr.result_wired P C ins m2.seed (m2.lane T j) hw
    rw [hvg]
    rfl

/-- A list of instructions ends normally or in undefined behaviour. -/
theorem execInstrs_cases (P : Platform F G) (T : Nat → Option Ptr) (C : Nat → Vec F) (n : Int)
    (instrs : List Instr) (m : Memory F G) :
    (∃ m2, execInstrs P T C n instrs m = .ok m2) ∨ execInstrs P T C n instrs m = .undefined := by
  induction instrs generalizing m with
  | nil => exact Or.inl ⟨m, rfl⟩
  | cons ins rest ih =>
    rcases Instr.exec_cases P T C n ins m with ⟨m1, h1⟩ | h1
    · simp only [execInstrs, h1, Outcome.bind_ok]
      exact ih m1
    · exact Or.inr (by simp [execInstrs, h1])

/-- Instructions whose registers are all bound run to completion. -/
theorem execInstrs_ok (P : Platform F G) (T : Nat → Option Ptr) (C : Nat → Vec F) (n : Int)
    (instrs : List Instr) (m : Memory F G)
    (hb : ∀ ins ∈ instrs, ∀ r ∈ ins.regs, (T r).isSome = true) :
    ∃ m2, execInstrs P T C n instrs m = .ok m2 := by
  induction instrs generalizing m with
  | nil => exact ⟨m, rfl⟩
  | cons ins rest ih =>
    obtain ⟨m1, h1⟩ := Instr.exec_ok P T C n ins m (hb ins (List.mem_cons_self _ _))
    simp only [execInstrs, h1, Outcome.bind_ok]
    exact ih m1 (fun i hi => hb i (List.mem_cons_of_mem _ hi))

/-- A list of instructions changes nothing but lanes `0 .. n-1` of its destinations. -/
theorem execInstrs_frame (P : Platform F G) (T : Nat → Option Ptr) (C : Nat → Vec F) (n : Int)
    (instrs : List Instr) (m m2 : Memory F G) (h : execInstrs P T C n instrs m = .ok m2)
    (b : Bank) (r o : Nat)
    (hn : ∀ ins ∈ instrs, ins.wired = true → ∀ p, T ins.dst = some p →
      ¬(b = p.bank ∧ r = p.reg ∧ (p.off : Int) ≤ o ∧ (o : Int) < p.off + n)) :
    m2.cell b r o = m.cell b r o := by
  induction instrs generalizing m with
  | nil =>
    simp only [execInstrs, Outcome.ok.injEq] at h
    rw [h]
  | cons ins rest ih =>
    rcases Instr.exec_cases P T C n ins m with ⟨m1, h1⟩ | h1
    · simp only [execInstrs, h1, Outcome.bind_ok] at h
      rw [ih m1 h (fun i hi => hn i (List.mem_cons_of_mem _ hi)),
        Instr.exec_frame P T C n ins m m1 h1 b r o (hn ins (List.mem_cons_self _ _))]
    · simp [execInstrs, h1] at h

/-- The seed after a list of instructions without `random` is the seed before. -/
theorem execInstrs_seed (P : Platform F G) (T : Nat → Option Ptr) (C : Nat → Vec F)
    (hT : TableOK T) (instrs : List Instr)
    (hb : ∀ ins ∈ instrs, ∀ r ∈ ins.regs, (T r).isSome = true)
    (hr : ∀ ins ∈ instrs, ins.usesRandom = false) (n : Nat) (m m2 : Memory F G)
    (h : execInstrs P T C (n : Int) instrs m = .ok m2) : m2.seed = m.seed := by
  induction instrs generalizing m with
  | nil =>
    simp only [execInstrs, Outcome.ok.injEq] at h
    rw [h]
  | cons ins rest ih =>
    obtain ⟨m1, h1, h2, -, -⟩ := Instr.exec_lanewise P T C hT ins
      (hb ins (List.mem_cons_self _ _)) (hr ins (List.mem_cons_self _ _)) n m
    simp only [execInstrs, h1, Outcome.bind_ok] at h
    rw [ih (fun i hi => hb i (List.mem_cons_of_mem _ hi))
      (fun i hi => hr i (List.mem_cons_of_mem _ hi)) m1 h, h2]

/-- Instructions without `random`, all of whose registers are bound, compute on lane `j`
of every bound slot what the single-lane evaluation computes from lane `j`. -/
theorem execInstrs_lanewise (P : Platform F G) (T : Nat → Option Ptr) (C : Nat → Vec F)
    (hT : TableOK T) (instrs : List Instr)
    (hb : ∀ ins ∈ instrs, ∀ r ∈ ins.regs, (T r).isSome = true)
    (hr : ∀ ins ∈ instrs, ins.usesRandom = false) (n : Nat) (m m2 : Memory F G)
    (h : execInstrs P T C (n : Int) instrs m = .ok m2) (j : Nat) (hj : j < n) (s : Nat)
    (hs : (T s).isSome = true) :
    m2.lane T j s = (evalLane P C instrs ⟨m.lane T j, m.seed⟩).reg s := by
  induction instrs generalizing m with
  | nil =>
    simp only [execInstrs, Outcome.ok.injEq] at h
    rw [h]
    rfl
  | cons ins rest ih =>
    obtain ⟨m1, h1, h2, h3, -⟩ := Instr.exec_lanewise P T C hT ins
      (hb ins (List.mem_cons_self _ _)) (hr ins (List.mem_cons_self _ _)) n m
    simp only [execInstrs, h1, Outcome.bind_ok] at h
    have hb2 : ∀ i ∈ rest, ∀ r ∈ i.regs, (T r).isSome = true :=
      fun i hi => hb i (List.mem_cons_of_mem _ hi)
    rw [ih hb2 (fun i hi => hr i (List.mem_cons_of_mem _ hi)) m1 h, evalLane_cons]
    have hdef : definedBefore (fun r => (T r).isSome) rest = true :=
      definedBefore_of_all _ rest
        (fun i hi r hr2 => hb2 i hi r (Instr.srcRegs_subset_regs i r hr2))
    refine (evalLane_congr P C rest _ hdef _ _ ?_ ?_).2 s hs
    · rw [Instr.evalLane_step_seed P C ins _ (hr ins (List.mem_cons_self _ _))]
      exact h2
    · intro r hr2
      exact h3 j hj r hr2

end Lanewise

/-! ## The register table of a chunk -/

section Table

theorem foldl_update_range (f : Nat → Option Ptr) (base n : Nat) (T : Nat → Option Ptr) :
    (List.range n).foldl (fun T i => Function.update T (base + i) (f i)) T =
      fun s => if base ≤ s ∧ s < base + n then f (s - base) else T s := by
  induction n with
  | zero =>
    funext s
    simp only [List.range_zero, List.foldl_nil]
    rw [if_neg]
    omega
  | succ n ih =>
    rw [List.range_succ, List.foldl_append, ih]
    funext s
    simp only [List.foldl_cons, List.foldl_nil, Function.update_apply]
    by_cases h1 : s = base + n
    · subst h1
      rw [if_pos rfl, if_pos ⟨by omega, by omega⟩]
      congr 1
      omega
    · rw [if_neg h1]
      by_cases h2 : base ≤ s ∧ s < base + n
      · rw [if_pos h2, if_pos ⟨h2.1, by omega⟩]
      · rw [if_neg h2, if_neg]
        omega

theorem mapTempRegisters_eq (H : Header) :
    mapTempRegisters H = fun s => if s < H.NumTempRegisters then some ⟨Bank.Temp, s, 0⟩ else none := by
  have := foldl_update_range (fun i => some ⟨Bank.Temp, i, 0⟩) 0 H.NumTempRegisters (fun _ => none)
  simp only [Nat.zero_add, Nat.zero_le, true_and, Nat.sub_zero] at this
  exact this

theorem mapChunkRegisters_eq (H : Header) (NumIn NumOut c : Nat) (T : Nat → Option Ptr) :
    mapChunkRegisters H NumIn NumOut c T = fun s =>
      if H.NumTempRegisters + H.MaxInputRegisters ≤ s ∧
          s < H.NumTempRegisters + H.MaxInputRegisters + NumOut then
        some ⟨Bank.Output, s - (H.NumTempRegisters + H.MaxInputRegisters), c * H.VectorsPerChunk⟩
      else if H.NumTempRegisters ≤ s ∧ s < H.NumTempRegisters + NumIn then
        some ⟨Bank.Input, s - H.NumTempRegisters, c * H.VectorsPerChunk⟩
      else T s := by
  simp only [mapChunkRegisters]
  rw [foldl_update_range (fun i => some ⟨Bank.Input, i, c * H.VectorsPerChunk⟩),
    foldl_update_range (fun i => some ⟨Bank.Output, i, c * H.VectorsPerChunk⟩)]

/-- The table of the first chunk is the closed form `chunkTable`. -/
theorem mapChunkRegisters_temp (H : Header) (NumIn NumOut c : Nat) :
    mapChunkRegisters H NumIn NumOut c (mapTempRegisters H) = chunkTable H NumIn NumOut c := by
  rw [mapChunkRegisters_eq, mapTempRegisters_eq]
  rfl

/-- Rebinding the table of an earlier chunk gives the closed form `chunkTable`. -/
theorem mapChunkRegisters_chunk (H : Header) (NumIn NumOut c c2 : Nat) :
    mapChunkRegisters H NumIn NumOut c (chunkTable H NumIn NumOut c2) =
      chunkTable H NumIn NumOut c := by
  rw [mapChunkRegisters_eq]
  funext s
  simp only [chunkTable]
  split_ifs <;> rfl

theorem chunkTable_isSome (H : Header) (NumIn NumOut c s : Nat) :
    (chunkTable H NumIn NumOut c s).isSome = boundSlot H NumIn NumOut s := by
  simp only [boundSlot, chunkTable]
  split_ifs <;> rfl

/-- What a slot of the chunk table points to. -/
theorem chunkTable_some (H : Header) (NumIn NumOut c s : Nat) (p : Ptr)
    (h : chunkTable H NumIn NumOut c s = some p) :
    (p.bank = Bank.Temp ∧ s < H.NumTempRegisters ∧ p.reg = s ∧ p.off = 0) ∨
    (p.bank = Bank.Input ∧ H.NumTempRegisters ≤ s ∧ s < H.NumTempRegisters + NumIn ∧
      p.reg = s - H.NumTempRegisters ∧ p.off = c * H.VectorsPerChunk) ∨
    (p.bank = Bank.Output ∧ H.NumTempRegisters + H.MaxInputRegisters ≤ s ∧
      s < H.NumTempRegisters + H.MaxInputRegisters + NumOut ∧
      p.reg = s - (H.NumTempRegisters + H.MaxInputRegisters) ∧
      p.off = c * H.VectorsPerChunk) := by
  simp only [chunkTable] at h
  split_ifs at h with h1 h2 h3
  · cases h
    exact Or.inr (Or.inr ⟨rfl, h1.1, h1.2, rfl, rfl⟩)
  · cases h
    exact Or.inr (Or.inl ⟨rfl, h2.1, h2.2, rfl, rfl⟩)
  · cases h
    exact Or.inl ⟨rfl, h3, rfl, rfl⟩

theorem chunkTable_ok (H : Header) (NumIn NumOut c : Nat) :
    TableOK (chunkTable H NumIn NumOut c) := by
  intro s1 s2 p1 p2 h1 h2 hb hr
  rcases chunkTable_some H NumIn NumOut c s1 p1 h1 with ⟨a1, a2, a3, a4⟩ | ⟨a1, a2, a3, a4, a5⟩ |
    ⟨a1, a2, a3, a4, a5⟩ <;>
  rcases chunkTable_some H NumIn NumOut c s2 p2 h2 with ⟨b1, b2, b3, b4⟩ | ⟨b1, b2, b3, b4, b5⟩ |
    ⟨b1, b2, b3, b4, b5⟩ <;>
  first
  | (rw [a1, b1] at hb; cases hb; done)
  | omega

/-- An input slot inside the input limit is bound to its input array. -/
theorem chunkTable_input (H : Header) (NumIn NumOut c k : Nat) (hk : k < NumIn)
    (hIn : NumIn ≤ H.MaxInputRegisters) :
    chunkTable H NumIn NumOut c (H.NumTempRegisters + k) =
      some ⟨Bank.Input, k, c * H.VectorsPerChunk⟩ := by
  simp only [chunkTable]
  rw [if_neg (by omega), if_pos ⟨by omega, by omega⟩]
  congr 2
  omega

/-- An output slot is bound to its output array. -/
theorem chunkTable_output (H : Header) (NumIn NumOut c k : Nat) (hk : k < NumOut) :
    chunkTable H NumIn NumOut c (H.NumTempRegisters + H.MaxInputRegisters + k) =
      some ⟨Bank.Output, k, c * H.VectorsPerChunk⟩ := by
  simp only [chunkTable]
  rw [if_pos ⟨by omega, by omega⟩]
  congr 2
  omega

end Table

/-! ## The chunk loop -/

section ChunkLoop
variable {F G : Type}

theorem Outcome.bind_ok_right {μ α : Type} (r : Outcome μ α) : r.bind Outcome.ok = r := by
  cases r <;> rfl

theorem wrapInt32_of_range (x : Int) (h1 : -2147483648 ≤ x) (h2 : x < 2147483648) :
    wrapInt32 x = x := by
  unfold wrapInt32
  omega

/-- Without overflow the chunk count is the rounded-up quotient. -/
theorem NumChunks_eq (H : Header) (L : Nat) (hL : L + H.VectorsPerChunk < 2147483648) :
    NumChunks H (L : Int) = ((L + H.VectorsPerChunk - 1) / H.VectorsPerChunk : Nat) := by
  unfold NumChunks
  rw [wrapInt32_of_range ((L : Int) + H.VectorsPerChunk) (by omega) (by omega),
    wrapInt32_of_range _ (by omega) (by omega)]
  by_cases hV : H.VectorsPerChunk = 0
  · simp [hV]
  · have : ((L : Int) + H.VectorsPerChunk - 1) = ((L + H.VectorsPerChunk - 1 : Nat) : Int) := by
      omega
    rw [this, ← Int.ofNat_tdiv]

theorem NumChunks_toNat_mul (H : Header) (L : Nat) (hV : 0 < H.VectorsPerChunk)
    (hL : L + H.VectorsPerChunk < 2147483648) :
    L ≤ (NumChunks H (L : Int)).toNat * H.VectorsPerChunk := by
  rw [NumChunks_eq H L hL, Int.toNat_ofNat]
  have h1 := Nat.div_add_mod (L + H.VectorsPerChunk - 1) H.VectorsPerChunk
  have h2 := Nat.mod_lt (L + H.VectorsPerChunk - 1) hV
  rw [Nat.mul_comm] at h1
  omega

theorem forLanes_toNat (body : Nat → Memory F G → Option (Vec F × G)) (Dst : Option Ptr)
    (n : Int) (m : Memory F G) : forLanes body Dst n m = forLanes body Dst (n.toNat : Int) m := by
  unfold forLanes
  rw [Int.toNat_ofNat]

theorem Instr.exec_toNat (P : Platform F G) (T : Nat → Option Ptr) (C : Nat → Vec F) (n : Int)
    (ins : Instr) (m : Memory F G) :
    ins.exec P T C n m = ins.exec P T C (n.toNat : Int) m := by
  cases hw : ins.wired with
  | false => rw [Instr.exec_unwired P T C _ ins m hw, Instr.exec_unwired P T C _ ins m hw]
  | true =>
    rw [Instr.exec_wired P T C _ ins m hw, Instr.exec_wired P T C _ ins m hw]
    exact forLanes_toNat _ _ _ _

theorem execInstrs_toNat (P : Platform F G) (T : Nat → Option Ptr) (C : Nat → Vec F) (n : Int)
    (instrs : List Instr) (m : Memory F G) :
    execInstrs P T C n instrs m = execInstrs P T C (n.toNat : Int) instrs m := by
  induction instrs generalizing m with
  | nil => rfl
  | cons ins rest ih =>
    simp only [execInstrs]
    rw [Instr.exec_toNat]
    congr 1
    funext m1
    exact ih m1

/-- One iteration of the chunk loop, in terms of the decoded program. -/
theorem chunkLoop_succ (H : Header) (P : Platform F G) (Code : List Nat) (NumIn NumOut : Nat)
    (C : Nat → Vec F) (rem c : Nat) (NV : Int) (T : Nat → Option Ptr) (m : Memory F G)
    (hT : mapChunkRegisters H NumIn NumOut c T = chunkTable H NumIn NumOut c) :
    chunkLoop H P Code NumIn NumOut C (rem + 1) c NV T m =
      ((execInstrs P (chunkTable H NumIn NumOut c) C
          ((min NV (H.VectorsPerChunk : Int)).toNat : Int)
          (decodeProgram H (Code.length + 1) Code).1 m).bind
        (decodeProgram H (Code.length + 1) Code).2.outcome).bind
      fun m1 => chunkLoop H P Code NumIn NumOut C rem (c + 1) (NV - H.VectorsPerChunk)
        (chunkTable H NumIn NumOut c) m1 := by
  simp only [chunkLoop, hT, execChunk_eq]
  rw [execInstrs_toNat]

theorem lane_input (H : Header) (NumIn NumOut c k j : Nat) (m : Memory F G) (hk : k < NumIn)
    (hIn : NumIn ≤ H.MaxInputRegisters) :
    m.lane (chunkTable H NumIn NumOut c) j (H.NumTempRegisters + k) =
      m.cell Bank.Input k (c * H.VectorsPerChunk + j) := by
  simp only [Memory.lane, chunkTable_input H NumIn NumOut c k hk hIn]

theorem lane_output (H : Header) (NumIn NumOut c k j : Nat) (m : Memory F G) (hk : k < NumOut) :
    m.lane (chunkTable H NumIn NumOut c) j (H.NumTempRegisters + H.MaxInputRegisters + k) =
      m.cell Bank.Output k (c * H.VectorsPerChunk + j) := by
  simp only [Memory.lane, chunkTable_output H NumIn NumOut c k hk]

/-- A single lane that holds lane `c * VectorsPerChunk + j` of the caller arrays agrees
with lane `j` of chunk `c` on every bound slot that is not a temporary. -/
theorem holdsLane_lane (H : Header) (NumIn NumOut c j : Nat) (m : Memory F G)
    (R : Nat → Vec F) (hR : holdsLane H NumIn NumOut m (c * H.VectorsPerChunk + j) R) (r : Nat)
    (hr : (boundSlot H NumIn NumOut r && decide (H.NumTempRegisters ≤ r)) = true) :
    m.lane (chunkTable H NumIn NumOut c) j r = R r := by
  simp only [Bool.and_eq_true, decide_eq_true_eq] at hr
  obtain ⟨h1, h2⟩ := hr
  rw [← chunkTable_isSome H NumIn NumOut c r] at h1
  obtain ⟨p, hp⟩ := Option.isSome_iff_exists.mp h1
  rcases chunkTable_some H NumIn NumOut c r p hp with ⟨_, a2, _, _⟩ | ⟨a1, a2, a3, a4, a5⟩ |
    ⟨a1, a2, a3, a4, a5⟩
  · omega
  · have e : r = H.NumTempRegisters + (r - H.NumTempRegisters) := by omega
    have := hR.1 (r - H.NumTempRegisters) (by omega)
    rw [← e] at this
    rw [this]
    simp only [Memory.lane, hp, a1, a4, a5]
  · have e : r = H.NumTempRegisters + H.MaxInputRegisters +
        (r - (H.NumTempRegisters + H.MaxInputRegisters)) := by omega
    have := hR.2 (r - (H.NumTempRegisters + H.MaxInputRegisters)) (by omega)
    rw [← e] at this
    rw [this]
    simp only [Memory.lane, hp, a1, a4, a5]

/-- A chunk changes no element of a caller array outside the lanes of the chunk. -/
theorem chunk_frame (H : Header) (P : Platform F G) (NumIn NumOut c n : Nat) (C : Nat → Vec F)
    (instrs : List Instr) (m m1 : Memory F G)
    (h : execInstrs P (chunkTable H NumIn NumOut c) C (n : Int) instrs m = .ok m1)
    (b : Bank) (r g : Nat) (hb : b ≠ Bank.Temp)
    (hg : g < c * H.VectorsPerChunk ∨ c * H.VectorsPerChunk + n ≤ g) :
    m1.cell b r g = m.cell b r g := by
  apply execInstrs_frame P _ C _ instrs m m1 h
  intro ins _ _ p hp ⟨h1, _, h3, h4⟩
  rcases chunkTable_some H NumIn NumOut c ins.dst p hp with ⟨a1, _, _, _⟩ | ⟨_, _, _, _, a5⟩ |
    ⟨_, _, _, _, a5⟩
  · exact hb (h1.trans a1)
  · rw [a5] at h3 h4
    omega
  · rw [a5] at h3 h4
    omega

/-- The chunk loop from chunk `c` on, for a terminated program without `random` whose
registers are bound and whose temporaries are written before they are read: every
lane of the chunks that run, below the lane count `NV`, ends up as the single-lane
evaluation of the program, and no other element of a caller array changes. -/
theorem chunkLoop_lanewise (H : Header) (P : Platform F G) (Code : List Nat)
    (NumIn NumOut : Nat) (C : Nat → Vec F) (NV : Int) (instrs : List Instr)
    (hIn : NumIn ≤ H.MaxInputRegisters)
    (hdec : decodeProgram H (Code.length + 1) Code = (instrs, .done))
    (hb : ∀ ins ∈ instrs, ∀ r ∈ ins.regs, boundSlot H NumIn NumOut r = true)
    (hr : ∀ ins ∈ instrs, ins.usesRandom = false)
    (hdef : definedBefore
      (fun r => boundSlot H NumIn NumOut r && decide (H.NumTempRegisters ≤ r)) instrs = true)
    (rem c : Nat) (T : Nat → Option Ptr)
    (hT : ∀ c, mapChunkRegisters H NumIn NumOut c T = chunkTable H NumIn NumOut c)
    (m : Memory F G) :
    ∃ m2, chunkLoop H P Code NumIn NumOut C rem c (NV - c * H.VectorsPerChunk) T m
        = .ok m2 ∧
      m2.seed = m.seed ∧
      (∀ g, c * H.VectorsPerChunk ≤ g → g < (c + rem) * H.VectorsPerChunk → (g : Int) < NV →
        ∀ R, holdsLane H NumIn NumOut m g R →
          holdsLane H NumIn NumOut m2 g (evalLane P C instrs ⟨R, m.seed⟩).reg) ∧
      (∀ b r g, b ≠ Bank.Temp →
        (g < c * H.VectorsPerChunk ∨ NV ≤ g ∨ (c + rem) * H.VectorsPerChunk ≤ g) →
        m2.cell b r g = m.cell b r g) := by
  induction rem generalizing c T m with
  | zero =>
    refine ⟨m, rfl, rfl, ?_, fun _ _ _ _ _ => rfl⟩
    intro g h1 h2
    simp only [Nat.add_zero] at h2
    omega
  | succ rem ih =>
    rw [chunkLoop_succ H P Code NumIn NumOut C rem c _ T m (hT c), hdec]
    simp only []
    have hbT : ∀ ins ∈ instrs, ∀ r ∈ ins.regs,
        (chunkTable H NumIn NumOut c r).isSome = true := by
      intro ins hi r hr2
      rw [chunkTable_isSome]
      exact hb ins hi r hr2
    have e : ((c : Int) * (H.VectorsPerChunk : Int)) = ((c * H.VectorsPerChunk : Nat) : Int) := by
      push_cast
      rfl
    rw [e]
    generalize hn : (min (NV - ((c * H.VectorsPerChunk : Nat) : Int))
      (H.VectorsPerChunk : Int)).toNat = n
    obtain ⟨m1, h1⟩ := execInstrs_ok P (chunkTable H NumIn NumOut c) C (n : Int) instrs m hbT
    have hseed := execInstrs_seed P _ C (chunkTable_ok H NumIn NumOut c) instrs hbT hr n m m1 h1
    have hlane := execInstrs_lanewise P _ C (chunkTable_ok H NumIn NumOut c) instrs hbT hr n
      m m1 h1
    have hframe := chunk_frame H P NumIn NumOut c n C instrs m m1 h1
    have hcast : NV - ((c * H.VectorsPerChunk : Nat) : Int) - (H.VectorsPerChunk : Int) =
        NV - ((c + 1 : Nat) : Int) * (H.VectorsPerChunk : Int) := by
      push_cast
      ring
    obtain ⟨m2, h2, hseed2, hA, hB⟩ := ih (c + 1) (chunkTable H NumIn NumOut c)
      (fun c2 => mapChunkRegisters_chunk H NumIn NumOut c2 c) m1
    rw [h1]
    simp only [Outcome.bind_ok, Ending.outcome]
    rw [hcast, h2]
    have hmul : (c + 1) * H.VectorsPerChunk = c * H.VectorsPerChunk + H.VectorsPerChunk := by
      ring
    have hmul2 : (c + 1 + rem) * H.VectorsPerChunk = (c + (rem + 1)) * H.VectorsPerChunk := by
      ring
    rw [hmul2] at hA hB
    have hmul3 : (c + 1) * H.VectorsPerChunk ≤ (c + (rem + 1)) * H.VectorsPerChunk :=
      Nat.mul_le_mul_right _ (by omega)
    refine ⟨m2, rfl, by rw [hseed2, hseed], ?_, ?_⟩
    · intro g hg1 hg2 hg4 R hR
      by_cases hg3 : g < (c + 1) * H.VectorsPerChunk
      · obtain ⟨j, rfl⟩ : ∃ j, g = c * H.VectorsPerChunk + j := ⟨g - c * H.VectorsPerChunk, by omega⟩
        have hj : j < n := by omega
        have hcongr := (evalLane_congr P C instrs _ hdef
          ⟨m.lane (chunkTable H NumIn NumOut c) j, m.seed⟩ ⟨R, m.seed⟩ rfl
          (fun r hr2 => holdsLane_lane H NumIn NumOut c j m R hR r hr2)).2
        constructor
        · intro k hk
          rw [hB _ _ _ (by simp) (Or.inl hg3), ← lane_input H NumIn NumOut c k j m1 hk hIn,
            hlane j hj _ (by rw [chunkTable_input H NumIn NumOut c k hk hIn]; rfl)]
          symm
          apply hcongr
          simp only [boundSlot, chunkTable_input H NumIn NumOut 0 k hk hIn, Option.isSome_some,
            Bool.true_and, decide_eq_true_eq]
          omega
        · intro k hk
          rw [hB _ _ _ (by simp) (Or.inl hg3), ← lane_output H NumIn NumOut c k j m1 hk,
            hlane j hj _ (by rw [chunkTable_output H NumIn NumOut c k hk]; rfl)]
          symm
          apply hcongr
          simp only [boundSlot, chunkTable_output H NumIn NumOut 0 k hk, Option.isSome_some,
            Bool.true_and, decide_eq_true_eq]
          omega
      · have hR1 : holdsLane H NumIn NumOut m1 g R := by
          constructor
          · intro k hk
            rw [hR.1 k hk, hframe _ _ _ (by simp) (Or.inr (by omega))]
          · intro k hk
            rw [hR.2 k hk, hframe _ _ _ (by simp) (Or.inr (by omega))]
        have := hA g (by omega) hg2 hg4 R hR1
        rw [hseed] at this
        exact this
    · intro b r g hb2 hg
      rw [hB b r g hb2 (by omega), hframe b r g hb2 (by omega)]

theorem chunkLoop_eq_runChunks (H : Header) (P : Platform F G) (Code : List Nat)
    (NumIn NumOut : Nat) (C : Nat → Vec F) (NV : Int) (rem c : Nat) (T : Nat → Option Ptr)
    (hT : ∀ c, mapChunkRegisters H NumIn NumOut c T = chunkTable H NumIn NumOut c)
    (m : Memory F G) :
    chunkLoop H P Code NumIn NumOut C rem c (NV - c * H.VectorsPerChunk) T m =
      runChunks H P NumIn NumOut C (decodeProgram H (Code.length + 1) Code).1
        (decodeProgram H (Code.length + 1) Code).2 NV rem c m := by
  induction rem generalizing c T m with
  | zero => rfl
  | succ rem ih =>
    rw [chunkLoop_succ H P Code NumIn NumOut C rem c _ T m (hT c)]
    simp only [runChunks, VectorsThisChunk]
    rw [← execInstrs_toNat]
    congr 1
    funext m1
    have hcast : NV - (c : Int) * (H.VectorsPerChunk : Int) - (H.VectorsPerChunk : Int) =
        NV - ((c + 1 : Nat) : Int) * (H.VectorsPerChunk : Int) := by
      push_cast
      ring
    rw [hcast]
    exact ih (c + 1) _ (fun c2 => mapChunkRegisters_chunk H NumIn NumOut c2 c) m1

/-- The entry point in decoded form. -/
theorem Exec_eq_runChunks (H : Header) (P : Platform F G) (Code : List Nat)
    (NumIn NumOut : Nat) (C : Nat → Vec F) (NV : Int) (m : Memory F G) :
    Exec H P Code NumIn NumOut C NV m =
      runChunks H P NumIn NumOut C (decodeProgram H (Code.length + 1) Code).1
        (decodeProgram H (Code.length + 1) Code).2 NV (NumChunks H NV).toNat 0 m := by
  have := chunkLoop_eq_runChunks H P Code NumIn NumOut C NV (NumChunks H NV).toNat 0
    (mapTempRegisters H) (fun c => mapChunkRegisters_temp H NumIn NumOut c) m
  simp only [Nat.cast_zero, zero_mul, sub_zero] at this
  exact this

/-- The entry point on a terminated program without `random` whose registers are bound
and whose temporaries are written before they are read, for any lane count: every
lane of the chunks that run, below the lane count, ends up as the single-lane
evaluation of the program, every other element of a caller array is unchanged. -/
theorem Exec_lanewise_chunks (H : Header) (P : Platform F G) (Code : List Nat)
    (NumIn NumOut : Nat) (C : Nat → Vec F) (NV : Int) (instrs : List Instr)
    (hIn : NumIn ≤ H.MaxInputRegisters)
    (hdec : decodeProgram H (Code.length + 1) Code = (instrs, .done))
    (hb : ∀ ins ∈ instrs, ∀ r ∈ ins.regs, boundSlot H NumIn NumOut r = true)
    (hr : ∀ ins ∈ instrs, ins.usesRandom = false)
    (hdef : definedBefore
      (fun r => boundSlot H NumIn NumOut r && decide (H.NumTempRegisters ≤ r)) instrs = true)
    (m : Memory F G) :
    ∃ m2, Exec H P Code NumIn NumOut C NV m = .ok m2 ∧ m2.seed = m.seed ∧
      (∀ g, g < (NumChunks H NV).toNat * H.VectorsPerChunk → (g : Int) < NV →
        ∀ R, holdsLane H NumIn NumOut m g R →
          holdsLane H NumIn NumOut m2 g (evalLane P C instrs ⟨R, m.seed⟩).reg) ∧
      (∀ (b : Bank) (r g : Nat), b ≠ Bank.Temp →
        (NV ≤ (g : Int) ∨ (NumChunks H NV).toNat * H.VectorsPerChunk ≤ g) →
        m2.cell b r g = m.cell b r g) := by
  obtain ⟨m2, h1, h2, h3, h4⟩ := chunkLoop_lanewise H P Code NumIn NumOut C NV instrs hIn hdec
    hb hr hdef (NumChunks H NV).toNat 0 (mapTempRegisters H)
    (fun c => mapChunkRegisters_temp H NumIn NumOut c) m
  simp only [Nat.cast_zero, zero_mul, sub_zero, Nat.zero_add] at h1 h3 h4
  exact ⟨m2, h1, h2, fun g hg => h3 g (by omega) hg, fun b r g hb2 hg => h4 b r g hb2 (Or.inr hg)⟩

/-- The entry point on a terminated program without `random` whose registers are bound
and whose temporaries are written before they are read, for a lane count whose
chunk count does not overflow: every lane below `L` of the caller arrays ends up as
the single-lane evaluation of the program, every other element is unchanged. -/
theorem Exec_lanewise (H : Header) (P : Platform F G) (Code : List Nat)
    (NumIn NumOut : Nat) (C : Nat → Vec F) (L : Nat) (instrs : List Instr)
    (hV : 0 < H.VectorsPerChunk) (hL : L + H.VectorsPerChunk < 2147483648)
    (hIn : NumIn ≤ H.MaxInputRegisters)
    (hdec : decodeProgram H (Code.length + 1) Code = (instrs, .done))
    (hb : ∀ ins ∈ instrs, ∀ r ∈ ins.regs, boundSlot H NumIn NumOut r = true)
    (hr : ∀ ins ∈ instrs, ins.usesRandom = false)
    (hdef : definedBefore
      (fun r => boundSlot H NumIn NumOut r && decide (H.NumTempRegisters ≤ r)) instrs = true)
    (m : Memory F G) :
    ∃ m2, Exec H P Code NumIn NumOut C (L : Int) m = .ok m2 ∧ m2.seed = m.seed ∧
      (∀ g, g < L → ∀ R, holdsLane H NumIn NumOut m g R →
        holdsLane H NumIn NumOut m2 g (evalLane P C instrs ⟨R, m.seed⟩).reg) ∧
      (∀ b r g, b ≠ Bank.Temp → L ≤ g → m2.cell b r g = m.cell b r g) := by
  obtain ⟨m2, h1, h2, h3, h4⟩ := Exec_lanewise_chunks H P Code NumIn NumOut C (L : Int) instrs
    hIn hdec hb hr hdef m
  have := NumChunks_toNat_mul H L hV hL
  exact ⟨m2, h1, h2, fun g hg => h3 g (by omega) (by omega),
    fun b r g hb2 hg => h4 b r g hb2 (Or.inl (by omega))⟩

/-- A chunk of `n` lanes changes no element of a caller array outside its lanes. -/
theorem chunk_frame_int (H : Header) (P : Platform F G) (NumIn NumOut c : Nat) (n : Int)
    (C : Nat → Vec F) (instrs : List Instr) (m m1 : Memory F G)
    (h : execInstrs P (chunkTable H NumIn NumOut c) C n instrs m = .ok m1)
    (b : Bank) (r g : Nat) (hb : b ≠ Bank.Temp)
    (hg : g < c * H.VectorsPerChunk ∨ ((c * H.VectorsPerChunk : Nat) : Int) + n ≤ g) :
    m1.cell b r g = m.cell b r g := by
  apply execInstrs_frame P _ C _ instrs m m1 h
  intro ins _ _ p hp ⟨h1, _, h3, h4⟩
  rcases chunkTable_some H NumIn NumOut c ins.dst p hp with ⟨a1, _, _, _⟩ | ⟨_, _, _, _, a5⟩ |
    ⟨_, _, _, _, a5⟩
  · exact hb (h1.trans a1)
  · rw [a5] at h3 h4
    omega
  · rw [a5] at h3 h4
    omega

/-- A chunk changes no input array when no wired destination is an input slot. -/
theorem chunk_inputs (H : Header) (P : Platform F G) (NumIn NumOut c : Nat) (n : Int)
    (C : Nat → Vec F) (instrs : List Instr) (m m1 : Memory F G)
    (h : execInstrs P (chunkTable H NumIn NumOut c) C n instrs m = .ok m1)
    (hno : ∀ ins ∈ instrs, ins.wired = true →
      ¬(H.NumTempRegisters ≤ ins.dst ∧ ins.dst < H.NumTempRegisters + NumIn))
    (k g : Nat) : m1.cell Bank.Input k g = m.cell Bank.Input k g := by
  apply execInstrs_frame P _ C _ instrs m m1 h
  intro ins hi hw p hp ⟨h1, _, _, _⟩
  rcases chunkTable_some H NumIn NumOut c ins.dst p hp with ⟨a1, _, _, _⟩ | ⟨_, a2, a3, _, _⟩ |
    ⟨a1, _, _, _, _⟩
  · rw [a1] at h1
    cases h1
  · exact hno ins hi hw ⟨a2, a3⟩
  · rw [a1] at h1
    cases h1

theorem VectorsThisChunk_bound (H : Header) (NV : Int) (c g : Nat) (hg : NV ≤ g) :
    g < c * H.VectorsPerChunk ∨
      ((c * H.VectorsPerChunk : Nat) : Int) + VectorsThisChunk H NV c ≤ g := by
  unfold VectorsThisChunk
  have e : ((c : Int) * (H.VectorsPerChunk : Int)) = ((c * H.VectorsPerChunk : Nat) : Int) := by
    push_cast
    rfl
  rw [e]
  omega

theorem VectorsThisChunk_le (H : Header) (NV : Int) (c : Nat) :
    VectorsThisChunk H NV c ≤ H.VectorsPerChunk := by
  unfold VectorsThisChunk
  omega

/-- A terminated program whose registers are all bound runs every chunk to completion;
no element of a caller array before chunk `c` or from lane `NumVectors` on changes,
and no input array changes when no wired destination is an input slot. -/
theorem runChunks_done (H : Header) (P : Platform F G) (NumIn NumOut : Nat) (C : Nat → Vec F)
    (instrs : List Instr) (NV : Int)
    (hb : ∀ ins ∈ instrs, ∀ r ∈ ins.regs, boundSlot H NumIn NumOut r = true)
    (rem c : Nat) (m : Memory F G) :
    ∃ m2, runChunks H P NumIn NumOut C instrs .done NV rem c m = .ok m2 ∧
      (∀ b r g, b ≠ Bank.Temp → (g < c * H.VectorsPerChunk ∨ NV ≤ g) →
        m2.cell b r g = m.cell b r g) ∧
      ((∀ ins ∈ instrs, ins.wired = true →
          ¬(H.NumTempRegisters ≤ ins.dst ∧ ins.dst < H.NumTempRegisters + NumIn)) →
        ∀ k g, m2.cell Bank.Input k g = m.cell Bank.Input k g) := by
  induction rem generalizing c m with
  | zero => exact ⟨m, rfl, fun _ _ _ _ _ => rfl, fun _ _ _ => rfl⟩
  | succ rem ih =>
    have hbT : ∀ ins ∈ instrs, ∀ r ∈ ins.regs,
        (chunkTable H NumIn NumOut c r).isSome = true := by
      intro ins hi r hr2
      rw [chunkTable_isSome]
      exact hb ins hi r hr2
    obtain ⟨m1, h1⟩ := execInstrs_ok P (chunkTable H NumIn NumOut c) C
      (VectorsThisChunk H NV c) instrs m hbT
    obtain ⟨m2, h2, h3, h4⟩ := ih (c + 1) m1
    simp only [runChunks, h1, Outcome.bind_ok, Ending.outcome]
    refine ⟨m2, h2, ?_, ?_⟩
    · intro b r g hb2 hg
      have hmul : (c + 1) * H.VectorsPerChunk = c * H.VectorsPerChunk + H.VectorsPerChunk := by
        ring
      rw [h3 b r g hb2 (by omega)]
      apply chunk_frame_int H P NumIn NumOut c _ C instrs m m1 h1 b r g hb2
      rcases hg with hg | hg
      · exact Or.inl hg
      · exact VectorsThisChunk_bound H NV c g hg
    · intro hno k g
      rw [h4 hno k g]
      exact chunk_inputs H P NumIn NumOut c _ C instrs m m1 h1 hno k g

/-- When the decoded program ends in an unknown opcode and its registers are bound, the
first chunk that runs ends the call in the fatal outcome, with the memory left by the
instructions decoded before that opcode. -/
theorem runChunks_unknown (H : Header) (P : Platform F G) (NumIn NumOut : Nat) (C : Nat → Vec F)
    (instrs : List Instr) (op : Nat) (NV : Int)
    (hb : ∀ ins ∈ instrs, ∀ r ∈ ins.regs, boundSlot H NumIn NumOut r = true)
    (rem c : Nat) (m : Memory F G) :
    ∃ m1, execInstrs P (chunkTable H NumIn NumOut c) C (VectorsThisChunk H NV c) instrs m
        = .ok m1 ∧
      runChunks H P NumIn NumOut C instrs (.unknown op) NV (rem + 1) c m = .fatal op m1 := by
  have hbT : ∀ ins ∈ instrs, ∀ r ∈ ins.regs,
      (chunkTable H NumIn NumOut c r).isSome = true := by
    intro ins hi r hr2
    rw [chunkTable_isSome]
    exact hb ins hi r hr2
  obtain ⟨m1, h1⟩ := execInstrs_ok P (chunkTable H NumIn NumOut c) C
    (VectorsThisChunk H NV c) instrs m hbT
  exact ⟨m1, h1, by simp only [runChunks, h1, Outcome.bind_ok, Ending.outcome, Outcome.bind_fatal]⟩

/-- The fuel of the model is never used up: the entry point ends normally, in the fatal
outcome or in undefined behaviour. -/
theorem Exec_fuel (H : Header) (P : Platform F G) (Code : List Nat) (NumIn NumOut : Nat)
    (C : Nat → Vec F) (NV : Int) (m : Memory F G) :
    Exec H P Code NumIn NumOut C NV m ≠ .outOfFuel := by
  rw [Exec_eq_runChunks]
  have hf := decodeProgram_fuel H (Code.length + 1) Code (Nat.lt_succ_self _)
  generalize (decodeProgram H (Code.length + 1) Code).1 = instrs at hf ⊢
  generalize (decodeProgram H (Code.length + 1) Code).2 = e at hf ⊢
  generalize (NumChunks H NV).toNat = rem
  generalize 0 = c
  induction rem generalizing c m with
  | zero => simp [runChunks]
  | succ rem ih =>
    simp only [runChunks]
    rcases execInstrs_cases P (chunkTable H NumIn NumOut c) C (VectorsThisChunk H NV c) instrs m
      with ⟨m1, h1⟩ | h1
    · rw [h1]
      cases e with
      | done =>
        simp only [Outcome.bind_ok, Ending.outcome]
        exact ih m1 (c + 1)
      | unknown op => simp [Ending.outcome]
      | overrun => simp [Ending.outcome]
      | outOfFuel => exact absurd rfl hf
    · rw [h1]
      simp

end ChunkLoop

/-! ## Lane refinement (C1) -/

section Refinement
variable {F G : Type}

theorem registersBound_iff (H : Header) (NumIn NumOut : Nat) (instrs : List Instr) :
    registersBound H NumIn NumOut instrs = true ↔
      ∀ ins ∈ instrs, ∀ r ∈ ins.regs, boundSlot H NumIn NumOut r = true := by
  simp [registersBound, List.all_eq_true]

theorem randomFree_iff (instrs : List Instr) :
    randomFree instrs = true ↔ ∀ ins ∈ instrs, ins.usesRandom = false := by
  simp [randomFree, List.all_eq_true]

theorem decodeProgram_eq (H : Header) (Code : List Nat) (h : Program.ending H Code = .done) :
    decodeProgram H (Code.length + 1) Code = (Program.instrs H Code, .done) := by
  rw [← h]
  rfl

/-- The registers after a program without `random` do not depend on the generator. -/
theorem evalLane_reg_seed (P : Platform F G) (C : Nat → Vec F) (instrs : List Instr)
    (hr : ∀ ins ∈ instrs, ins.usesRandom = false) (R : Nat → Vec F) (g1 g2 : G) :
    (evalLane P C instrs ⟨R, g1⟩).reg = (evalLane P C instrs ⟨R, g2⟩).reg := by
  induction instrs generalizing R with
  | nil => rfl
  | cons ins rest ih =>
    have hr1 := hr ins (List.mem_cons_self _ _)
    have hr2 : ∀ i ∈ rest, i.usesRandom = false := fun i hi => hr i (List.mem_cons_of_mem _ hi)
    rw [evalLane_cons, evalLane_cons]
    cases hw : ins.wired with
    | false =>
      rw [Instr.evalLane_unwired P C ins _ hw, Instr.evalLane_unwired P C ins _ hw]
      exact ih hr2 R
    | true =>
      obtain ⟨v1, h1⟩ := Instr.result_wired P C ins g1 R hw
      obtain ⟨v2, h2⟩ := Instr.result_wired P C ins g2 R hw
      have hv := Instr.result_value P C ins g1 g2 R hr1
      rw [h1, h2] at hv
      simp only [Option.map_some', Option.some.injEq] at hv
      rw [Instr.evalLane_eq_result P C ins g1 R v1 h1, Instr.evalLane_eq_result P C ins g2 R v2 h2,
        Instr.result_seed P C ins g1 R v1 hr1 h1, Instr.result_seed P C ins g2 R v2 hr1 h2, hv]
      exact ih hr2 _

/-- The program `random r40, c1` run over two lanes: both lanes are written, and the
second lane is computed from the generator state the first lane left behind. -/
theorem RandomCode_exec (P : Platform F G) (C : Nat → Vec F) (m : Memory F G) :
    ∃ m2, Exec testHeader P RandomCode 0 1 C 2 m = .ok m2 ∧
      m2.cell Bank.Output 0 0 = (FVectorKernelRandom.DoKernel P m.seed (C 1)).1 ∧
      m2.cell Bank.Output 0 1 = (FVectorKernelRandom.DoKernel P
        (FVectorKernelRandom.DoKernel P m.seed (C 1)).2 (C 1)).1 :=
  ⟨_, rfl, rfl, rfl⟩

/-- C1 (amended): for every program that decodes as a sequence of instructions followed
by `done`, in which every register index used is a bound slot, every temporary is
written before it is read and no instruction is `random`, and for every lane count
`L` whose chunk count does not overflow `int32`: `Exec` completes, and for every lane
`g < L`, lane `g` of each output array equals the value obtained by evaluating the
instructions in order on a single lane that holds lane `g` of the caller arrays. -/
theorem exec_refines_single_lane (H : Header) (P : Platform F G) (Code : List Nat)
    (NumIn NumOut : Nat) (C : Nat → Vec F) (L : Nat)
    (hV : 0 < H.VectorsPerChunk) (hL : L + H.VectorsPerChunk < 2147483648)
    (hIn : NumIn ≤ H.MaxInputRegisters)
    (hend : Program.ending H Code = .done)
    (hbound : registersBound H NumIn NumOut (Program.instrs H Code) = true)
    (htemps : temporariesWritten H NumIn NumOut (Program.instrs H Code) = true)
    (hrand : randomFree (Program.instrs H Code) = true)
    (m : Memory F G) :
    LaneRefinement H P Code NumIn NumOut C L m := by
  have hr := (randomFree_iff _).mp hrand
  obtain ⟨m2, h1, -, h3, -⟩ := Exec_lanewise H P Code NumIn NumOut C L (Program.instrs H Code)
    hV hL hIn (decodeProgram_eq H Code hend) ((registersBound_iff H NumIn NumOut _).mp hbound)
    hr htemps m
  refine ⟨m2, h1, ?_⟩
  intro g hg s hs k hk
  rw [← (h3 g hg s.reg hs).2 k hk]
  exact congrFun (evalLane_reg_seed P C _ hr s.reg m.seed s.seed) _

/-- Witness of C1: the test program on 130 lanes of the test memory. -/
theorem exec_refines_single_lane_witness :
    LaneRefinement testHeader ratPlatform (TestCode testHeader) 3 1 TestConstants 130
      (TestMemory 0) :=
  exec_refines_single_lane testHeader ratPlatform (TestCode testHeader) 3 1 TestConstants 130
    (by decide) (by decide) (by decide) (by decide) (by decide) (by decide) (by decide)
    (TestMemory 0)

/-- C1 as stated fails for a program that uses `random`: `random r40, c1` is a wired
instruction followed by `done`, its destination is a bound output slot and it reads
no register, yet on two lanes the second lane of the output is not what the
instruction computes on a single lane started from the generator state of the call. -/
theorem random_breaks_lane_refinement :
    Program.ending testHeader RandomCode = .done ∧
    Program.instrs testHeader RandomCode = [.un .Random 40 (.const 1)] ∧
    registersBound testHeader 0 1 (Program.instrs testHeader RandomCode) = true ∧
    temporariesWritten testHeader 0 1 (Program.instrs testHeader RandomCode) = true ∧
    inputsNotWritten testHeader 0 (Program.instrs testHeader RandomCode) = true ∧
    ¬ LaneRefinement testHeader ratPlatform RandomCode 0 1 TestConstants 2 (TestMemory 0) := by
  refine ⟨by decide, by decide, by decide, by decide, by decide, ?_⟩
  rintro ⟨m2, h, hall⟩
  obtain ⟨m3, h3, -, hcell⟩ := RandomCode_exec ratPlatform TestConstants (TestMemory 0)
  simp only [Nat.cast_ofNat] at h
  rw [h3] at h
  cases h
  have h4 := hall 1 (by decide) ⟨(TestMemory 0).lane (chunkTable testHeader 0 1 0) 1, 1⟩
    ⟨fun k hk => absurd hk (by omega), fun k hk => by
      have : k = 0 := by omega
      subst this
      rfl⟩ 0 (by decide)
  rw [hcell] at h4
  have h5 : Program.instrs testHeader RandomCode = [.un .Random 40 (.const 1)] := by decide
  rw [h5] at h4
  have h6 := congrArg Vec.x h4
  simp [evalLane, Instr.evalLane, UnaryKernel.DoKernel, FVectorKernelRandom.DoKernel,
    VectorMultiply, MakeVectorRegister, ratPlatform, TestConstants, TestMemory, splat,
    Operand.value, testHeader] at h6
  norm_num at h6

end Refinement

/-! ## The automation test (C2) -/

section Scenario

theorem TestCode_instrs :
    Program.instrs testHeader (TestCode testHeader) =
      [.bin .Mul 0 (.reg 8) (.reg 8), .tri .Mad 1 (.reg 9) (.reg 9) (.reg 0),
       .tri .Mad 0 (.reg 10) (.reg 10) (.reg 1), .bin .Add 1 (.const 0) (.reg 1),
       .un .Neg 0 (.reg 1), .tri .Clamp 40 (.reg 0) (.const 2) (.const 3)] := by
  decide

/-- C2 (the code does not pass its own test): `VectorVM::Exec` on the bytecode, inputs and
constants of `FVectorVMTest` over `VectorsPerChunk` lanes completes, and the first
output vector is `(0, -2, -8, -18)`, whereas the test expects
`clamp(-(x*x + x*x + x*x + 5), -20, 20)` for `x = 0, 1, 2, 3`, that is
`(-5, -8, -17, -20)`.  The `add` with descriptor `SRCOP_RRC` reads constant `c0` and
register `r1`, not register `r0` and constant `c1`. -/
theorem test_program_output :
    ∃ m2, Exec testHeader ratPlatform (TestCode testHeader) 3 1 TestConstants
        (testHeader.VectorsPerChunk : Int) (TestMemory 0) = .ok m2 ∧
      m2.cell Bank.Output 0 0 = ⟨0, -2, -8, -18⟩ ∧
      (⟨TestExpected 0, TestExpected 1, TestExpected 2, TestExpected 3⟩ : Vec ℚ) =
        ⟨-5, -8, -17, -20⟩ := by
  obtain ⟨m2, h1, -, h3, -⟩ := Exec_lanewise testHeader ratPlatform (TestCode testHeader) 3 1
    TestConstants 128 (Program.instrs testHeader (TestCode testHeader))
    (by decide) (by decide) (by decide) (decodeProgram_eq _ _ (by decide))
    ((registersBound_iff _ _ _ _).mp (by decide)) ((randomFree_iff _).mp (by decide))
    (by decide) (TestMemory 0)
  refine ⟨m2, h1, ?_, ?_⟩
  · have h4 := (h3 0 (by decide)
      (fun s => if 8 ≤ s ∧ s < 11 then ⟨0, 1, 2, 3⟩ else splat 0) (by
        constructor
        · intro k hk
          simp only [testHeader, TestMemory]
          rw [if_pos (by omega)]
          norm_num
        · intro k hk
          simp only [testHeader, TestMemory]
          rw [if_neg (by omega)])).2 0 (by decide)
    rw [← h4, TestCode_instrs]
    simp [evalLane, Instr.evalLane, BinaryKernel.DoKernel, TrinaryKernel.DoKernel,
      UnaryKernel.DoKernel, FVectorKernelMul.DoKernel, FVectorKernelMad.DoKernel,
      FVectorKernelAdd.DoKernel, FVectorKernelNeg.DoKernel, FVectorKernelClamp.DoKernel,
      VectorMultiply, VectorMultiplyAdd, VectorAdd, VectorNegate, VectorMin, VectorMax,
      ratPlatform, TestConstants, splat, Operand.value, testHeader, Function.update]
    norm_num
  · simp only [TestExpected, FMathClamp]
    norm_num

end Scenario

/-! ## Input arrays (C3) -/

section Inputs
variable {F G : Type}

theorem inputsNotWritten_iff (H : Header) (NumIn : Nat) (instrs : List Instr) :
    inputsNotWritten H NumIn instrs = true ↔
      ∀ ins ∈ instrs, ins.wired = true →
        ¬(H.NumTempRegisters ≤ ins.dst ∧ ins.dst < H.NumTempRegisters + NumIn) := by
  simp only [inputsNotWritten, List.all_eq_true, Bool.not_eq_true', Bool.and_eq_false_iff,
    decide_eq_false_iff_not, Bool.and_eq_true, decide_eq_true_eq, not_and, not_lt]
  constructor
  · intro h ins hi hw h1
    rcases h ins hi with (h2 | h2) | h2
    · rw [hw] at h2
      cases h2
    · omega
    · omega
  · intro h ins hi
    cases hw : ins.wired with
    | false => exact Or.inl (Or.inl rfl)
    | true =>
      have := h ins hi hw
      by_cases h1 : H.NumTempRegisters ≤ ins.dst
      · exact Or.inr (this h1)
      · exact Or.inl (Or.inr h1)

/-- Whatever the program, a normal return of the chunk loop leaves the input arrays as
they were when no wired destination is an input slot. -/
theorem runChunks_inputs (H : Header) (P : Platform F G) (NumIn NumOut : Nat) (C : Nat → Vec F)
    (instrs : List Instr) (e : Ending) (NV : Int)
    (hno : ∀ ins ∈ instrs, ins.wired = true →
      ¬(H.NumTempRegisters ≤ ins.dst ∧ ins.dst < H.NumTempRegisters + NumIn))
    (rem c : Nat) (m m2 : Memory F G)
    (h : runChunks H P NumIn NumOut C instrs e NV rem c m = .ok m2) (k g : Nat) :
    m2.cell Bank.Input k g = m.cell Bank.Input k g := by
  induction rem generalizing c m with
  | zero =>
    simp only [runChunks, Outcome.ok.injEq] at h
    rw [h]
  | succ rem ih =>
    simp only [runChunks] at h
    rcases execInstrs_cases P (chunkTable H NumIn NumOut c) C (VectorsThisChunk H NV c) instrs m
      with ⟨m1, h1⟩ | h1
    · rw [h1] at h
      cases e with
      | done =>
        simp only [Outcome.bind_ok, Ending.outcome] at h
        rw [ih (c + 1) m1 h]
        exact chunk_inputs H P NumIn NumOut c _ C instrs m m1 h1 hno k g
      | unknown op => simp [Ending.outcome] at h
      | overrun => simp [Ending.outcome] at h
      | outOfFuel => simp [Ending.outcome] at h
    · rw [h1] at h
      simp at h

/-- The program `neg r8, r8` run over one lane negates the first vector of input 0. -/
theorem NegInputCode_exec (P : Platform F G) (C : Nat → Vec F) (m : Memory F G) :
    ∃ m2, Exec testHeader P NegInputCode 1 1 C 1 m = .ok m2 ∧
      m2.cell Bank.Input 0 0 = VectorNegate P (m.cell Bank.Input 0 0) :=
  ⟨_, rfl, rfl⟩

/-- C3 (amended): for every program in which no wired instruction has an input slot as
its destination, and all input arrays, constants and lane counts, each input array
is the same after `Exec` returns as before the call; and `Exec` does return when the
program is terminated and its register indices are bound slots. -/
theorem inputs_preserved (H : Header) (P : Platform F G) (Code : List Nat) (NumIn NumOut : Nat)
    (C : Nat → Vec F) (NV : Int) (m : Memory F G)
    (hno : inputsNotWritten H NumIn (Program.instrs H Code) = true) :
    InputsPreserved H P Code NumIn NumOut C NV m ∧
      (Program.ending H Code = .done →
        registersBound H NumIn NumOut (Program.instrs H Code) = true →
        ∃ m2, Exec H P Code NumIn NumOut C NV m = .ok m2) := by
  constructor
  · intro m2 h k g
    rw [Exec_eq_runChunks] at h
    exact runChunks_inputs H P NumIn NumOut C _ _ NV
      ((inputsNotWritten_iff H NumIn _).mp hno) _ 0 m m2 h k g
  · intro hend hb
    rw [Exec_eq_runChunks]
    have hd := decodeProgram_eq H Code hend
    rw [hd]
    obtain ⟨m2, h2, -⟩ := runChunks_done H P NumIn NumOut C (Program.instrs H Code) NV
      ((registersBound_iff H NumIn NumOut _).mp hb) (NumChunks H NV).toNat 0 m
    exact ⟨m2, h2⟩

/-- Witness of C3: the test program, none of whose destinations is an input slot. -/
theorem inputs_preserved_witness :
    InputsPreserved testHeader ratPlatform (TestCode testHeader) 3 1 TestConstants 130
        (TestMemory 0) ∧
      (Program.ending testHeader (TestCode testHeader) = .done →
        registersBound testHeader 3 1 (Program.instrs testHeader (TestCode testHeader)) = true →
        ∃ m2, Exec testHeader ratPlatform (TestCode testHeader) 3 1 TestConstants 130
          (TestMemory 0) = .ok m2) :=
  inputs_preserved testHeader ratPlatform (TestCode testHeader) 3 1 TestConstants 130
    (TestMemory 0) (by decide)

/-- C3 as stated fails: `neg r8, r8` is a terminated program whose registers are bound,
and the call over one lane returns with the first vector of input array 0 negated. -/
theorem input_destination_breaks_preservation :
    Program.ending testHeader NegInputCode = .done ∧
    registersBound testHeader 1 1 (Program.instrs testHeader NegInputCode) = true ∧
    ¬ InputsPreserved testHeader ratPlatform NegInputCode 1 1 TestConstants 1 (TestMemory 0) := by
  refine ⟨by decide, by decide, ?_⟩
  intro h
  obtain ⟨m2, h2, hcell⟩ := NegInputCode_exec ratPlatform TestConstants (TestMemory 0)
  have h3 := h m2 h2 0 0
  rw [hcell] at h3
  have h4 := congrArg Vec.y h3
  simp [VectorNegate, ratPlatform, TestMemory] at h4
  norm_num at h4

end Inputs

/-! ## Chunk splitting (C4) -/

section Slices
variable {F G : Type}

theorem holdsLane_laneOfArrays (H : Header) (NumIn NumOut : Nat) (m : Memory F G) (g : Nat)
    (hIn : NumIn ≤ H.MaxInputRegisters) :
    holdsLane H NumIn NumOut m g (laneOfArrays H m g) := by
  constructor
  · intro k hk
    simp only [laneOfArrays]
    rw [if_neg (by omega)]
    congr 1
    omega
  · intro k hk
    simp only [laneOfArrays]
    rw [if_pos (by omega)]
    congr 1
    omega

theorem sum_take_add_get_le (slices : List Nat) (i : Nat) (hi : i < slices.length) :
    (slices.take i).sum + slices.get ⟨i, hi⟩ ≤ slices.sum := by
  induction slices generalizing i with
  | nil => simp at hi
  | cons a rest ih =>
    cases i with
    | zero => simp
    | succ i =>
      simp only [List.take_succ_cons, List.sum_cons, List.get_cons_succ]
      have := ih i (by simpa using hi)
      omega

/-- The program `neg r40, r0; neg r0, r8` run over 129 lanes: lane 0 of the second chunk
reads the temporary that lane 0 of the first chunk wrote. -/
theorem LeakCode_exec (P : Platform F G) (C : Nat → Vec F) (m : Memory F G) :
    ∃ m2, Exec testHeader P LeakCode 1 1 C 129 m = .ok m2 ∧
      m2.cell Bank.Output 0 128 = VectorNegate P (VectorNegate P (m.cell Bank.Input 0 0)) := by
  rw [Exec_eq_runChunks]
  have hd : decodeProgram testHeader (LeakCode.length + 1) LeakCode =
      ([.un .Neg 40 (.reg 0), .un .Neg 0 (.reg 8)], .done) := by decide
  have hn : (NumChunks testHeader 129).toNat = 2 := by decide
  have hv0 : VectorsThisChunk testHeader 129 0 = ((128 : Nat) : Int) := by decide
  have hv1 : VectorsThisChunk testHeader 129 (0 + 1) = ((1 : Nat) : Int) := by decide
  rw [hd, hn]
  simp only [runChunks]
  rw [hv0, hv1]
  have hr : ∀ ins ∈ [Instr.un .Neg 40 (.reg 0), Instr.un .Neg 0 (.reg 8)],
      ins.usesRandom = false := by decide
  have hb0 : ∀ ins ∈ [Instr.un .Neg 40 (.reg 0), Instr.un .Neg 0 (.reg 8)], ∀ r ∈ ins.regs,
      (chunkTable testHeader 1 1 0 r).isSome = true := by decide
  have hb1 : ∀ ins ∈ [Instr.un .Neg 40 (.reg 0), Instr.un .Neg 0 (.reg 8)], ∀ r ∈ ins.regs,
      (chunkTable testHeader 1 1 (0 + 1) r).isSome = true := by decide
  obtain ⟨m1, h1⟩ := execInstrs_ok P (chunkTable testHeader 1 1 0) C ((128 : Nat) : Int) _ m hb0
  obtain ⟨m2, h2⟩ := execInstrs_ok P (chunkTable testHeader 1 1 (0 + 1)) C ((1 : Nat) : Int) _
    m1 hb1
  have l1 := execInstrs_lanewise P _ C (chunkTable_ok testHeader 1 1 0) _ hb0 hr 128 m m1 h1 0
    (by decide) 0 (by decide)
  have l2 := execInstrs_lanewise P _ C (chunkTable_ok testHeader 1 1 (0 + 1)) _ hb1 hr 1 m1 m2 h2
    0 (by decide) 40 (by decide)
  refine ⟨m2, ?_, ?_⟩
  · rw [h1]
    simp only [Outcome.bind_ok, Ending.outcome]
    rw [h2]
    rfl
  · have e2 : m2.lane (chunkTable testHeader 1 1 (0 + 1)) 0 40 = m2.cell Bank.Output 0 128 := rfl
    have e1 : m1.lane (chunkTable testHeader 1 1 (0 + 1)) 0 0 =
        m1.lane (chunkTable testHeader 1 1 0) 0 0 := rfl
    have e0 : m.lane (chunkTable testHeader 1 1 0) 0 8 = m.cell Bank.Input 0 0 := rfl
    rw [← e2, l2, ← e0]
    have e3 : (evalLane P C [Instr.un .Neg 40 (.reg 0), Instr.un .Neg 0 (.reg 8)]
        ⟨m1.lane (chunkTable testHeader 1 1 (0 + 1)) 0, m1.seed⟩).reg 40 =
        VectorNegate P (m1.lane (chunkTable testHeader 1 1 (0 + 1)) 0 0) := rfl
    have e4 : (evalLane P C [Instr.un .Neg 40 (.reg 0), Instr.un .Neg 0 (.reg 8)]
        ⟨m.lane (chunkTable testHeader 1 1 0) 0, m.seed⟩).reg 0 =
        VectorNegate P (m.lane (chunkTable testHeader 1 1 0) 0 8) := rfl
    rw [e3, e1, l1, e4]

/-- The program `neg r40, r0; neg r0, r8` run over one lane writes the negation of the
uninitialised temporary `r0` to the output. -/
theorem LeakCode_exec_one (P : Platform F G) (C : Nat → Vec F) (m : Memory F G) :
    ∃ m2, Exec testHeader P LeakCode 1 1 C 1 m = .ok m2 ∧
      m2.cell Bank.Output 0 0 = VectorNegate P (m.cell Bank.Temp 0 0) :=
  ⟨_, rfl, rfl⟩

theorem holdsLane_rebase (H : Header) (NumIn NumOut : Nat) (m : Memory F G) (start g : Nat)
    (temp : Nat → Nat → Vec F) (seed : G) (R : Nat → Vec F)
    (h : holdsLane H NumIn NumOut m (start + g) R) :
    holdsLane H NumIn NumOut (m.rebase start temp seed) g R :=
  ⟨fun k hk => h.1 k hk, fun k hk => h.2 k hk⟩

/-- C4 (amended): for every terminated program without `random` whose register indices
are bound slots and whose temporaries are written before they are read, and every
lane count `L` whose chunk count does not overflow `int32`: the outputs of one call
over all `L` lanes equal, lane for lane, the outputs of separate calls of the same
program on each slice of any partition of the lanes into consecutive slices of at
most `VectorsPerChunk` lanes, whatever the temporaries of the separate calls hold. -/
theorem slices_transparent (H : Header) (P : Platform F G) (Code : List Nat)
    (NumIn NumOut : Nat) (C : Nat → Vec F) (L : Nat)
    (hV : 0 < H.VectorsPerChunk) (hL : L + H.VectorsPerChunk < 2147483648)
    (hIn : NumIn ≤ H.MaxInputRegisters)
    (hend : Program.ending H Code = .done)
    (hbound : registersBound H NumIn NumOut (Program.instrs H Code) = true)
    (htemps : temporariesWritten H NumIn NumOut (Program.instrs H Code) = true)
    (hrand : randomFree (Program.instrs H Code) = true)
    (m : Memory F G) :
    SliceTransparent H P Code NumIn NumOut C L m := by
  have hr := (randomFree_iff _).mp hrand
  have hb := (registersBound_iff H NumIn NumOut _).mp hbound
  have hd := decodeProgram_eq H Code hend
  obtain ⟨m2, h1, -, h3, -⟩ := Exec_lanewise H P Code NumIn NumOut C L (Program.instrs H Code)
    hV hL hIn hd hb hr htemps m
  refine ⟨m2, h1, ?_⟩
  intro slices hsum hle i hi temp seed
  have hlen := sum_take_add_get_le slices i hi
  obtain ⟨ms2, g1, -, g3, -⟩ := Exec_lanewise H P Code NumIn NumOut C (slices.get ⟨i, hi⟩)
    (Program.instrs H Code) hV (by omega) hIn hd hb hr htemps
    (m.rebase (slices.take i).sum temp seed)
  refine ⟨ms2, g1, ?_⟩
  intro k hk g hg
  have hR := holdsLane_laneOfArrays H NumIn NumOut m ((slices.take i).sum + g) hIn
  rw [← (h3 _ (by omega) _ hR).2 k hk,
    ← (g3 g hg _ (holdsLane_rebase H NumIn NumOut m _ g temp seed _ hR)).2 k hk]
  exact congrFun (evalLane_reg_seed P C _ hr _ _ _) _

/-- Witness of C4: the test program on 130 lanes of the test memory. -/
theorem slices_transparent_witness :
    SliceTransparent testHeader ratPlatform (TestCode testHeader) 3 1 TestConstants 130
      (TestMemory 0) :=
  slices_transparent testHeader ratPlatform (TestCode testHeader) 3 1 TestConstants 130
    (by decide) (by decide) (by decide) (by decide) (by decide) (by decide) (by decide)
    (TestMemory 0)

/-- C4 as stated fails for a program that reads a temporary before writing it:
`neg r40, r0; neg r0, r8` is terminated and its registers are bound, but over 129
lanes split as 128 + 1 the one call writes `(0, 1, 2, 3)` to lane 128 of the output
(the temporary left by lane 0 of the first chunk), whereas the separate call on the
second slice, whose temporaries hold zero, writes zero. -/
theorem temporaries_leak_across_chunks :
    Program.ending testHeader LeakCode = .done ∧
    registersBound testHeader 1 1 (Program.instrs testHeader LeakCode) = true ∧
    ¬ SliceTransparent testHeader ratPlatform LeakCode 1 1 TestConstants 129 (TestMemory 0) := by
  refine ⟨by decide, by decide, ?_⟩
  rintro ⟨m2, h, hall⟩
  obtain ⟨m3, h3, hcell⟩ := LeakCode_exec ratPlatform TestConstants (TestMemory 0)
  simp only [Nat.cast_ofNat] at h
  rw [h3] at h
  cases h
  obtain ⟨ms2, g1, g2⟩ := hall [128, 1] (by decide) (by decide) 1 (by decide)
    (fun _ _ => splat 0) 1
  obtain ⟨ms3, g3, gcell⟩ := LeakCode_exec_one ratPlatform TestConstants
    ((TestMemory 0).rebase 128 (fun _ _ => splat 0) 1)
  have e : (([128, 1] : List Nat).get ⟨1, by decide⟩ : Nat) = 1 := rfl
  have e2 : (([128, 1] : List Nat).take 1).sum = 128 := rfl
  simp only [e, e2, Nat.cast_one] at g1 g2
  rw [g3] at g1
  cases g1
  have h5 := g2 0 (by decide) 0 (by decide)
  rw [gcell, Nat.add_zero, hcell] at h5
  have h6 := congrArg Vec.y h5
  simp [VectorNegate, ratPlatform, TestMemory, Memory.rebase, splat] at h6

end Slices

/-! ## The partial last chunk (C5) -/

section Boundary
variable {F G : Type}

/-- Whatever the program, a normal return of the chunk loop leaves every element of a
caller array before chunk `c` or from lane `NV` on as it was. -/
theorem runChunks_frame (H : Header) (P : Platform F G) (NumIn NumOut : Nat) (C : Nat → Vec F)
    (instrs : List Instr) (e : Ending) (NV : Int) (rem c : Nat) (m m2 : Memory F G)
    (h : runChunks H P NumIn NumOut C instrs e NV rem c m = .ok m2)
    (b : Bank) (r g : Nat) (hb : b ≠ Bank.Temp)
    (hg : g < c * H.VectorsPerChunk ∨ NV ≤ (g : Int)) :
    m2.cell b r g = m.cell b r g := by
  induction rem generalizing c m with
  | zero =>
    simp only [runChunks, Outcome.ok.injEq] at h
    rw [h]
  | succ rem ih =>
    simp only [runChunks] at h
    rcases execInstrs_cases P (chunkTable H NumIn NumOut c) C (VectorsThisChunk H NV c) instrs m
      with ⟨m1, h1⟩ | h1
    · rw [h1] at h
      cases e with
      | done =>
        simp only [Outcome.bind_ok, Ending.outcome] at h
        have hmul : (c + 1) * H.VectorsPerChunk = c * H.VectorsPerChunk + H.VectorsPerChunk := by
          ring
        rw [ih (c + 1) m1 h (by omega)]
        apply chunk_frame_int H P NumIn NumOut c _ C instrs m m1 h1 b r g hb
        rcases hg with hg | hg
        · exact Or.inl hg
        · exact VectorsThisChunk_bound H NV c g hg
      | unknown op => simp [Ending.outcome] at h
      | overrun => simp [Ending.outcome] at h
      | outOfFuel => simp [Ending.outcome] at h
    · rw [h1] at h
      simp at h

theorem sum_map_range_const (f : Nat → Int) (v : Int) (n : Nat) (h : ∀ c, c < n → f c = v) :
    ((List.range n).map f).sum = n * v := by
  induction n with
  | zero => simp
  | succ n ih =>
    rw [List.range_succ, List.map_append, List.sum_append, ih (fun c hc => h c (by omega))]
    simp only [List.map_cons, List.map_nil, List.sum_cons, List.sum_nil, add_zero]
    rw [h n (by omega)]
    push_cast
    ring

/-- C5: for every lane count `L >= 1` that is not a multiple of `VectorsPerChunk` (and
whose chunk count does not overflow `int32`) and every program that decodes as
instructions followed by `done`, `Exec` runs `L / VectorsPerChunk + 1` chunks, every
chunk but the last over `VectorsPerChunk` lanes and the last over exactly
`L mod VectorsPerChunk` lanes, `L` lanes in all; when it returns, every element of
every output array at a lane index `>= L` is as it was before the call; and it does
return when the register indices of the program are bound slots. -/
theorem partial_last_chunk (H : Header) (P : Platform F G) (Code : List Nat)
    (NumIn NumOut : Nat) (C : Nat → Vec F) (L : Nat) (m : Memory F G)
    (hV : 0 < H.VectorsPerChunk) (hL : L + H.VectorsPerChunk < 2147483648) (hL1 : 1 ≤ L)
    (hmod : L % H.VectorsPerChunk ≠ 0) (hend : Program.ending H Code = .done) :
    PartialLastChunk H P Code NumIn NumOut C L m := by
  have hdm := Nat.div_add_mod L H.VectorsPerChunk
  have hml := Nat.mod_lt L hV
  have hNC : (NumChunks H (L : Int)).toNat = L / H.VectorsPerChunk + 1 := by
    rw [NumChunks_eq H L hL, Int.toNat_ofNat]
    apply Nat.div_eq_of_lt_le
    · rw [Nat.add_mul, Nat.mul_comm]
      omega
    · rw [Nat.add_mul, Nat.add_mul, Nat.mul_comm (L / H.VectorsPerChunk)]
      omega
  have hfull : ∀ c, c < L / H.VectorsPerChunk →
      VectorsThisChunk H (L : Int) c = (H.VectorsPerChunk : Int) := by
    intro c hc
    have h1 : (c + 1) * H.VectorsPerChunk ≤ L / H.VectorsPerChunk * H.VectorsPerChunk :=
      Nat.mul_le_mul_right _ hc
    rw [Nat.add_mul, Nat.mul_comm (L / H.VectorsPerChunk)] at h1
    unfold VectorsThisChunk
    have e : ((c : Int) * (H.VectorsPerChunk : Int)) = ((c * H.VectorsPerChunk : Nat) : Int) := by
      push_cast
      rfl
    rw [e]
    omega
  have hlast : VectorsThisChunk H (L : Int) (L / H.VectorsPerChunk) =
      ((L % H.VectorsPerChunk : Nat) : Int) := by
    unfold VectorsThisChunk
    have e : (((L / H.VectorsPerChunk : Nat) : Int) * (H.VectorsPerChunk : Int)) =
        ((H.VectorsPerChunk * (L / H.VectorsPerChunk) : Nat) : Int) := by
      push_cast
      ring
    rw [e]
    omega
  have hexec : Exec H P Code NumIn NumOut C (L : Int) m =
      runChunks H P NumIn NumOut C (Program.instrs H Code) .done (L : Int)
        (L / H.VectorsPerChunk + 1) 0 m := by
    rw [Exec_eq_runChunks, decodeProgram_eq H Code hend, hNC]
  refine ⟨hexec, hfull, hlast, ?_, ?_, ?_⟩
  · rw [List.range_succ, List.map_append, List.sum_append, sum_map_range_const _ _ _ hfull]
    simp only [List.map_cons, List.map_nil, List.sum_cons, List.sum_nil, add_zero]
    rw [hlast]
    have e : (((L / H.VectorsPerChunk : Nat) : Int) * (H.VectorsPerChunk : Int)) =
        ((H.VectorsPerChunk * (L / H.VectorsPerChunk) : Nat) : Int) := by
      push_cast
      ring
    rw [e]
    omega
  · intro m2 h2 k g hg
    rw [hexec] at h2
    exact runChunks_frame H P NumIn NumOut C _ _ _ _ 0 m m2 h2 Bank.Output k g (by simp)
      (Or.inr (by omega))
  · intro hb
    rw [hexec]
    obtain ⟨m2, h2, -⟩ := runChunks_done H P NumIn NumOut C (Program.instrs H Code) (L : Int)
      ((registersBound_iff H NumIn NumOut _).mp hb) (L / H.VectorsPerChunk + 1) 0 m
    exact ⟨m2, h2⟩

/-- Witness of C5: the test program on 130 lanes, one full chunk and a chunk of two. -/
theorem partial_last_chunk_witness :
    PartialLastChunk testHeader ratPlatform (TestCode testHeader) 3 1 TestConstants 130
      (TestMemory 0) :=
  partial_last_chunk testHeader ratPlatform (TestCode testHeader) 3 1 TestConstants 130
    (TestMemory 0) (by decide) (by decide) (by decide) (by decide) (by decide)

end Boundary

/-! ## Independence of chunks and determinism (C6, C7) -/

section Independence
variable {F G : Type}

/-- C6 (amended): for every terminated program without `random` whose register indices
are bound slots and whose temporaries are written before they are read, and every
two runs with the same program, constants and lane count whose input arrays (and
output arrays before the call) agree on all lanes of chunk `c`: both runs complete
and their output arrays agree on all lanes of chunk `c`, whatever the other chunks,
the temporaries and the generator states hold. -/
theorem chunks_independent (H : Header) (P : Platform F G) (Code : List Nat)
    (NumIn NumOut : Nat) (C : Nat → Vec F) (NV : Int) (c : Nat) (m1 m2 : Memory F G)
    (hIn : NumIn ≤ H.MaxInputRegisters)
    (hend : Program.ending H Code = .done)
    (hbound : registersBound H NumIn NumOut (Program.instrs H Code) = true)
    (htemps : temporariesWritten H NumIn NumOut (Program.instrs H Code) = true)
    (hrand : randomFree (Program.instrs H Code) = true) :
    ChunkIndependent H P Code NumIn NumOut C NV c m1 m2 := by
  intro hagree
  have hr := (randomFree_iff _).mp hrand
  have hb := (registersBound_iff H NumIn NumOut _).mp hbound
  have hd := decodeProgram_eq H Code hend
  obtain ⟨r1, a1, -, a3, a4⟩ := Exec_lanewise_chunks H P Code NumIn NumOut C NV
    (Program.instrs H Code) hIn hd hb hr htemps m1
  obtain ⟨r2, b1, -, b3, b4⟩ := Exec_lanewise_chunks H P Code NumIn NumOut C NV
    (Program.instrs H Code) hIn hd hb hr htemps m2
  refine ⟨r1, r2, a1, b1, ?_⟩
  intro g hg1 hg2 hg3 k hk
  obtain ⟨hin, hout⟩ := hagree g hg1 hg2 hg3
  by_cases hrun : g < (NumChunks H NV).toNat * H.VectorsPerChunk
  · have hR1 := holdsLane_laneOfArrays H NumIn NumOut m1 g hIn
    have hR2 : holdsLane H NumIn NumOut m2 g (laneOfArrays H m1 g) :=
      ⟨fun k hk => by rw [hR1.1 k hk, hin k hk], fun k hk => by rw [hR1.2 k hk, hout k hk]⟩
    rw [← (a3 g hrun hg3 _ hR1).2 k hk, ← (b3 g hrun hg3 _ hR2).2 k hk]
    exact congrFun (evalLane_reg_seed P C _ hr _ _ _) _
  · rw [a4 _ _ _ (by simp) (Or.inr (by omega)), b4 _ _ _ (by simp) (Or.inr (by omega))]
    exact hout k hk

/-- Witness of C6: the test program on two memories that differ in the temporaries. -/
theorem chunks_independent_witness :
    ChunkIndependent testHeader ratPlatform (TestCode testHeader) 3 1 TestConstants 130 1
      (TestMemory 0) (TestMemory 1) :=
  chunks_independent testHeader ratPlatform (TestCode testHeader) 3 1 TestConstants 130 1
    (TestMemory 0) (TestMemory 1) (by decide) (by decide) (by decide) (by decide) (by decide)

/-- C6 as stated fails for a program that reads a temporary before writing it: the two
runs of `neg r40, r0; neg r0, r8` over 129 lanes start from memories that are equal
except for the first vector of the input, which is a lane of chunk 0, and end with
different outputs in lane 128, the lane of chunk 1. -/
theorem chunk_reads_earlier_chunk :
    Program.ending testHeader LeakCode = .done ∧
    registersBound testHeader 1 1 (Program.instrs testHeader LeakCode) = true ∧
    (TestMemory 0).seed = TestMemoryAltered.seed ∧
    (∀ b k g, g ≠ 0 → (TestMemory 0).cell b k g = TestMemoryAltered.cell b k g) ∧
    ¬ ChunkIndependent testHeader ratPlatform LeakCode 1 1 TestConstants 129 1
        (TestMemory 0) TestMemoryAltered := by
  refine ⟨by decide, by decide, rfl, ?_, ?_⟩
  · intro b k g hg
    simp [TestMemoryAltered, hg]
  · intro h
    obtain ⟨r1, r2, h1, h2, hall⟩ := h (by
      intro g hg1 hg2 hg3
      simp only [testHeader] at hg1
      have hg : g ≠ 0 := by omega
      exact ⟨fun k _ => by simp [TestMemoryAltered, hg], fun k _ => by simp [TestMemoryAltered]⟩)
    obtain ⟨s1, e1, c1⟩ := LeakCode_exec ratPlatform TestConstants (TestMemory 0)
    obtain ⟨s2, e2, c2⟩ := LeakCode_exec ratPlatform TestConstants TestMemoryAltered
    rw [e1] at h1
    rw [e2] at h2
    cases h1
    cases h2
    have h5 := hall 128 (by decide) (by decide) (by decide) 0 (by decide)
    rw [c1, c2] at h5
    have h6 := congrArg Vec.x h5
    simp [VectorNegate, ratPlatform, TestMemory, TestMemoryAltered, splat] at h6

/-- C7 (amended): for every terminated program that does not use the `random` opcode,
whose register indices are bound slots and whose temporaries are written before
they are read, two executions with the same program, input arrays, constants and
lane count complete with identical output arrays, for any contents of the temporary
register storage at the start of each execution. -/
theorem exec_deterministic (H : Header) (P : Platform F G) (Code : List Nat)
    (NumIn NumOut : Nat) (C : Nat → Vec F) (NV : Int) (m1 m2 : Memory F G)
    (hIn : NumIn ≤ H.MaxInputRegisters)
    (hend : Program.ending H Code = .done)
    (hbound : registersBound H NumIn NumOut (Program.instrs H Code) = true)
    (htemps : temporariesWritten H NumIn NumOut (Program.instrs H Code) = true)
    (hrand : randomFree (Program.instrs H Code) = true) :
    Deterministic H P Code NumIn NumOut C NV m1 m2 := by
  intro hin hout
  have hr := (randomFree_iff _).mp hrand
  have hb := (registersBound_iff H NumIn NumOut _).mp hbound
  have hd := decodeProgram_eq H Code hend
  obtain ⟨r1, a1, -, a3, a4⟩ := Exec_lanewise_chunks H P Code NumIn NumOut C NV
    (Program.instrs H Code) hIn hd hb hr htemps m1
  obtain ⟨r2, b1, -, b3, b4⟩ := Exec_lanewise_chunks H P Code NumIn NumOut C NV
    (Program.instrs H Code) hIn hd hb hr htemps m2
  refine ⟨r1, r2, a1, b1, ?_⟩
  intro k hk g
  by_cases hrun : g < (NumChunks H NV).toNat * H.VectorsPerChunk ∧ (g : Int) < NV
  · have hR1 := holdsLane_laneOfArrays H NumIn NumOut m1 g hIn
    have hR2 : holdsLane H NumIn NumOut m2 g (laneOfArrays H m1 g) :=
      ⟨fun k hk => by rw [hR1.1 k hk, hin k g], fun k hk => by rw [hR1.2 k hk, hout k g]⟩
    rw [← (a3 g hrun.1 hrun.2 _ hR1).2 k hk, ← (b3 g hrun.1 hrun.2 _ hR2).2 k hk]
    exact congrFun (evalLane_reg_seed P C _ hr _ _ _) _
  · rw [a4 _ _ _ (by simp) (by omega), b4 _ _ _ (by simp) (by omega)]
    exact hout k g

/-- Witness of C7: the test program on two memories that differ in the temporaries. -/
theorem exec_deterministic_witness :
    Deterministic testHeader ratPlatform (TestCode testHeader) 3 1 TestConstants 130
      (TestMemory 0) (TestMemory 1) :=
  exec_deterministic testHeader ratPlatform (TestCode testHeader) 3 1 TestConstants 130
    (TestMemory 0) (TestMemory 1) (by decide) (by decide) (by decide) (by decide) (by decide)

/-- C7 as stated fails for a program that reads a temporary before writing it:
`neg r40, r0; neg r0, r8` uses no `random` and is terminated, and two executions over
one lane with the same inputs and outputs but temporaries that hold 0 and 1 write 0
and -1 to the output. -/
theorem uninitialised_temporary_breaks_determinism :
    Program.ending testHeader LeakCode = .done ∧
    randomFree (Program.instrs testHeader LeakCode) = true ∧
    registersBound testHeader 1 1 (Program.instrs testHeader LeakCode) = true ∧
    ¬ Deterministic testHeader ratPlatform LeakCode 1 1 TestConstants 1
        (TestMemory 0) (TestMemory 1) := by
  refine ⟨by decide, by decide, by decide, ?_⟩
  intro h
  obtain ⟨r1, r2, h1, h2, hall⟩ := h (fun _ _ => rfl) (fun _ _ => rfl)
  obtain ⟨s1, e1, c1⟩ := LeakCode_exec_one ratPlatform TestConstants (TestMemory 0)
  obtain ⟨s2, e2, c2⟩ := LeakCode_exec_one ratPlatform TestConstants (TestMemory 1)
  rw [e1] at h1
  rw [e2] at h2
  cases h1
  cases h2
  have h5 := hall 0 (by decide) 0
  rw [c1, c2] at h5
  have h6 := congrArg Vec.x h5
  simp [VectorNegate, ratPlatform, TestMemory, splat] at h6

end Independence

/-! ## Unknown opcodes (C8) -/

section Fatal
variable {F G : Type}

theorem ite_some_eq_none {α : Type} (c : Prop) [Decidable c] (a : α) (r : Option α) :
    (if c then some a else r) = none ↔ ¬c ∧ r = none := by
  by_cases hc : c <;> simp [hc]

/-- A byte without a kernel case in the switch is none of the dispatched opcodes. -/
theorem switchOp_none (H : Header) (b : Nat) (h : switchOp H b = none) :
    ∀ e ∈ dispatchedOps, b ≠ H.opcode e := by
  unfold switchOp at h
  simp only [ite_some_eq_none] at h
  obtain ⟨h1, h2, h3, h4, h5, h6, h7, h8, h9, h10, h11, h12, h13, h14, h15, h16, h17, h18,
    h19, h20, -⟩ := h
  intro e he
  simp only [dispatchedOps, List.mem_cons, List.mem_singleton, List.not_mem_nil, or_false] at he
  rcases he with rfl | rfl | rfl | rfl | rfl | rfl | rfl | rfl | rfl | rfl | rfl | rfl | rfl |
    rfl | rfl | rfl | rfl | rfl | rfl | rfl <;> assumption

/-- The decode loop ends at a byte only if the byte has no case in the switch. -/
theorem decodeProgram_unknown (H : Header) (fuel : Nat) (code : List Nat) (b : Nat)
    (h : (decodeProgram H fuel code).2 = .unknown b) :
    switchOp H b = none ∧ b ≠ H.opcode .done := by
  induction fuel generalizing code with
  | zero => simp [decodeProgram] at h
  | succ fuel ih =>
    cases code with
    | nil => simp [decodeProgram] at h
    | cons Op rest =>
      cases hk : switchOp H Op with
      | none =>
        simp only [decodeProgram, hk] at h
        by_cases h1 : Op = H.opcode .done
        · simp only [if_pos h1] at h
          cases h
        · simp only [if_neg h1, Ending.unknown.injEq] at h
          subst h
          exact ⟨hk, h1⟩
      | some k =>
        cases hd : decodeKernel k rest with
        | none => simp [decodeProgram, hk, hd] at h
        | some ir =>
          obtain ⟨ins, rest2⟩ := ir
          simp only [decodeProgram, hk, hd] at h
          exact ih rest2 h

theorem NumChunks_pos (H : Header) (L : Nat) (hV : 0 < H.VectorsPerChunk) (hL1 : 1 ≤ L)
    (hL : L + H.VectorsPerChunk < 2147483648) :
    ∃ n, (NumChunks H (L : Int)).toNat = n + 1 := by
  rw [NumChunks_eq H L hL, Int.toNat_ofNat]
  have : 1 ≤ (L + H.VectorsPerChunk - 1) / H.VectorsPerChunk := by
    rw [Nat.le_div_iff_mul_le hV]
    omega
  exact ⟨(L + H.VectorsPerChunk - 1) / H.VectorsPerChunk - 1, by omega⟩

/-- C8: for every lane count and every program whose decoded register indices are bound
slots: if the decode loop of a chunk decodes, at an opcode position, a byte that is
neither `done` nor one of the twenty dispatched opcodes, `Exec` ends in the fatal
outcome, which is not a normal return, having executed exactly the instructions of
the first chunk decoded before that byte; if `done` is decoded first, `Exec` returns
normally; and a chunk does run for every `L >= 1` whose chunk count does not
overflow `int32`. -/
theorem unknown_opcode_fatal (H : Header) (P : Platform F G) (Code : List Nat)
    (NumIn NumOut : Nat) (C : Nat → Vec F) (L : Nat) (m : Memory F G)
    (hbound : registersBound H NumIn NumOut (Program.instrs H Code) = true) :
    UnknownOpcodeFatal H P Code NumIn NumOut C L m := by
  have hb := (registersBound_iff H NumIn NumOut _).mp hbound
  have hdec : decodeProgram H (Code.length + 1) Code =
      (Program.instrs H Code, Program.ending H Code) := rfl
  refine ⟨?_, ?_, ?_⟩
  · intro b hend
    obtain ⟨hs, hdone⟩ := decodeProgram_unknown H _ Code b hend
    refine ⟨⟨hdone, switchOp_none H b hs⟩, ?_⟩
    intro hpos
    obtain ⟨n, hn⟩ : ∃ n, (NumChunks H (L : Int)).toNat = n + 1 :=
      ⟨(NumChunks H (L : Int)).toNat - 1, by omega⟩
    obtain ⟨m1, h1, h2⟩ := runChunks_unknown H P NumIn NumOut C (Program.instrs H Code) b
      (L : Int) hb n 0 m
    have hexec : Exec H P Code NumIn NumOut C (L : Int) m = .fatal b m1 := by
      rw [Exec_eq_runChunks, hdec, hend, hn]
      exact h2
    refine ⟨m1, h1, hexec, ?_⟩
    intro m2 h3
    rw [hexec] at h3
    cases h3
  · intro hend
    rw [Exec_eq_runChunks, hdec, hend]
    obtain ⟨m2, h2, -⟩ := runChunks_done H P NumIn NumOut C (Program.instrs H Code) (L : Int)
      hb (NumChunks H (L : Int)).toNat 0 m
    exact ⟨m2, h2⟩
  · intro hV hL1 hL
    obtain ⟨n, hn⟩ := NumChunks_pos H L hV hL1 hL
    omega

/-- Witness of C8: a program with the opcode `exp`, which has no case in the switch. -/
theorem unknown_opcode_fatal_witness :
    Program.ending testHeader UnknownCode = .unknown 11 ∧
    Program.instrs testHeader UnknownCode = [.un .Neg 40 (.reg 8)] ∧
    UnknownOpcodeFatal testHeader ratPlatform UnknownCode 1 1 TestConstants 130
      (TestMemory 0) :=
  ⟨by decide, by decide,
    unknown_opcode_fatal testHeader ratPlatform UnknownCode 1 1 TestConstants 130
      (TestMemory 0) (by decide)⟩

end Fatal

/-! ## Unwired descriptors and the instruction encoding (C9, C10) -/

section Encoding
variable {F G : Type}

/-- C9: when the operand-descriptor byte matches no wired case (unary: any value other
than 0x00 and 0x01; binary: any value other than 0x00..0x03; trinary: any value
other than 0x00, 0x01, 0x02, 0x03, 0x06, 0x07), the dispatcher returns with the
memory it was given: every register, the destination included, is as before.  The
cursor has moved past the destination and descriptor bytes only. -/
theorem unwired_descriptor_writes_nothing (K1 : G → Vec F → Vec F × G)
    (K2 : G → Vec F → Vec F → Vec F × G) (K3 : G → Vec F → Vec F → Vec F → Vec F × G)
    (RT : Nat → Option Ptr) (C : Nat → Vec F) (n : Int) (m : Memory F G)
    (dst d1 d2 d3 : Nat) (rest : List Nat)
    (h1 : d1 ≠ 0x00 ∧ d1 ≠ 0x01)
    (h2 : d2 ≠ 0x00 ∧ d2 ≠ 0x01 ∧ d2 ≠ 0x02 ∧ d2 ≠ 0x03)
    (h3 : d3 ≠ 0x00 ∧ d3 ≠ 0x01 ∧ d3 ≠ 0x02 ∧ d3 ≠ 0x03 ∧ d3 ≠ 0x06 ∧ d3 ≠ 0x07) :
    TUnaryVectorKernel.Exec K1 ⟨dst :: d1 :: rest, RT, C, n⟩ m = .ok (⟨rest, RT, C, n⟩, m) ∧
    TBinaryVectorKernel.Exec K2 ⟨dst :: d2 :: rest, RT, C, n⟩ m = .ok (⟨rest, RT, C, n⟩, m) ∧
    TTrinaryVectorKernel.Exec K3 ⟨dst :: d3 :: rest, RT, C, n⟩ m = .ok (⟨rest, RT, C, n⟩, m) := by
  obtain ⟨a1, a2⟩ := h1
  obtain ⟨b1, b2, b3, b4⟩ := h2
  obtain ⟨c1, c2, c3, c4, c5, c6⟩ := h3
  refine ⟨?_, ?_, ?_⟩
  · simp only [TUnaryVectorKernel.Exec, DecodeRegister, DecodeSrcOperandTypes, nextByte_cons,
      Outcome.monad_bind, Outcome.bind_ok, Outcome.monad_pure, SRCOP_RRR, SRCOP_RRC]
    rw [if_neg a1, if_neg a2]
  · simp only [TBinaryVectorKernel.Exec, DecodeRegister, DecodeSrcOperandTypes, nextByte_cons,
      Outcome.monad_bind, Outcome.bind_ok, Outcome.monad_pure, SRCOP_RRR, SRCOP_RRC, SRCOP_RCR,
      SRCOP_RCC]
    rw [if_neg b1, if_neg b2, if_neg b3, if_neg b4]
  · simp only [TTrinaryVectorKernel.Exec, DecodeRegister, DecodeSrcOperandTypes, nextByte_cons,
      Outcome.monad_bind, Outcome.bind_ok, Outcome.monad_pure, SRCOP_RRR, SRCOP_RRC, SRCOP_RCR,
      SRCOP_RCC, SRCOP_CCR, SRCOP_CCC]
    rw [if_neg c1, if_neg c2, if_neg c6, if_neg c5, if_neg c4, if_neg c3]

/-- Witness of C9: the descriptors 0x02 (unary), 0x04 (binary) and `SRCOP_CRC` = 0x05
(trinary) on an instruction whose destination is the output slot `r40`. -/
theorem unwired_descriptor_writes_nothing_witness :
    TUnaryVectorKernel.Exec (FVectorKernelNeg.DoKernel ratPlatform)
        ⟨[0x28, 0x02, 0x08, 0x00], chunkTable testHeader 1 1 0, TestConstants, 2⟩ (TestMemory 0)
      = .ok (⟨[0x08, 0x00], chunkTable testHeader 1 1 0, TestConstants, 2⟩, TestMemory 0) ∧
    TBinaryVectorKernel.Exec (FVectorKernelAdd.DoKernel ratPlatform)
        ⟨[0x28, 0x04, 0x08, 0x00], chunkTable testHeader 1 1 0, TestConstants, 2⟩ (TestMemory 0)
      = .ok (⟨[0x08, 0x00], chunkTable testHeader 1 1 0, TestConstants, 2⟩, TestMemory 0) ∧
    TTrinaryVectorKernel.Exec (FVectorKernelMad.DoKernel ratPlatform)
        ⟨[0x28, SRCOP_CRC, 0x08, 0x00], chunkTable testHeader 1 1 0, TestConstants, 2⟩
        (TestMemory 0)
      = .ok (⟨[0x08, 0x00], chunkTable testHeader 1 1 0, TestConstants, 2⟩, TestMemory 0) :=
  unwired_descriptor_writes_nothing (FVectorKernelNeg.DoKernel ratPlatform)
    (FVectorKernelAdd.DoKernel ratPlatform) (FVectorKernelMad.DoKernel ratPlatform)
    (chunkTable testHeader 1 1 0) TestConstants 2 (TestMemory 0) 0x28 0x02 0x04 SRCOP_CRC
    [0x08, 0x00] (by decide) (by decide) (by decide)

/-- A wired descriptor followed by as many operand bytes as the arity decodes to a wired
instruction whose operands carry those bytes as indices, in order, and whose loop
body applies the kernel to the operand values in that order. -/
theorem decodeKernel_wired (P : Platform F G) (T : Nat → Option Ptr) (C : Nat → Vec F)
    (k : KernelClass) (dst d : Nat) (ops rest : List Nat)
    (hw : wiredDescriptor k d = true) (hlen : ops.length = k.arity) :
    ∃ ins, decodeKernel k (dst :: d :: (ops ++ rest)) = some (ins, rest) ∧ ins.wired = true ∧
      ins.dst = dst ∧ ins.srcs.map Operand.index = ops ∧
      ∀ (j : Nat) (m : Memory F G), ins.body P T C j m =
        (readAll T C m j ins.srcs).bind (k.apply P m.seed) := by
  have hbody1 : ∀ (k : UnaryKernel) (a : Operand) (j : Nat) (m : Memory F G),
      (Instr.un k dst a).body P T C j m =
        (readAll T C m j (Instr.un k dst a).srcs).bind ((KernelClass.unary k).apply P m.seed) := by
    intro k a j m
    simp only [Instr.body, Instr.srcs, readAll]
    cases a.read T C m j <;> rfl
  have hbody2 : ∀ (k : BinaryKernel) (a b : Operand) (j : Nat) (m : Memory F G),
      (Instr.bin k dst a b).body P T C j m =
        (readAll T C m j (Instr.bin k dst a b).srcs).bind
          ((KernelClass.binary k).apply P m.seed) := by
    intro k a b j m
    simp only [Instr.body, Instr.srcs, readAll]
    cases a.read T C m j <;> cases b.read T C m j <;> rfl
  have hbody3 : ∀ (k : TrinaryKernel) (a b c : Operand) (j : Nat) (m : Memory F G),
      (Instr.tri k dst a b c).body P T C j m =
        (readAll T C m j (Instr.tri k dst a b c).srcs).bind
          ((KernelClass.trinary k).apply P m.seed) := by
    intro k a b c j m
    simp only [Instr.body, Instr.srcs, readAll]
    cases a.read T C m j <;> cases b.read T C m j <;> cases c.read T C m j <;> rfl
  cases k with
  | unary k =>
    obtain ⟨a, rfl⟩ : ∃ a, ops = [a] := by
      rcases ops with _ | ⟨a, _ | ⟨b, tl⟩⟩ <;> simp [KernelClass.arity] at hlen
      exact ⟨a, rfl⟩
    simp only [wiredDescriptor, decide_eq_true_eq] at hw
    rcases hw with rfl | rfl <;> exact ⟨_, rfl, rfl, rfl, rfl, hbody1 k _⟩
  | binary k =>
    obtain ⟨a, b, rfl⟩ : ∃ a b, ops = [a, b] := by
      rcases ops with _ | ⟨a, _ | ⟨b, _ | ⟨c, tl⟩⟩⟩ <;> simp [KernelClass.arity] at hlen
      exact ⟨a, b, rfl⟩
    simp only [wiredDescriptor, decide_eq_true_eq] at hw
    rcases hw with rfl | rfl | rfl | rfl <;> exact ⟨_, rfl, rfl, rfl, rfl, hbody2 k _ _⟩
  | trinary k =>
    obtain ⟨a, b, c, rfl⟩ : ∃ a b c, ops = [a, b, c] := by
      rcases ops with _ | ⟨a, _ | ⟨b, _ | ⟨c, _ | ⟨e, tl⟩⟩⟩⟩ <;> simp [KernelClass.arity] at hlen
      exact ⟨a, b, c, rfl⟩
    simp only [wiredDescriptor, decide_eq_true_eq] at hw
    rcases hw with rfl | rfl | rfl | rfl | rfl | rfl <;>
      exact ⟨_, rfl, rfl, rfl, rfl, hbody3 k _ _ _⟩

/-- C10: one iteration of the decode loop on an instruction of arity `k` (1, 2 or 3) with
a wired descriptor continues with the cursor exactly `3 + k` bytes further (opcode,
destination register, descriptor, `k` operand bytes), after the lane loop of a wired
instruction whose destination is the byte after the opcode, whose `j`-th source
operand has the `j`-th operand byte as its register or constant index, and whose
loop body passes the operand values to the kernel in left-to-right order. -/
theorem wired_instruction_step (H : Header) (P : Platform F G) (Op : Nat) (k : KernelClass)
    (dst d : Nat) (ops rest : List Nat) (T : Nat → Option Ptr) (C : Nat → Vec F) (n : Int)
    (fuel : Nat) (m : Memory F G)
    (hk : switchOp H Op = some k) (hw : wiredDescriptor k d = true)
    (hlen : ops.length = k.arity) :
    ∃ ins : Instr, ins.wired = true ∧ ins.dst = dst ∧ ins.srcs.map Operand.index = ops ∧
      (∀ (j : Nat) (m2 : Memory F G), ins.body P T C j m2 =
        (readAll T C m2 j ins.srcs).bind (k.apply P m2.seed)) ∧
      (Op :: dst :: d :: (ops ++ rest)).length = rest.length + (3 + k.arity) ∧
      execChunk H P (fuel + 1) ⟨Op :: dst :: d :: (ops ++ rest), T, C, n⟩ m =
        (forLanes (ins.body P T C) (T dst) n m).bind
          fun m2 => execChunk H P fuel ⟨rest, T, C, n⟩ m2 := by
  obtain ⟨ins, h1, h2, h3, h4, h5⟩ := decodeKernel_wired P T C k dst d ops rest hw hlen
  refine ⟨ins, h2, h3, h4, h5, ?_, ?_⟩
  · simp only [List.length_cons, List.length_append, hlen]
    omega
  · simp only [execChunk, DecodeOp, nextByte_cons, Outcome.bind_ok, hk, KernelClass.Exec_eq, h1,
      Outcome.bind_assoc]
    rw [Instr.exec_wired P T C n ins m h2, h3]

/-- Witness of C10: the instruction `mad r1, r9, r9, r0` of the test program. -/
theorem wired_instruction_step_witness :
    ∃ ins : Instr, ins.wired = true ∧ ins.dst = 0x01 ∧
      ins.srcs.map Operand.index = [0x09, 0x09, 0x00] ∧
      (∀ (j : Nat) (m2 : Memory ℚ Nat),
        ins.body ratPlatform (chunkTable testHeader 3 1 0) TestConstants j m2 =
          (readAll (chunkTable testHeader 3 1 0) TestConstants m2 j ins.srcs).bind
            ((KernelClass.trinary .Mad).apply ratPlatform m2.seed)) ∧
      (testHeader.opcode .mad :: 0x01 :: SRCOP_RRR :: ([0x09, 0x09, 0x00] ++ [0x00])).length =
        [0x00].length + (3 + (KernelClass.trinary .Mad).arity) ∧
      execChunk testHeader ratPlatform (1 + 1)
          ⟨testHeader.opcode .mad :: 0x01 :: SRCOP_RRR :: ([0x09, 0x09, 0x00] ++ [0x00]),
            chunkTable testHeader 3 1 0, TestConstants, 2⟩ (TestMemory 0) =
        (forLanes (ins.body ratPlatform (chunkTable testHeader 3 1 0) TestConstants)
          (chunkTable testHeader 3 1 0 0x01) 2 (TestMemory 0)).bind
          fun m2 => execChunk testHeader ratPlatform 1
            ⟨[0x00], chunkTable testHeader 3 1 0, TestConstants, 2⟩ m2 :=
  wired_instruction_step testHeader ratPlatform (testHeader.opcode .mad) (.trinary .Mad) 0x01
    SRCOP_RRR [0x09, 0x09, 0x00] [0x00] (chunkTable testHeader 3 1 0) TestConstants 2 1
    (TestMemory 0) (by decide) (by decide) (by decide)

end Encoding

/-! ## Operand order of the binary dispatcher (C11) -/

section OperandOrder
variable {F G : Type}

/-- The `add` instruction of the test program, executed by the binary dispatcher over
`n` lanes of any memory, adds constant `c0` to register `r1`. -/
theorem test_addi_exec (P : Platform F G) (C : Nat → Vec F) (m : Memory F G) (n : Nat)
    (rest : List Nat) :
    ∃ m2, TBinaryVectorKernel.Exec (FVectorKernelAdd.DoKernel P)
        ⟨0x01 :: SRCOP_RRC :: 0x00 :: 0x01 :: rest, chunkTable testHeader 3 1 0, C, n⟩ m =
        .ok (⟨rest, chunkTable testHeader 3 1 0, C, n⟩, m2) ∧
      ∀ i, i < n → m2.cell Bank.Temp 1 i = VectorAdd P (C 0) (m.cell Bank.Temp 1 i) := by
  have h := KernelClass.Exec_eq P (.binary .Add)
    ⟨0x01 :: SRCOP_RRC :: 0x00 :: 0x01 :: rest, chunkTable testHeader 3 1 0, C, n⟩ m
  have hd : decodeKernel (.binary .Add) (0x01 :: SRCOP_RRC :: 0x00 :: 0x01 :: rest) =
      some (.bin .Add 1 (.const 0) (.reg 1), rest) := rfl
  simp only [hd] at h
  obtain ⟨m2, h1, -, h3, -⟩ := Instr.exec_lanewise P (chunkTable testHeader 3 1 0) C
    (chunkTable_ok testHeader 3 1 0) (.bin .Add 1 (.const 0) (.reg 1))
    (by intro r hr; simp [Instr.regs, Instr.srcRegs, Instr.srcs, Instr.dst] at hr; subst hr; rfl) rfl n m
  refine ⟨m2, ?_, ?_⟩
  · have e : TBinaryVectorKernel.Exec (FVectorKernelAdd.DoKernel P)
        ⟨0x01 :: SRCOP_RRC :: 0x00 :: 0x01 :: rest, chunkTable testHeader 3 1 0, C, n⟩ m =
        (KernelClass.binary .Add).Exec P
          ⟨0x01 :: SRCOP_RRC :: 0x00 :: 0x01 :: rest, chunkTable testHeader 3 1 0, C, n⟩ m := rfl
    rw [e, h, h1]
    rfl
  · intro i hi
    have h4 := h3 i hi 1 rfl
    have e1 : chunkTable testHeader 3 1 0 1 = some ⟨Bank.Temp, 1, 0⟩ := rfl
    simp only [Memory.lane, e1, Nat.zero_add, Instr.evalLane, Instr.wired, Instr.dst,
      Instr.result, Operand.value] at h4
    simpa using h4

/-- C11 (the dispatcher does not read `SRCOP_RRC` the way the test program uses it): given
descriptor `SRCOP_RRC` and operand bytes `a`, `b`, the binary dispatcher takes its
first source from constant `a` and its second source from register `b`.  The test
instruction `add 0x01, SRCOP_RRC, 0x00, 0x01` therefore leaves `c0 + r1` in every
lane of `r1`, not `r0 + c1` as its comment `addi r1, r0, c1` states: with
`r0 = r1 = 1`, `c0 = 0` and `c1 = 5` it writes 1, and `r0 + c1` is 6. -/
theorem binary_rrc_reads_constant_first :
    (∀ (F G : Type) (K : G → Vec F → Vec F → Vec F × G) (dst a b : Nat) (rest : List Nat)
      (T : Nat → Option Ptr) (C : Nat → Vec F) (n : Int) (m : Memory F G),
      TBinaryVectorKernel.Exec K ⟨dst :: SRCOP_RRC :: a :: b :: rest, T, C, n⟩ m =
        (forLanes (fun i m2 => (m2.load (T b) i).map fun v => K m2.seed (C a) v)
          (T dst) n m).bind fun m2 => .ok (⟨rest, T, C, n⟩, m2)) ∧
    (∀ (F G : Type) (P : Platform F G) (C : Nat → Vec F) (m : Memory F G) (n : Nat)
      (rest : List Nat),
      ∃ m2, TBinaryVectorKernel.Exec (FVectorKernelAdd.DoKernel P)
          ⟨0x01 :: SRCOP_RRC :: 0x00 :: 0x01 :: rest, chunkTable testHeader 3 1 0, C, n⟩ m =
          .ok (⟨rest, chunkTable testHeader 3 1 0, C, n⟩, m2) ∧
        ∀ i, i < n → m2.cell Bank.Temp 1 i = VectorAdd P (C 0) (m.cell Bank.Temp 1 i)) ∧
    (∃ m2, TBinaryVectorKernel.Exec (FVectorKernelAdd.DoKernel ratPlatform)
        ⟨[0x01, SRCOP_RRC, 0x00, 0x01, 0x00], chunkTable testHeader 3 1 0, TestConstants,
          (1 : Nat)⟩ (TestMemory 1) =
        .ok (⟨[0x00], chunkTable testHeader 3 1 0, TestConstants, (1 : Nat)⟩, m2) ∧
      m2.cell Bank.Temp 1 0 = splat 1) ∧
    VectorAdd ratPlatform ((TestMemory 1).cell Bank.Temp 0 0) (TestConstants 1) = splat 6 := by
  refine ⟨?_, ?_, ?_, ?_⟩
  · intro F G K dst a b rest T C n m
    rfl
  · intro F G P C m n rest
    exact test_addi_exec P C m n rest
  · obtain ⟨m2, h1, h2⟩ := test_addi_exec ratPlatform TestConstants (TestMemory 1) 1 [0x00]
    refine ⟨m2, h1, ?_⟩
    rw [h2 0 (by decide)]
    simp [VectorAdd, ratPlatform, TestConstants, TestMemory, splat]
  · simp [VectorAdd, ratPlatform, TestConstants, TestMemory, splat]
    norm_num

end OperandOrder

/-! ## The opcode metadata lookup (C12, C13) -/

section MetadataLookup

/-- The table has 62 rows. -/
theorem GOpInfo_length : GOpInfo.length = 62 := rfl

/-- The clamped table position is the index itself up to `NumOpcodes`, and `NumOpcodes`
beyond. -/
theorem GOpInfoIndex_eq (H : Header) (i : Nat) :
    GOpInfoIndex H i = ((min i (H.opcode .NumOpcodes) : Nat) : Int) := by
  simp only [GOpInfoIndex, FMathClampInt32]
  rw [max_eq_left (Int.ofNat_nonneg i)]
  exact (Nat.cast_min ..).symm

/-- The lookup reads row `min i NumOpcodes` of the table. -/
theorem GetOpCodeInfo_eq (H : Header) (i : Nat) :
    GetOpCodeInfo H i = GOpInfo.get? (min i (H.opcode .NumOpcodes)) := by
  simp only [GetOpCodeInfo, GOpInfoIndex_eq]
  rw [if_pos (Int.ofNat_nonneg _), Int.toNat_ofNat]

/-- C12 as stated fails whatever values the header gives the enumerators: the rows at
positions 1 and 2 of `GOpInfo` both record the opcode `add` (the table has a row per
operand-kind variant, here `Add` and `addi`; its 62 rows record 37 different
opcodes), and `GetOpCodeInfo` returns these rows for the indices 1 and 2.  So for
every header in which 1 and 2 are opcode values (`2 < NumOpcodes`) the recorded opcode
is not the value looked up for every `v` in the valid range. -/
theorem opcode_info_rows_share_base_opcode :
    GOpInfo.get? 1 = some ⟨.add, true, true, .Register, .Register, .Invalid, "Add"⟩ ∧
    GOpInfo.get? 2 = some ⟨.add, false, false, .Register, .Const, .Invalid, "addi"⟩ ∧
    GOpInfo.length = 62 ∧ ((GOpInfo.map fun e => e.BaseOpcode).dedup).length = 37 ∧
    (∀ H : Header, 2 < GetNumOpCodes H →
      GetOpCodeInfo H 1 = some ⟨.add, true, true, .Register, .Register, .Invalid, "Add"⟩ ∧
      GetOpCodeInfo H 2 = some ⟨.add, false, false, .Register, .Const, .Invalid, "addi"⟩ ∧
      ¬ (∀ v, v < GetNumOpCodes H →
        (GetOpCodeInfo H v).map (fun e => H.opcode e.BaseOpcode) = some v)) := by
  refine ⟨rfl, rfl, rfl, by decide, ?_⟩
  intro H h
  simp only [GetNumOpCodes] at h
  have e1 : GetOpCodeInfo H 1 =
      some ⟨.add, true, true, .Register, .Register, .Invalid, "Add"⟩ := by
    rw [GetOpCodeInfo_eq, min_eq_left (by omega)]
    rfl
  have e2 : GetOpCodeInfo H 2 =
      some ⟨.add, false, false, .Register, .Const, .Invalid, "addi"⟩ := by
    rw [GetOpCodeInfo_eq, min_eq_left (by omega)]
    rfl
  refine ⟨e1, e2, ?_⟩
  intro hall
  have h1 := hall 1 (by simp only [GetNumOpCodes]; omega)
  have h2 := hall 2 (by simp only [GetNumOpCodes]; omega)
  rw [e1] at h1
  rw [e2] at h2
  simp only [Option.map_some', Option.some.injEq] at h1 h2
  omega

/-- C12 (amended): the index of `GetOpCodeInfo` is a position of the table.  For every
header whose `NumOpcodes` is a position of `GOpInfo` (at most 61) and every index `v`,
the lookup returns the row at position `v` when `v <= NumOpcodes` and the row at
position `NumOpcodes` beyond; the opcode recorded in the returned row is the opcode
the table records at that position, whatever values the header gives the
enumerators. -/
theorem opcode_info_by_position (H : Header) (v : Nat)
    (hN : H.opcode .NumOpcodes < GOpInfo.length) :
    (v ≤ H.opcode .NumOpcodes → GetOpCodeInfo H v = GOpInfo.get? v) ∧
    (H.opcode .NumOpcodes ≤ v → GetOpCodeInfo H v = GOpInfo.get? (H.opcode .NumOpcodes)) ∧
    (∃ row, row ∈ GOpInfo ∧ GetOpCodeInfo H v = some row) ∧
    (GetOpCodeInfo H v).map (fun e => e.BaseOpcode) =
      (GOpInfo.map fun e => e.BaseOpcode).get? (min v (H.opcode .NumOpcodes)) := by
  refine ⟨fun h => ?_, fun h => ?_, ?_, ?_⟩
  · rw [GetOpCodeInfo_eq, min_eq_left h]
  · rw [GetOpCodeInfo_eq, min_eq_right h]
  · have hlt : min v (H.opcode .NumOpcodes) < GOpInfo.length :=
      lt_of_le_of_lt (min_le_right _ _) hN
    refine ⟨GOpInfo.get ⟨_, hlt⟩, List.get_mem _ _ _, ?_⟩
    rw [GetOpCodeInfo_eq]
    exact List.get?_eq_get hlt
  · rw [GetOpCodeInfo_eq]
    simp only [List.get?_eq_getElem?, List.getElem?_map]

/-- Witness of C12: a header with `NumOpcodes = 61` and the largest 8-bit index, which
reads the last row of the table. -/
theorem opcode_info_by_position_witness :
    (⟨8, 32, 128, fun e => if e = .NumOpcodes then 61 else e.toNat⟩ : Header).opcode
        .NumOpcodes < GOpInfo.length ∧
    ((255 ≤ (⟨8, 32, 128, fun e => if e = .NumOpcodes then 61 else e.toNat⟩ : Header).opcode
          .NumOpcodes →
        GetOpCodeInfo ⟨8, 32, 128, fun e => if e = .NumOpcodes then 61 else e.toNat⟩ 255 =
          GOpInfo.get? 255) ∧
      ((⟨8, 32, 128, fun e => if e = .NumOpcodes then 61 else e.toNat⟩ : Header).opcode
          .NumOpcodes ≤ 255 →
        GetOpCodeInfo ⟨8, 32, 128, fun e => if e = .NumOpcodes then 61 else e.toNat⟩ 255 =
          GOpInfo.get? ((⟨8, 32, 128, fun e => if e = .NumOpcodes then 61 else e.toNat⟩ :
            Header).opcode .NumOpcodes)) ∧
      (∃ row, row ∈ GOpInfo ∧
        GetOpCodeInfo ⟨8, 32, 128, fun e => if e = .NumOpcodes then 61 else e.toNat⟩ 255 =
          some row) ∧
      (GetOpCodeInfo ⟨8, 32, 128, fun e => if e = .NumOpcodes then 61 else e.toNat⟩ 255).map
          (fun e => e.BaseOpcode) =
        (GOpInfo.map fun e => e.BaseOpcode).get?
          (min 255 ((⟨8, 32, 128, fun e => if e = .NumOpcodes then 61 else e.toNat⟩ :
            Header).opcode .NumOpcodes))) :=
  ⟨by decide, opcode_info_by_position
    ⟨8, 32, 128, fun e => if e = .NumOpcodes then 61 else e.toNat⟩ 255 (by decide)⟩

/-- C13: for every index `i` (in particular every 8-bit index), the table position
`clamp(i, 0, NumOpcodes)` that `GetOpCodeInfo` reads is at least 0 and less than 62,
the number of rows of `GOpInfo`, so the lookup returns a row of the table.  The
constant `NumOpcodes` comes from the VM header; the table has room for every value
of it up to 61. -/
theorem opcode_info_lookup_in_table (H : Header) (i : Nat)
    (hN : H.opcode .NumOpcodes < GOpInfo.length) :
    GOpInfo.length = 62 ∧ 0 ≤ GOpInfoIndex H i ∧ GOpInfoIndex H i < 62 ∧
      ∃ e, GetOpCodeInfo H i = some e := by
  have hN2 : H.opcode .NumOpcodes < 62 := hN
  refine ⟨rfl, ?_, ?_, ?_⟩
  · rw [GOpInfoIndex_eq]
    exact Int.ofNat_nonneg _
  · rw [GOpInfoIndex_eq]
    have : min i (H.opcode .NumOpcodes) < 62 := lt_of_le_of_lt (min_le_right _ _) hN2
    exact_mod_cast this
  · rw [GetOpCodeInfo_eq]
    have : min i (H.opcode .NumOpcodes) < GOpInfo.length :=
      lt_of_le_of_lt (min_le_right _ _) hN
    exact ⟨_, List.get?_eq_get this⟩

/-- Witness of C13: the largest 8-bit index, with the enumerators numbered in order. -/
theorem opcode_info_lookup_in_table_witness :
    testHeader.opcode .NumOpcodes < GOpInfo.length ∧
    (GOpInfo.length = 62 ∧ 0 ≤ GOpInfoIndex testHeader 255 ∧ GOpInfoIndex testHeader 255 < 62 ∧
      ∃ e, GetOpCodeInfo testHeader 255 = some e) :=
  ⟨by decide, opcode_info_lookup_in_table testHeader 255 (by decide)⟩

end MetadataLookup

/-! ## The kernel library (C14 - C20) -/

section KernelLibrary
variable {F G : Type}

/-- C14: the clamp kernel computes, component by component, `min(max(x, lo), hi)` with `x`
the first, `lo` the second and `hi` the third source operand, for all operand
values: the maximum is taken first.  In exact arithmetic these are the minimum and
maximum of the ordered field. -/
theorem clamp_kernel_max_then_min (P : Platform F G) (g : G) (x lo hi : Vec F) :
    FVectorKernelClamp.DoKernel P g x lo hi =
      (⟨P.fmin (P.fmax x.x lo.x) hi.x, P.fmin (P.fmax x.y lo.y) hi.y,
        P.fmin (P.fmax x.z lo.z) hi.z, P.fmin (P.fmax x.w lo.w) hi.w⟩, g) ∧
    ∀ (K : Type) [LinearOrderedField K] (sqrt sin : K → K) (pow : K → K → K)
      (normalize : Vec K → Vec K) (Rand : G → Nat × G) (RAND_MAX : Nat) (a l h : Vec K),
      (FVectorKernelClamp.DoKernel (exactPlatform sqrt sin pow normalize Rand RAND_MAX) g a l h).1 =
        ⟨min (max a.x l.x) h.x, min (max a.y l.y) h.y, min (max a.z l.z) h.z,
          min (max a.w l.w) h.w⟩ :=
  ⟨rfl, fun _ _ _ _ _ _ _ _ _ _ _ => rfl⟩

/-- C15: in exact arithmetic the lerp kernel computes, component by component,
`a * (1 - t) + b * t` with `a`, `b`, `t` the first, second and third source operands;
in particular the result is `a` for `t = 0` and `b` for `t = 1`. -/
theorem lerp_kernel_exact [LinearOrderedField F] (sqrt sin : F → F) (pow : F → F → F)
    (normalize : Vec F → Vec F) (Rand : G → Nat × G) (RAND_MAX : Nat) (g : G) (a b t : Vec F) :
    (FVectorKernelLerp.DoKernel (exactPlatform sqrt sin pow normalize Rand RAND_MAX) g a b t).1 =
        ⟨a.x * (1 - t.x) + b.x * t.x, a.y * (1 - t.y) + b.y * t.y,
          a.z * (1 - t.z) + b.z * t.z, a.w * (1 - t.w) + b.w * t.w⟩ ∧
    (FVectorKernelLerp.DoKernel (exactPlatform sqrt sin pow normalize Rand RAND_MAX) g a b
        ⟨0, 0, 0, 0⟩).1 = a ∧
    (FVectorKernelLerp.DoKernel (exactPlatform sqrt sin pow normalize Rand RAND_MAX) g a b
        ⟨1, 1, 1, 1⟩).1 = b := by
  obtain ⟨a0, a1, a2, a3⟩ := a
  obtain ⟨b0, b1, b2, b3⟩ := b
  obtain ⟨t0, t1, t2, t3⟩ := t
  simp only [FVectorKernelLerp.DoKernel, VectorMultiplyAdd, VectorMultiply, VectorSubtract,
    MakeVectorRegister, exactPlatform]
  refine ⟨?_, ?_, ?_⟩
  · simp only [Vec.mk.injEq]
    refine ⟨?_, ?_, ?_, ?_⟩ <;> ring
  · simp
  · simp

/-- C16: a `mad` instruction with descriptor `SRCOP_RRR` and operand bytes `x`, `y`, `z`,
executed over `n` lanes with a register table that binds its four registers (and
binds no array twice), completes with the cursor behind the operand bytes and
writes, for every lane `i < n`, `reg[x][i] * reg[y][i] + reg[z][i]` to lane `i` of the
destination, the registers being read as they are before the instruction. -/
theorem mad_rrr_lanes (P : Platform F G) (T : Nat → Option Ptr) (C : Nat → Vec F)
    (dst x y z : Nat) (rest : List Nat) (n : Nat) (m : Memory F G)
    (hT : TableOK T) (hdst : (T dst).isSome = true) (hx : (T x).isSome = true)
    (hy : (T y).isSome = true) (hz : (T z).isSome = true) :
    ∃ m2, TTrinaryVectorKernel.Exec (FVectorKernelMad.DoKernel P)
        ⟨dst :: SRCOP_RRR :: x :: y :: z :: rest, T, C, n⟩ m = .ok (⟨rest, T, C, n⟩, m2) ∧
      ∀ i, i < n → m2.lane T i dst =
        ⟨P.add (P.mul (m.lane T i x).x (m.lane T i y).x) (m.lane T i z).x,
          P.add (P.mul (m.lane T i x).y (m.lane T i y).y) (m.lane T i z).y,
          P.add (P.mul (m.lane T i x).z (m.lane T i y).z) (m.lane T i z).z,
          P.add (P.mul (m.lane T i x).w (m.lane T i y).w) (m.lane T i z).w⟩ := by
  have h := KernelClass.Exec_eq P (.trinary .Mad)
    ⟨dst :: SRCOP_RRR :: x :: y :: z :: rest, T, C, n⟩ m
  have hd : decodeKernel (.trinary .Mad) (dst :: SRCOP_RRR :: x :: y :: z :: rest) =
      some (.tri .Mad dst (.reg x) (.reg y) (.reg z), rest) := rfl
  simp only [hd] at h
  obtain ⟨m2, h1, -, h3, -⟩ := Instr.exec_lanewise P T C hT
    (.tri .Mad dst (.reg x) (.reg y) (.reg z))
    (by
      intro r hr
      simp [Instr.regs, Instr.srcRegs, Instr.srcs, Instr.dst] at hr
      rcases hr with rfl | rfl | rfl | rfl <;> assumption) rfl n m
  refine ⟨m2, ?_, ?_⟩
  · have e : TTrinaryVectorKernel.Exec (FVectorKernelMad.DoKernel P)
        ⟨dst :: SRCOP_RRR :: x :: y :: z :: rest, T, C, n⟩ m =
        (KernelClass.trinary .Mad).Exec P
          ⟨dst :: SRCOP_RRR :: x :: y :: z :: rest, T, C, n⟩ m := rfl
    rw [e, h, h1]
    rfl
  · intro i hi
    have h4 := h3 i hi dst hdst
    rw [h4]
    simp [Instr.evalLane, Instr.wired, Instr.dst, Instr.result, Operand.value,
      TrinaryKernel.DoKernel, FVectorKernelMad.DoKernel, VectorMultiplyAdd]

/-- Witness of C16: the instruction `mad r1, r9, r9, r0` of the test program on the
register table of the first chunk. -/
theorem mad_rrr_lanes_witness :
    ∃ m2, TTrinaryVectorKernel.Exec (FVectorKernelMad.DoKernel ratPlatform)
        ⟨0x01 :: SRCOP_RRR :: 0x09 :: 0x09 :: 0x00 :: [0x00], chunkTable testHeader 3 1 0,
          TestConstants, (128 : Nat)⟩ (TestMemory 0) =
        .ok (⟨[0x00], chunkTable testHeader 3 1 0, TestConstants, (128 : Nat)⟩, m2) ∧
      ∀ i, i < 128 → m2.lane (chunkTable testHeader 3 1 0) i 0x01 =
        ⟨ratPlatform.add (ratPlatform.mul
              ((TestMemory 0).lane (chunkTable testHeader 3 1 0) i 0x09).x
              ((TestMemory 0).lane (chunkTable testHeader 3 1 0) i 0x09).x)
            ((TestMemory 0).lane (chunkTable testHeader 3 1 0) i 0x00).x,
          ratPlatform.add (ratPlatform.mul
              ((TestMemory 0).lane (chunkTable testHeader 3 1 0) i 0x09).y
              ((TestMemory 0).lane (chunkTable testHeader 3 1 0) i 0x09).y)
            ((TestMemory 0).lane (chunkTable testHeader 3 1 0) i 0x00).y,
          ratPlatform.add (ratPlatform.mul
              ((TestMemory 0).lane (chunkTable testHeader 3 1 0) i 0x09).z
              ((TestMemory 0).lane (chunkTable testHeader 3 1 0) i 0x09).z)
            ((TestMemory 0).lane (chunkTable testHeader 3 1 0) i 0x00).z,
          ratPlatform.add (ratPlatform.mul
              ((TestMemory 0).lane (chunkTable testHeader 3 1 0) i 0x09).w
              ((TestMemory 0).lane (chunkTable testHeader 3 1 0) i 0x09).w)
            ((TestMemory 0).lane (chunkTable testHeader 3 1 0) i 0x00).w⟩ :=
  mad_rrr_lanes ratPlatform (chunkTable testHeader 3 1 0) TestConstants 0x01 0x09 0x09 0x00
    [0x00] 128 (TestMemory 0) (chunkTable_ok testHeader 3 1 0) (by decide) (by decide)
    (by decide) (by decide)

/-- C17: the result of the sin kernel depends only on the first component of its input
vector: for all input vectors `u` and `v` with the same first component the results
are equal; and in every result the four components are the same value. -/
theorem sin_kernel_first_component (P : Platform F G) (g : G) (u v : Vec F) (h : u.x = v.x) :
    FVectorKernelSin.DoKernel P g u = FVectorKernelSin.DoKernel P g v ∧
    (FVectorKernelSin.DoKernel P g u).1.x = (FVectorKernelSin.DoKernel P g u).1.y ∧
    (FVectorKernelSin.DoKernel P g u).1.y = (FVectorKernelSin.DoKernel P g u).1.z ∧
    (FVectorKernelSin.DoKernel P g u).1.z = (FVectorKernelSin.DoKernel P g u).1.w := by
  refine ⟨?_, rfl, rfl, rfl⟩
  simp only [FVectorKernelSin.DoKernel, h]

/-- Witness of C17: two vectors with first component 1. -/
theorem sin_kernel_first_component_witness :
    (⟨1, 2, 3, 4⟩ : Vec ℚ).x = (⟨1, 0, 0, 0⟩ : Vec ℚ).x ∧
    (FVectorKernelSin.DoKernel ratPlatform 1 ⟨1, 2, 3, 4⟩ =
        FVectorKernelSin.DoKernel ratPlatform 1 ⟨1, 0, 0, 0⟩ ∧
      (FVectorKernelSin.DoKernel ratPlatform 1 ⟨1, 2, 3, 4⟩).1.x =
        (FVectorKernelSin.DoKernel ratPlatform 1 ⟨1, 2, 3, 4⟩).1.y ∧
      (FVectorKernelSin.DoKernel ratPlatform 1 ⟨1, 2, 3, 4⟩).1.y =
        (FVectorKernelSin.DoKernel ratPlatform 1 ⟨1, 2, 3, 4⟩).1.z ∧
      (FVectorKernelSin.DoKernel ratPlatform 1 ⟨1, 2, 3, 4⟩).1.z =
        (FVectorKernelSin.DoKernel ratPlatform 1 ⟨1, 2, 3, 4⟩).1.w) :=
  ⟨rfl, sin_kernel_first_component ratPlatform 1 ⟨1, 2, 3, 4⟩ ⟨1, 0, 0, 0⟩ rfl⟩

/-- C18 (the kernel multiplies by the literal `3.14f`, not by pi): over the real numbers,
with the real sine, the first component of the sin kernel's result for an input
whose first component is 1 is `sin 3.14`, which is positive, whereas
`sin (1 * pi) = 0`. -/
theorem sin_kernel_uses_literal_314 (g : G) (sqrt : ℝ → ℝ) (pow : ℝ → ℝ → ℝ)
    (normalize : Vec ℝ → Vec ℝ) (Rand : G → Nat × G) (RAND_MAX : Nat) (y z w : ℝ) :
    (FVectorKernelSin.DoKernel (exactPlatform sqrt Real.sin pow normalize Rand RAND_MAX) g
        ⟨1, y, z, w⟩).1.x = Real.sin (314 / 100) ∧
    0 < Real.sin (314 / 100) ∧ Real.sin (1 * Real.pi) = 0 := by
  refine ⟨?_, ?_, ?_⟩
  · simp [FVectorKernelSin.DoKernel, MakeVectorRegister, exactPlatform]
  · apply Real.sin_pos_of_pos_of_lt_pi (by norm_num)
    have := Real.pi_gt_d2
    norm_num at this ⊢
    linarith
  · simp

/-- C19: for every input vector `a`, every one of the four components of the length
kernel's result is `sqrt(a0*a0 + a1*a1 + a2*a2 + a3*a3)`, the square root of the first
component of the dot kernel's result for `a` and `a`; in exact arithmetic the products
and sums are those of the field. -/
theorem length_kernel_sqrt_dot (P : Platform F G) (g : G) (a : Vec F) :
    (FVectorKernelLength.DoKernel P g a).1 =
      ⟨P.sqrt (P.add (P.add (P.add (P.mul a.x a.x) (P.mul a.y a.y)) (P.mul a.z a.z))
          (P.mul a.w a.w)),
        P.sqrt (P.add (P.add (P.add (P.mul a.x a.x) (P.mul a.y a.y)) (P.mul a.z a.z))
          (P.mul a.w a.w)),
        P.sqrt (P.add (P.add (P.add (P.mul a.x a.x) (P.mul a.y a.y)) (P.mul a.z a.z))
          (P.mul a.w a.w)),
        P.sqrt (P.add (P.add (P.add (P.mul a.x a.x) (P.mul a.y a.y)) (P.mul a.z a.z))
          (P.mul a.w a.w))⟩ ∧
    (FVectorKernelLength.DoKernel P g a).1.x = P.sqrt (FVectorKernelDot.DoKernel P g a a).1.x ∧
    ∀ (K : Type) [LinearOrderedField K] (sqrt sin : K → K) (pow : K → K → K)
      (normalize : Vec K → Vec K) (Rand : G → Nat × G) (RAND_MAX : Nat) (b : Vec K),
      (FVectorKernelLength.DoKernel (exactPlatform sqrt sin pow normalize Rand RAND_MAX) g b).1 =
        ⟨sqrt (b.x * b.x + b.y * b.y + b.z * b.z + b.w * b.w),
          sqrt (b.x * b.x + b.y * b.y + b.z * b.z + b.w * b.w),
          sqrt (b.x * b.x + b.y * b.y + b.z * b.z + b.w * b.w),
          sqrt (b.x * b.x + b.y * b.y + b.z * b.z + b.w * b.w)⟩ :=
  ⟨rfl, rfl, fun _ _ _ _ _ _ _ _ _ => rfl⟩

/-- The random kernel multiplies its operand, component by component, by the factors
of four successive values of `FMath::Rand`. -/
theorem FVectorKernelRandom.DoKernel_eq (P : Platform F G) (g : G) (a : Vec F) :
    (FVectorKernelRandom.DoKernel P g a).1 =
      VectorMultiply P
        ⟨FVectorKernelRandom.factor P (P.Rand g).1,
          FVectorKernelRandom.factor P (P.Rand (P.Rand g).2).1,
          FVectorKernelRandom.factor P (P.Rand (P.Rand (P.Rand g).2).2).1,
          FVectorKernelRandom.factor P (P.Rand (P.Rand (P.Rand (P.Rand g).2).2).2).1⟩ a :=
  rfl

/-- C20 (amended): for every value `r` with `0 <= r <= RAND_MAX` (and `RAND_MAX > 0`), the
factor `r / RAND_MAX` of the random kernel lies in the closed interval `[0, 1]`, and
at `r = RAND_MAX` it is 1.  This holds in exact arithmetic, and also when the
conversion from `int` and the quotient are rounded by any rounding `rnd` that is
monotone and keeps 0 and 1, as the rounding of a float format does. -/
theorem random_factor_closed_unit_interval [LinearOrderedField F] (rnd : F → F)
    (sqrt sin : F → F) (pow : F → F → F) (normalize : Vec F → Vec F) (Rand : G → Nat × G)
    (RAND_MAX r : Nat) (hpos : 0 < RAND_MAX) (hr : r ≤ RAND_MAX)
    (hmono : Monotone rnd) (h0 : rnd 0 = 0) (h1 : rnd 1 = 1) :
    (0 ≤ FVectorKernelRandom.factor (exactPlatform sqrt sin pow normalize Rand RAND_MAX) r ∧
      FVectorKernelRandom.factor (exactPlatform sqrt sin pow normalize Rand RAND_MAX) r ≤ 1 ∧
      FVectorKernelRandom.factor (exactPlatform sqrt sin pow normalize Rand RAND_MAX)
        RAND_MAX = 1) ∧
    (0 ≤ FVectorKernelRandom.factor
        (roundedPlatform rnd sqrt sin pow normalize Rand RAND_MAX) r ∧
      FVectorKernelRandom.factor
        (roundedPlatform rnd sqrt sin pow normalize Rand RAND_MAX) r ≤ 1 ∧
      FVectorKernelRandom.factor (roundedPlatform rnd sqrt sin pow normalize Rand RAND_MAX)
        RAND_MAX = 1) := by
  have hp : (0 : F) < (RAND_MAX : F) := by exact_mod_cast hpos
  have hrF : (r : F) ≤ (RAND_MAX : F) := by exact_mod_cast hr
  have ha : 0 ≤ rnd (r : F) := by
    rw [← h0]
    exact hmono (Nat.cast_nonneg r)
  have hab : rnd (r : F) ≤ rnd (RAND_MAX : F) := hmono hrF
  have hb : 0 < rnd (RAND_MAX : F) := by
    have h2 : (1 : F) ≤ (RAND_MAX : F) := by exact_mod_cast hpos
    have h3 := hmono h2
    rw [h1] at h3
    exact lt_of_lt_of_le one_pos h3
  simp only [FVectorKernelRandom.factor, exactPlatform, roundedPlatform]
  refine ⟨⟨by positivity, ?_, div_self hp.ne'⟩, ?_, ?_, ?_⟩
  · rw [div_le_one hp]
    exact hrF
  · rw [← h0]
    exact hmono (div_nonneg ha hb.le)
  · rw [← h1]
    exact hmono ((div_le_one hb).mpr hab)
  · rw [div_self hb.ne', h1]

/-- Witness of C20: the value 5 with `RAND_MAX = 32767`, rounding down to an integer. -/
theorem random_factor_closed_unit_interval_witness :
    (0 ≤ FVectorKernelRandom.factor
        (exactPlatform id id (fun a _ => a) id ratPlatform.Rand 32767 : Platform ℚ Nat) 5 ∧
      FVectorKernelRandom.factor
        (exactPlatform id id (fun a _ => a) id ratPlatform.Rand 32767 : Platform ℚ Nat) 5 ≤ 1 ∧
      FVectorKernelRandom.factor
        (exactPlatform id id (fun a _ => a) id ratPlatform.Rand 32767 : Platform ℚ Nat)
        32767 = 1) ∧
    (0 ≤ FVectorKernelRandom.factor
        (roundedPlatform (fun q : ℚ => ((⌊q⌋ : Int) : ℚ)) id id (fun a _ => a) id
          ratPlatform.Rand 32767 : Platform ℚ Nat) 5 ∧
      FVectorKernelRandom.factor
        (roundedPlatform (fun q : ℚ => ((⌊q⌋ : Int) : ℚ)) id id (fun a _ => a) id
          ratPlatform.Rand 32767 : Platform ℚ Nat) 5 ≤ 1 ∧
      FVectorKernelRandom.factor
        (roundedPlatform (fun q : ℚ => ((⌊q⌋ : Int) : ℚ)) id id (fun a _ => a) id
          ratPlatform.Rand 32767 : Platform ℚ Nat) 32767 = 1) :=
  random_factor_closed_unit_interval (fun q : ℚ => ((⌊q⌋ : Int) : ℚ)) id id (fun a _ => a) id
    ratPlatform.Rand 32767 5 (by decide) (by decide)
    (fun _ _ h => Int.cast_le.mpr (Int.floor_mono h)) (by simp) (by simp)

/-- C20 as stated fails at `r = RAND_MAX`: the factor is 1, which is not less than 1.  The
generator state 24884 makes `FMath::Rand` return `RAND_MAX`. -/
theorem random_factor_reaches_one :
    (ratPlatform.Rand 24884).1 = ratPlatform.RAND_MAX ∧
    (0 ≤ ratPlatform.RAND_MAX ∧ ratPlatform.RAND_MAX ≤ ratPlatform.RAND_MAX) ∧
    FVectorKernelRandom.factor ratPlatform ratPlatform.RAND_MAX = 1 ∧
    ¬ (FVectorKernelRandom.factor ratPlatform ratPlatform.RAND_MAX < 1) := by
  have h1 : (ratPlatform.Rand 24884).1 = 32767 := by decide
  have h2 : FVectorKernelRandom.factor ratPlatform ratPlatform.RAND_MAX = 1 := by
    simp [FVectorKernelRandom.factor, ratPlatform]
  refine ⟨h1, ⟨Nat.zero_le _, le_refl _⟩, h2, ?_⟩
  rw [h2]
  exact lt_irrefl 1

end KernelLibrary

/-! ## The dispatchers on wired descriptors (C21 - C23, C29, C30) -/

section Dispatchers
variable {F G : Type}

/-- A wired descriptor decodes the operand bytes as the bit mask says. -/
theorem decodeKernel_mask (k : KernelClass) (dst d : Nat) (ops rest : List Nat)
    (hw : wiredDescriptor k d = true) (hlen : ops.length = k.arity) :
    ∃ ins, decodeKernel k (dst :: d :: (ops ++ rest)) = some (ins, rest) ∧ ins.wired = true ∧
      ins.dst = dst ∧ ins.srcs = maskOperands d ops ∧
      (k ≠ .unary .Random → ins.usesRandom = false) := by
  have hrand : ∀ (k2 : UnaryKernel) (x : Nat) (o : Operand),
      KernelClass.unary k2 ≠ .unary .Random → (Instr.un k2 x o).usesRandom = false := by
    intro k2 x o h
    cases k2 <;> first | rfl | exact absurd rfl h
  have hm : ∀ (x : Nat) (l : List Nat), maskOperands x l =
      (l.enum.map fun kb =>
        if descriptorBit x kb.1 then Operand.const kb.2 else Operand.reg kb.2) := fun _ _ => rfl
  cases k with
  | unary k =>
    obtain ⟨a, rfl⟩ : ∃ a, ops = [a] := by
      rcases ops with _ | ⟨a, _ | ⟨b, tl⟩⟩ <;> simp [KernelClass.arity] at hlen
      exact ⟨a, rfl⟩
    simp only [wiredDescriptor, decide_eq_true_eq] at hw
    rcases hw with rfl | rfl <;> refine ⟨_, rfl, rfl, rfl, ?_, hrand k _ _⟩ <;>
      simp [Instr.srcs, hm, descriptorBit, SRCOP_RRR, SRCOP_RRC, List.enum, List.enumFrom]
  | binary k =>
    obtain ⟨a, b, rfl⟩ : ∃ a b, ops = [a, b] := by
      rcases ops with _ | ⟨a, _ | ⟨b, _ | ⟨c, tl⟩⟩⟩ <;> simp [KernelClass.arity] at hlen
      exact ⟨a, b, rfl⟩
    simp only [wiredDescriptor, decide_eq_true_eq] at hw
    rcases hw with rfl | rfl | rfl | rfl <;> refine ⟨_, rfl, rfl, rfl, ?_, fun _ => rfl⟩ <;>
      simp [Instr.srcs, hm, descriptorBit, SRCOP_RRR, SRCOP_RRC, SRCOP_RCR, SRCOP_RCC,
        List.enum, List.enumFrom]
  | trinary k =>
    obtain ⟨a, b, c, rfl⟩ : ∃ a b c, ops = [a, b, c] := by
      rcases ops with _ | ⟨a, _ | ⟨b, _ | ⟨c, _ | ⟨e, tl⟩⟩⟩⟩ <;> simp [KernelClass.arity] at hlen
      exact ⟨a, b, c, rfl⟩
    simp only [wiredDescriptor, decide_eq_true_eq] at hw
    rcases hw with rfl | rfl | rfl | rfl | rfl | rfl <;>
      refine ⟨_, rfl, rfl, rfl, ?_, fun _ => rfl⟩ <;>
      simp [Instr.srcs, hm, descriptorBit, SRCOP_RRR, SRCOP_RRC, SRCOP_RCR, SRCOP_RCC,
        SRCOP_CCR, SRCOP_CCC, List.enum, List.enumFrom]

/-- The dispatcher of a kernel class on a wired descriptor: one lane loop whose body
applies the kernel to the operands the bit mask selects, then the cursor is behind
the operand bytes. -/
theorem KernelClass.Exec_mask (P : Platform F G) (k : KernelClass) (dst d : Nat)
    (ops rest : List Nat) (T : Nat → Option Ptr) (C : Nat → Vec F) (n : Int) (m : Memory F G)
    (hw : wiredDescriptor k d = true) (hlen : ops.length = k.arity) :
    k.Exec P ⟨dst :: d :: (ops ++ rest), T, C, n⟩ m =
      (forLanes (fun i m2 => (readAll T C m2 i (maskOperands d ops)).bind (k.apply P m2.seed))
        (T dst) n m).bind fun m2 => .ok (⟨rest, T, C, n⟩, m2) := by
  obtain ⟨ins, h1, hw1, hd1, hs1, -⟩ := decodeKernel_mask k dst d ops rest hw hlen
  obtain ⟨ins2, h2, -, -, -, hbody⟩ := decodeKernel_wired P T C k dst d ops rest hw hlen
  rw [h1] at h2
  cases h2
  rw [KernelClass.Exec_eq]
  simp only [h1]
  rw [Instr.exec_wired P T C n ins m hw1, hd1]
  have hb : ins.body P T C =
      fun i m2 => (readAll T C m2 i (maskOperands d ops)).bind (k.apply P m2.seed) := by
    funext i m2
    rw [hbody i m2, hs1]
  rw [hb]

/-- Closed form of the lane loop with the generator state threaded through the lanes. -/
theorem laneLoop_closed_seeded (body : Nat → Memory F G → Option (Vec F × G)) (d : Ptr)
    (val : Nat → Vec F) (sd : Nat → G) (m : Memory F G) (k i : Nat)
    (hb : ∀ j, i ≤ j → j < i + k →
      body j { (m.writeLanes d j val) with seed := sd j } = some (val j, sd (j + 1))) :
    laneLoop body (some d) k i { (m.writeLanes d i val) with seed := sd i } =
      .ok { (m.writeLanes d (i + k) val) with seed := sd (i + k) } := by
  induction k generalizing i with
  | zero => rfl
  | succ k ih =>
    have h0 := hb i (le_refl i) (by omega)
    simp only [laneLoop, h0]
    have e : ({ ({ (m.writeLanes d i val) with seed := sd i } : Memory F G).store d i (val i)
        with seed := sd (i + 1) } : Memory F G) =
        { (m.writeLanes d (i + 1) val) with seed := sd (i + 1) } := by
      rw [Memory.ext_iff]
      refine ⟨?_, rfl⟩
      have h := (Memory.ext_iff.mp (Memory.writeLanes_succ m d i val)).1
      exact h
    rw [e]
    have := ih (i + 1) (fun j h1 h2 => hb j (by omega) (by omega))
    rw [this]
    have e2 : i + 1 + k = i + (k + 1) := by omega
    rw [e2]

/-- A wired instruction all of whose registers are bound runs to completion; lane `j` of
its destination afterwards is the kernel result on lane `j` of the memory it started
from, with the generator state the earlier lanes left. -/
theorem Instr.exec_lanewise_seeded (P : Platform F G) (T : Nat → Option Ptr) (C : Nat → Vec F)
    (hT : TableOK T) (ins : Instr) (hw : ins.wired = true)
    (hb : ∀ r ∈ ins.regs, (T r).isSome = true) (n : Nat) (m : Memory F G) :
    ∃ (m2 : Memory F G) (g : Nat → G), ins.exec P T C (n : Int) m = .ok m2 ∧ g 0 = m.seed ∧
      m2.seed = g n ∧
      (∀ j, j < n →
        ins.result P C (g j) (m.lane T j) = some (m2.lane T j ins.dst, g (j + 1))) ∧
      (ins.usesRandom = false → ∀ j, g j = m.seed) := by
  have hdst := hb ins.dst (Instr.dst_mem_regs ins hw)
  obtain ⟨d, hd⟩ := Option.isSome_iff_exists.mp hdst
  have hsrc : ∀ r ∈ ins.srcRegs, (T r).isSome = true :=
    fun r h => hb r (Instr.srcRegs_subset_regs ins r h)
  have hres : ∀ j g, ∃ vg, ins.result P C g (m.lane T j) = some vg :=
    fun j g => Instr.result_wired P C ins g (m.lane T j) hw
  choose res hres2 using hres
  let g : Nat → G := fun j => Nat.rec m.seed (fun i acc => (res i acc).2) j
  have hg : ∀ j, g (j + 1) = (res j (g j)).2 := fun j => rfl
  let val : Nat → Vec F := fun j => (res j (g j)).1
  have hloop := laneLoop_closed_seeded (ins.body P T C) d val g m n 0 (by
    intro j _ _
    rw [Instr.body_eq_result P T C ins j _ hw hsrc]
    have e1 : ({ (m.writeLanes d j val) with seed := g j } : Memory F G).seed = g j := rfl
    have e2 : ({ (m.writeLanes d j val) with seed := g j } : Memory F G).lane T j =
        (m.writeLanes d j val).lane T j := rfl
    rw [e1, e2, Instr.result_congr P C ins (g j) _ (m.lane T j)
      (fun r h => Memory.lane_writeLanes T hT m ins.dst d hd j val r (hsrc r h)), hres2 j (g j),
      hg j])
  have e0 : ({ (m.writeLanes d 0 val) with seed := g 0 } : Memory F G) = m := by
    rw [Memory.writeLanes_zero, Memory.ext_iff]
    exact ⟨rfl, rfl⟩
  rw [e0, Nat.zero_add] at hloop
  refine ⟨{ (m.writeLanes d n val) with seed := g n }, g, ?_, rfl, rfl, ?_, ?_⟩
  · rw [Instr.exec_wired P T C _ ins m hw, forLanes, hd, Int.toNat_ofNat]
    exact hloop
  · intro j hj
    rw [hres2 j (g j), hg j]
    congr 2
    simp only [Memory.lane, hd, Memory.writeLanes]
    rw [if_pos ⟨trivial, trivial, by omega, by omega⟩]
    simp [val]
  · intro hr j
    induction j with
    | zero => rfl
    | succ j ih =>
      rw [hg j, ih]
      exact Instr.result_seed P C ins m.seed _ _ hr (by rw [← ih]; exact hres2 j (g j))

/-- The kernel result of a decoded instruction is the kernel of its class applied to
the values of its operands. -/
theorem Instr.result_eq_apply (P : Platform F G) (C : Nat → Vec F) (k : KernelClass)
    (dst d : Nat) (ops rest : List Nat) (ins : Instr)
    (hw : wiredDescriptor k d = true) (hlen : ops.length = k.arity)
    (h : decodeKernel k (dst :: d :: (ops ++ rest)) = some (ins, rest)) (g : G)
    (R : Nat → Vec F) :
    ins.result P C g R = k.apply P g (ins.srcs.map (Operand.value C R)) := by
  cases k with
  | unary k =>
    obtain ⟨a, rfl⟩ : ∃ a, ops = [a] := by
      rcases ops with _ | ⟨a, _ | ⟨b, tl⟩⟩ <;> simp [KernelClass.arity] at hlen
      exact ⟨a, rfl⟩
    simp only [wiredDescriptor, decide_eq_true_eq] at hw
    rcases hw with rfl | rfl <;> (cases h; rfl)
  | binary k =>
    obtain ⟨a, b, rfl⟩ : ∃ a b, ops = [a, b] := by
      rcases ops with _ | ⟨a, _ | ⟨b, _ | ⟨c, tl⟩⟩⟩ <;> simp [KernelClass.arity] at hlen
      exact ⟨a, b, rfl⟩
    simp only [wiredDescriptor, decide_eq_true_eq] at hw
    rcases hw with rfl | rfl | rfl | rfl <;> (cases h; rfl)
  | trinary k =>
    obtain ⟨a, b, c, rfl⟩ : ∃ a b c, ops = [a, b, c] := by
      rcases ops with _ | ⟨a, _ | ⟨b, _ | ⟨c, _ | ⟨e, tl⟩⟩⟩⟩ <;> simp [KernelClass.arity] at hlen
      exact ⟨a, b, c, rfl⟩
    simp only [wiredDescriptor, decide_eq_true_eq] at hw
    rcases hw with rfl | rfl | rfl | rfl | rfl | rfl <;> (cases h; rfl)

/-- The registers of a decoded wired instruction are bound when its destination and
its register-sourced operands are. -/
theorem Instr.regs_bound (T : Nat → Option Ptr) (ins : Instr) (hw : ins.wired = true)
    (hdst : (T ins.dst).isSome = true)
    (hsrc : ∀ o ∈ ins.srcs, ∀ r, o = Operand.reg r → (T r).isSome = true) :
    ∀ r ∈ ins.regs, (T r).isSome = true := by
  intro r hr
  have h : r = ins.dst ∨ r ∈ ins.srcRegs := by
    cases ins <;> first | (simp [Instr.wired] at hw; done) | simpa [Instr.regs] using hr
  rcases h with rfl | h
  · exact hdst
  · exact hsrc _ (Instr.mem_srcRegs.mp h) r rfl

/-- Operands that are bound in the Boolean sense have their registers bound. -/
theorem Operand.bound_all {T : Nat → Option Ptr} {os : List Operand}
    (h : os.all (Operand.bound T) = true) :
    ∀ o ∈ os, ∀ r, o = Operand.reg r → (T r).isSome = true := by
  intro o ho r hr
  subst hr
  exact List.all_eq_true.mp h _ ho

/-- C21: a wired instruction executed over `n` lanes with a register table that binds its
registers (and binds no array twice) completes, and for every lane `i < n` the value
written to lane `i` of the destination is the kernel applied to the source operands
at lane `i`: a register-sourced operand contributes lane `i` of its register as it was
when the instruction started (also when that register is the destination), a
constant-sourced operand the same constant-table vector for every lane.  The
generator state `g i` a kernel receives is the one the earlier lanes left; it is the
state at the start for every kernel but `random`. -/
theorem wired_instruction_lanes (P : Platform F G) (k : KernelClass) (dst d : Nat)
    (ops rest : List Nat) (T : Nat → Option Ptr) (C : Nat → Vec F) (n : Nat) (m : Memory F G)
    (hw : wiredDescriptor k d = true) (hlen : ops.length = k.arity) (hT : TableOK T)
    (hdst : (T dst).isSome = true)
    (hsrc : (maskOperands d ops).all (Operand.bound T) = true) :
    ∃ (m2 : Memory F G) (g : Nat → G),
      k.Exec P ⟨dst :: d :: (ops ++ rest), T, C, n⟩ m = .ok (⟨rest, T, C, n⟩, m2) ∧
      g 0 = m.seed ∧ m2.seed = g n ∧
      (∀ i, i < n →
        k.apply P (g i) ((maskOperands d ops).map (Operand.value C (m.lane T i))) =
          some (m2.lane T i dst, g (i + 1))) ∧
      (k ≠ .unary .Random → ∀ i, g i = m.seed) := by
  obtain ⟨ins, h1, hw1, hd1, hs1, hr1⟩ := decodeKernel_mask k dst d ops rest hw hlen
  have hb := Instr.regs_bound T ins hw1 (by rw [hd1]; exact hdst) (by rw [hs1]; exact Operand.bound_all hsrc)
  obtain ⟨m2, g, e1, e2, e3, e4, e5⟩ := Instr.exec_lanewise_seeded P T C hT ins hw1 hb n m
  refine ⟨m2, g, ?_, e2, e3, ?_, fun h => e5 (hr1 h)⟩
  · rw [KernelClass.Exec_eq]
    simp only [h1, e1, Outcome.bind_ok]
  · intro i hi
    have := e4 i hi
    rw [Instr.result_eq_apply P C k dst d ops rest ins hw hlen h1, hs1, hd1] at this
    exact this

/-- C29: a wired instruction executed over `n` lanes, whose destination is bound to the
array `p` and whose register operands are bound, completes and changes only lanes
`0 .. n-1` of the destination array: every other element of every array, in
particular every lane `>= n` of the destination and every lane of a register bound
to another array, is as before, and the register table and the constant table of
the context are the same after the instruction as before. -/
theorem wired_instruction_frame (P : Platform F G) (k : KernelClass) (dst d : Nat)
    (ops rest : List Nat) (T : Nat → Option Ptr) (C : Nat → Vec F) (n : Nat) (m : Memory F G)
    (p : Ptr) (hw : wiredDescriptor k d = true) (hlen : ops.length = k.arity)
    (hdst : T dst = some p)
    (hsrc : (maskOperands d ops).all (Operand.bound T) = true) :
    ∃ (ctx : FVectorVMContext F) (m2 : Memory F G),
      k.Exec P ⟨dst :: d :: (ops ++ rest), T, C, n⟩ m = .ok (ctx, m2) ∧
      ctx.RegisterTable = T ∧ ctx.ConstantTable = C ∧ ctx.Code = rest ∧
      (∀ b r o, ¬(b = p.bank ∧ r = p.reg ∧ p.off ≤ o ∧ o < p.off + n) →
        m2.cell b r o = m.cell b r o) ∧
      (∀ j, n ≤ j → m2.cell p.bank p.reg (p.off + j) = m.cell p.bank p.reg (p.off + j)) ∧
      (∀ s q, T s = some q → ¬(q.bank = p.bank ∧ q.reg = p.reg) →
        ∀ j, m2.cell q.bank q.reg (q.off + j) = m.cell q.bank q.reg (q.off + j)) := by
  obtain ⟨ins, h1, hw1, hd1, hs1, -⟩ := decodeKernel_mask k dst d ops rest hw hlen
  have hb := Instr.regs_bound T ins hw1 (by rw [hd1, hdst]; rfl) (by rw [hs1]; exact Operand.bound_all hsrc)
  obtain ⟨m2, e1⟩ := Instr.exec_ok P T C (n : Int) ins m hb
  have hframe : ∀ b r o, ¬(b = p.bank ∧ r = p.reg ∧ p.off ≤ o ∧ o < p.off + n) →
      m2.cell b r o = m.cell b r o := by
    intro b r o hn
    apply Instr.exec_frame P T C (n : Int) ins m m2 e1 b r o
    intro _ q hq
    rw [hd1, hdst] at hq
    cases hq
    rintro ⟨a1, a2, a3, a4⟩
    exact hn ⟨a1, a2, by omega, by omega⟩
  refine ⟨⟨rest, T, C, n⟩, m2, ?_, rfl, rfl, rfl, hframe, ?_, ?_⟩
  · rw [KernelClass.Exec_eq]
    simp only [h1, e1, Outcome.bind_ok]
  · intro j hj
    apply hframe
    rintro ⟨-, -, -, a4⟩
    omega
  · intro s q _ hne j
    apply hframe
    rintro ⟨a1, a2, -, -⟩
    exact hne ⟨a1, a2⟩

/-- Witness of C21: the instruction `mad r1, r9, r9, r0` of the test program over two
lanes of the first chunk. -/
theorem wired_instruction_lanes_witness :
    ∃ (m2 : Memory ℚ Nat) (g : Nat → Nat),
      (KernelClass.trinary .Mad).Exec ratPlatform
          ⟨0x01 :: SRCOP_RRR :: ([0x09, 0x09, 0x00] ++ [0x00]), chunkTable testHeader 3 1 0,
            TestConstants, (2 : Nat)⟩ (TestMemory 0) =
        .ok (⟨[0x00], chunkTable testHeader 3 1 0, TestConstants, (2 : Nat)⟩, m2) ∧
      g 0 = (TestMemory 0).seed ∧ m2.seed = g 2 ∧
      (∀ i, i < 2 →
        (KernelClass.trinary .Mad).apply ratPlatform (g i)
            ((maskOperands SRCOP_RRR [0x09, 0x09, 0x00]).map
              (Operand.value TestConstants ((TestMemory 0).lane (chunkTable testHeader 3 1 0) i))) =
          some (m2.lane (chunkTable testHeader 3 1 0) i 0x01, g (i + 1))) ∧
      (KernelClass.trinary .Mad ≠ .unary .Random → ∀ i, g i = (TestMemory 0).seed) :=
  wired_instruction_lanes ratPlatform (.trinary .Mad) 0x01 SRCOP_RRR [0x09, 0x09, 0x00] [0x00]
    (chunkTable testHeader 3 1 0) TestConstants 2 (TestMemory 0) (by decide) (by decide)
    (chunkTable_ok testHeader 3 1 0) (by decide) (by decide)

/-- Witness of C29: the instruction `clamp r40, r0, c2, c3` of the test program, whose
destination is the output array. -/
theorem wired_instruction_frame_witness :
    ∃ (ctx : FVectorVMContext ℚ) (m2 : Memory ℚ Nat),
      (KernelClass.trinary .Clamp).Exec ratPlatform
          ⟨0x28 :: SRCOP_CCR :: ([0x00, 0x02, 0x03] ++ [0x00]), chunkTable testHeader 3 1 0,
            TestConstants, (2 : Nat)⟩ (TestMemory 0) = .ok (ctx, m2) ∧
      ctx.RegisterTable = chunkTable testHeader 3 1 0 ∧ ctx.ConstantTable = TestConstants ∧
      ctx.Code = [0x00] ∧
      (∀ b r o, ¬(b = (⟨Bank.Output, 0, 0⟩ : Ptr).bank ∧ r = (⟨Bank.Output, 0, 0⟩ : Ptr).reg ∧
          (⟨Bank.Output, 0, 0⟩ : Ptr).off ≤ o ∧ o < (⟨Bank.Output, 0, 0⟩ : Ptr).off + 2) →
        m2.cell b r o = (TestMemory 0).cell b r o) ∧
      (∀ j, 2 ≤ j →
        m2.cell (⟨Bank.Output, 0, 0⟩ : Ptr).bank (⟨Bank.Output, 0, 0⟩ : Ptr).reg
            ((⟨Bank.Output, 0, 0⟩ : Ptr).off + j) =
          (TestMemory 0).cell (⟨Bank.Output, 0, 0⟩ : Ptr).bank (⟨Bank.Output, 0, 0⟩ : Ptr).reg
            ((⟨Bank.Output, 0, 0⟩ : Ptr).off + j)) ∧
      (∀ s q, chunkTable testHeader 3 1 0 s = some q →
        ¬(q.bank = (⟨Bank.Output, 0, 0⟩ : Ptr).bank ∧ q.reg = (⟨Bank.Output, 0, 0⟩ : Ptr).reg) →
        ∀ j, m2.cell q.bank q.reg (q.off + j) = (TestMemory 0).cell q.bank q.reg (q.off + j)) :=
  wired_instruction_frame ratPlatform (.trinary .Clamp) 0x28 SRCOP_CCR [0x00, 0x02, 0x03] [0x00]
    (chunkTable testHeader 3 1 0) TestConstants 2 (TestMemory 0) ⟨Bank.Output, 0, 0⟩
    (by decide) (by decide) (by decide) (by decide)

/-- The operand a descriptor read as a bit mask assigns to operand byte `j`. -/
theorem maskOperands_get (d : Nat) (ops : List Nat) (j : Nat) :
    (maskOperands d ops)[j]? =
      ops[j]?.map fun b => if descriptorBit d j then Operand.const b else Operand.reg b := by
  simp only [maskOperands, List.getElem?_map, List.getElem?_enum]
  cases ops[j]? <;> rfl

/-- C30: in all three dispatchers the descriptor is a bit mask over the operand
positions: for every wired descriptor `d` of the dispatcher of a kernel class and
operand bytes `ops`, the dispatcher runs the lane loop on the operands
`maskOperands d ops`, in which operand `j` is the constant with index `ops[j]`
(read with `DecodeConstant`) if bit `j` of `d` is set, and the register with index
`ops[j]` (read with `DecodeRegister`) if it is clear. -/
theorem descriptor_is_bit_mask (P : Platform F G) (k : KernelClass) (dst d : Nat)
    (ops rest : List Nat) (T : Nat → Option Ptr) (C : Nat → Vec F) (n : Int) (m : Memory F G)
    (hw : wiredDescriptor k d = true) (hlen : ops.length = k.arity) :
    k.Exec P ⟨dst :: d :: (ops ++ rest), T, C, n⟩ m =
        (forLanes (fun i m2 => (readAll T C m2 i (maskOperands d ops)).bind (k.apply P m2.seed))
          (T dst) n m).bind (fun m2 => .ok (⟨rest, T, C, n⟩, m2)) ∧
      (maskOperands d ops).length = k.arity ∧
      ∀ j, j < k.arity →
        (maskOperands d ops)[j]? =
          ops[j]?.map fun b => if d / 2 ^ j % 2 = 1 then Operand.const b else Operand.reg b := by
  refine ⟨KernelClass.Exec_mask P k dst d ops rest T C n m hw hlen, ?_, ?_⟩
  · simp [maskOperands, hlen]
  · intro j _
    rw [maskOperands_get]
    cases ops[j]? <;> simp [descriptorBit]

/-- Witness of C30: the descriptor `SRCOP_CCR` = 0x06 of the `clamp` of the test program:
operand 0 is register `r0`, operands 1 and 2 are the constants `c2` and `c3`. -/
theorem descriptor_is_bit_mask_witness :
    maskOperands SRCOP_CCR [0x00, 0x02, 0x03] = [.reg 0x00, .const 0x02, .const 0x03] ∧
    ((KernelClass.trinary .Clamp).Exec ratPlatform
          ⟨0x28 :: SRCOP_CCR :: ([0x00, 0x02, 0x03] ++ [0x00]), chunkTable testHeader 3 1 0,
            TestConstants, 2⟩ (TestMemory 0) =
        (forLanes (fun i m2 => (readAll (chunkTable testHeader 3 1 0) TestConstants m2 i
              (maskOperands SRCOP_CCR [0x00, 0x02, 0x03])).bind
            ((KernelClass.trinary .Clamp).apply ratPlatform m2.seed))
          (chunkTable testHeader 3 1 0 0x28) 2 (TestMemory 0)).bind
          (fun m2 => .ok (⟨[0x00], chunkTable testHeader 3 1 0, TestConstants, 2⟩, m2)) ∧
      (maskOperands SRCOP_CCR [0x00, 0x02, 0x03]).length = (KernelClass.trinary .Clamp).arity ∧
      ∀ j, j < (KernelClass.trinary .Clamp).arity →
        (maskOperands SRCOP_CCR [0x00, 0x02, 0x03])[j]? =
          ([0x00, 0x02, 0x03] : List Nat)[j]?.map fun b =>
            if SRCOP_CCR / 2 ^ j % 2 = 1 then Operand.const b else Operand.reg b) :=
  ⟨by decide, descriptor_is_bit_mask ratPlatform (.trinary .Clamp) 0x28 SRCOP_CCR
    [0x00, 0x02, 0x03] [0x00] (chunkTable testHeader 3 1 0) TestConstants 2 (TestMemory 0)
    (by decide) (by decide)⟩

/-- A binary dispatcher on a descriptor other than 0x00 .. 0x03 reads no operand and
leaves the memory as it is. -/
theorem binaryExec_unwired (K : G → Vec F → Vec F → Vec F × G) (dst d : Nat)
    (rest : List Nat) (T : Nat → Option Ptr) (C : Nat → Vec F) (n : Int) (m : Memory F G)
    (h0 : d ≠ 0) (h1 : d ≠ 1) (h2 : d ≠ 2) (h3 : d ≠ 3) :
    TBinaryVectorKernel.Exec K ⟨dst :: d :: rest, T, C, n⟩ m = .ok (⟨rest, T, C, n⟩, m) := by
  simp only [TBinaryVectorKernel.Exec, DecodeRegister, DecodeSrcOperandTypes, nextByte_cons,
    Outcome.monad_bind, Outcome.bind_ok, Outcome.monad_pure, SRCOP_RRR, SRCOP_RRC, SRCOP_RCR,
    SRCOP_RCC]
  rw [if_neg h0, if_neg h1, if_neg h2, if_neg h3]

/-- A trinary dispatcher on a descriptor other than 0x00 .. 0x03, 0x06 and 0x07 reads no
operand and leaves the memory as it is. -/
theorem trinaryExec_unwired (K : G → Vec F → Vec F → Vec F → Vec F × G)
    (dst d : Nat) (rest : List Nat) (T : Nat → Option Ptr) (C : Nat → Vec F) (n : Int)
    (m : Memory F G) (h0 : d ≠ 0) (h1 : d ≠ 1) (h2 : d ≠ 2) (h3 : d ≠ 3) (h6 : d ≠ 6)
    (h7 : d ≠ 7) :
    TTrinaryVectorKernel.Exec K ⟨dst :: d :: rest, T, C, n⟩ m = .ok (⟨rest, T, C, n⟩, m) := by
  simp only [TTrinaryVectorKernel.Exec, DecodeRegister, DecodeSrcOperandTypes, nextByte_cons,
    Outcome.monad_bind, Outcome.bind_ok, Outcome.monad_pure, SRCOP_RRR, SRCOP_RRC, SRCOP_RCR,
    SRCOP_RCC, SRCOP_CCR, SRCOP_CCC]
  rw [if_neg h0, if_neg h1, if_neg h7, if_neg h6, if_neg h3, if_neg h2]

theorem wiredDescriptor_binary (k : BinaryKernel) (d : Nat) :
    wiredDescriptor (.binary k) d = true ↔ d = 0 ∨ d = 1 ∨ d = 2 ∨ d = 3 := by
  simp [wiredDescriptor, SRCOP_RRR, SRCOP_RRC, SRCOP_RCR, SRCOP_RCC]

theorem wiredDescriptor_trinary (k : TrinaryKernel) (d : Nat) :
    wiredDescriptor (.trinary k) d = true ↔ d = 0 ∨ d = 1 ∨ d = 2 ∨ d = 3 ∨ d = 6 ∨ d = 7 := by
  simp only [wiredDescriptor, SRCOP_RRR, SRCOP_RRC, SRCOP_RCR, SRCOP_RCC, SRCOP_CCR, SRCOP_CCC,
    decide_eq_true_eq]
  omega

/-- C22 as stated fails: of the descriptor values 0x00 .. 0x07 the trinary dispatcher
wires six, not seven: 0x00, 0x01, 0x02, 0x03, 0x06 and 0x07.  On `SRCOP_CRC` = 0x05,
which has a name but no case, and on 0x04 it reads no operand and runs no kernel:
the memory is unchanged and the cursor is left on the first operand byte. -/
theorem trinary_wires_six_not_seven :
    (List.range 8).filter (fun d => wiredDescriptor (.trinary .Mad) d) = [0, 1, 2, 3, 6, 7] ∧
    ((List.range 8).filter (fun d => wiredDescriptor (.trinary .Mad) d)).length ≠ 7 ∧
    SRCOP_CRC = 0x05 ∧
    (∀ (F G : Type) (K : G → Vec F → Vec F → Vec F → Vec F × G) (dst a b c : Nat)
      (rest : List Nat) (T : Nat → Option Ptr) (C : Nat → Vec F) (n : Int) (m : Memory F G),
      TTrinaryVectorKernel.Exec K ⟨dst :: SRCOP_CRC :: a :: b :: c :: rest, T, C, n⟩ m =
          .ok (⟨a :: b :: c :: rest, T, C, n⟩, m) ∧
        TTrinaryVectorKernel.Exec K ⟨dst :: 0x04 :: a :: b :: c :: rest, T, C, n⟩ m =
          .ok (⟨a :: b :: c :: rest, T, C, n⟩, m)) := by
  refine ⟨by decide, by decide, rfl, ?_⟩
  intro F G K dst a b c rest T C n m
  exact ⟨trinaryExec_unwired K dst SRCOP_CRC _ T C n m (by decide) (by decide)
      (by decide) (by decide) (by decide) (by decide),
    trinaryExec_unwired K dst 0x04 _ T C n m (by decide) (by decide)
      (by decide) (by decide) (by decide) (by decide)⟩

/-- C22 (amended): the trinary dispatcher implements six wired operand-descriptor
patterns out of the eight register/constant combinations of three source operands:
exactly the six descriptor values 0x00, 0x01, 0x02, 0x03, 0x06 and 0x07 select a case
that reads the three operands and runs the kernel, each with another combination of
operand kinds; every other descriptor value reads no operand and runs no kernel. -/
theorem trinary_wired_patterns (P : Platform F G) (k : TrinaryKernel) (dst d a b c : Nat)
    (rest : List Nat) (T : Nat → Option Ptr) (C : Nat → Vec F) (n : Int) (m : Memory F G) :
    ((d = 0 ∨ d = 1 ∨ d = 2 ∨ d = 3 ∨ d = 6 ∨ d = 7) →
      TTrinaryVectorKernel.Exec (k.DoKernel P) ⟨dst :: d :: a :: b :: c :: rest, T, C, n⟩ m =
        (forLanes (fun i m2 => (readAll T C m2 i (maskOperands d [a, b, c])).bind
            ((KernelClass.trinary k).apply P m2.seed)) (T dst) n m).bind
          (fun m2 => .ok (⟨rest, T, C, n⟩, m2))) ∧
    (¬(d = 0 ∨ d = 1 ∨ d = 2 ∨ d = 3 ∨ d = 6 ∨ d = 7) →
      TTrinaryVectorKernel.Exec (k.DoKernel P) ⟨dst :: d :: a :: b :: c :: rest, T, C, n⟩ m =
        .ok (⟨a :: b :: c :: rest, T, C, n⟩, m)) ∧
    ([0, 1, 2, 3, 6, 7].map fun x => (maskOperands x [a, b, c]).map Operand.isConst) =
      [[false, false, false], [true, false, false], [false, true, false],
       [true, true, false], [false, true, true], [true, true, true]] := by
  refine ⟨?_, ?_, ?_⟩
  · intro h
    exact KernelClass.Exec_mask P (.trinary k) dst d [a, b, c] rest T C n m
      ((wiredDescriptor_trinary k d).mpr h) rfl
  · intro h
    exact trinaryExec_unwired _ dst d _ T C n m (fun e => h (by omega))
      (fun e => h (by omega)) (fun e => h (by omega)) (fun e => h (by omega))
      (fun e => h (by omega)) (fun e => h (by omega))
  · simp [maskOperands, descriptorBit, List.enum, List.enumFrom, Operand.isConst]

/-- C23: the binary dispatcher wires exactly the four descriptor values 0x00, 0x01, 0x02
and 0x03 (every other value reads no operand and runs no kernel), and the four cases
realise the four register/constant combinations of two source operands: 0x00 reads
two registers, 0x01 a constant and a register, 0x02 a register and a constant, 0x03
two constants; each combination is selected by exactly one wired descriptor value. -/
theorem binary_wires_four_patterns (P : Platform F G) (k : BinaryKernel) (dst d a b : Nat)
    (rest : List Nat) (T : Nat → Option Ptr) (C : Nat → Vec F) (n : Int) (m : Memory F G) :
    ((d = 0 ∨ d = 1 ∨ d = 2 ∨ d = 3) →
      TBinaryVectorKernel.Exec (k.DoKernel P) ⟨dst :: d :: a :: b :: rest, T, C, n⟩ m =
        (forLanes (fun i m2 => (readAll T C m2 i (maskOperands d [a, b])).bind
            ((KernelClass.binary k).apply P m2.seed)) (T dst) n m).bind
          (fun m2 => .ok (⟨rest, T, C, n⟩, m2))) ∧
    (¬(d = 0 ∨ d = 1 ∨ d = 2 ∨ d = 3) →
      TBinaryVectorKernel.Exec (k.DoKernel P) ⟨dst :: d :: a :: b :: rest, T, C, n⟩ m =
        .ok (⟨a :: b :: rest, T, C, n⟩, m)) ∧
    ([0, 1, 2, 3].map fun x => (maskOperands x [a, b]).map Operand.isConst) =
      [[false, false], [true, false], [false, true], [true, true]] ∧
    (∀ c0 c1 : Bool, ∃ x, (x = 0 ∨ x = 1 ∨ x = 2 ∨ x = 3) ∧
      (maskOperands x [a, b]).map Operand.isConst = [c0, c1] ∧
      ∀ y, (y = 0 ∨ y = 1 ∨ y = 2 ∨ y = 3) →
        (maskOperands y [a, b]).map Operand.isConst = [c0, c1] → y = x) := by
  have hk : ([0, 1, 2, 3].map fun x => (maskOperands x [a, b]).map Operand.isConst) =
      [[false, false], [true, false], [false, true], [true, true]] := by
    simp [maskOperands, descriptorBit, List.enum, List.enumFrom, Operand.isConst]
  simp only [List.map_cons, List.map_nil, List.cons.injEq, and_true] at hk
  obtain ⟨k0, k1, k2, k3⟩ := hk
  refine ⟨?_, ?_, ?_, ?_⟩
  · intro h
    exact KernelClass.Exec_mask P (.binary k) dst d [a, b] rest T C n m
      ((wiredDescriptor_binary k d).mpr h) rfl
  · intro h
    exact binaryExec_unwired _ dst d _ T C n m (fun e => h (by omega))
      (fun e => h (by omega)) (fun e => h (by omega)) (fun e => h (by omega))
  · simp only [List.map_cons, List.map_nil, k0, k1, k2, k3]
  · intro c0 c1
    cases c0 <;> cases c1
    · refine ⟨0, by omega, k0, ?_⟩
      rintro y (rfl | rfl | rfl | rfl) h <;> first | rfl | (simp [k0, k1, k2, k3] at h)
    · refine ⟨2, by omega, k2, ?_⟩
      rintro y (rfl | rfl | rfl | rfl) h <;> first | rfl | (simp [k0, k1, k2, k3] at h)
    · refine ⟨1, by omega, k1, ?_⟩
      rintro y (rfl | rfl | rfl | rfl) h <;> first | rfl | (simp [k0, k1, k2, k3] at h)
    · refine ⟨3, by omega, k3, ?_⟩
      rintro y (rfl | rfl | rfl | rfl) h <;> first | rfl | (simp [k0, k1, k2, k3] at h)


end Dispatchers

/-! ## The state of the chunk loop (C24 - C27) -/

section ChunkState
variable {F G : Type}

/-- The remaining-lane counter at the start of chunk `c`. -/
theorem NumVectorsAt_eq (H : Header) (NV : Int) (c : Nat) :
    NumVectorsAt H NV c = NV - c * H.VectorsPerChunk := by
  induction c with
  | zero => simp [NumVectorsAt]
  | succ c ih =>
    simp only [NumVectorsAt, ih]
    push_cast
    ring

/-- The register table of the context of chunk `c` is the closed form `chunkTable`. -/
theorem chunkContext_table (H : Header) (Code : List Nat) (NumIn NumOut : Nat)
    (C : Nat → Vec F) (NV : Int) (c : Nat) :
    (chunkContext H Code NumIn NumOut C NV c).RegisterTable = chunkTable H NumIn NumOut c := by
  simp only [chunkContext]
  cases c with
  | zero => exact mapChunkRegisters_temp H NumIn NumOut 0
  | succ c =>
    have h : ∀ c, mapChunkRegisters H NumIn NumOut c (RegisterTableAt H NumIn NumOut c) =
        chunkTable H NumIn NumOut c := by
      intro c
      induction c with
      | zero => exact mapChunkRegisters_temp H NumIn NumOut 0
      | succ c ih =>
        simp only [RegisterTableAt]
        rw [ih]
        exact mapChunkRegisters_chunk H NumIn NumOut (c + 1) c
    exact h (c + 1)

/-- The lane count of the context of chunk `c`. -/
theorem chunkContext_lanes (H : Header) (Code : List Nat) (NumIn NumOut : Nat)
    (C : Nat → Vec F) (NV : Int) (c : Nat) :
    (chunkContext H Code NumIn NumOut C NV c).NumVectors =
      min (NV - c * H.VectorsPerChunk) (H.VectorsPerChunk : Int) := by
  simp only [chunkContext, NumVectorsAt_eq]

theorem chunkLoop_eq_contexts (H : Header) (P : Platform F G) (Code : List Nat)
    (NumIn NumOut : Nat) (C : Nat → Vec F) (NV : Int) (rem c : Nat) (m : Memory F G) :
    chunkLoop H P Code NumIn NumOut C rem c (NumVectorsAt H NV c)
        (RegisterTableAt H NumIn NumOut c) m =
      execContexts H P (chunkContext H Code NumIn NumOut C NV) rem c m := by
  induction rem generalizing c m with
  | zero => rfl
  | succ rem ih =>
    simp only [chunkLoop, execContexts]
    congr 1
    funext m1
    exact ih (c + 1) m1

/-- The entry point runs the decode loop on the contexts of the chunks `0`, `1`, ...,
`NumChunks - 1` in order. -/
theorem Exec_eq_contexts (H : Header) (P : Platform F G) (Code : List Nat)
    (NumIn NumOut : Nat) (C : Nat → Vec F) (NV : Int) (m : Memory F G) :
    Exec H P Code NumIn NumOut C NV m =
      execContexts H P (chunkContext H Code NumIn NumOut C NV) (NumChunks H NV).toNat 0 m :=
  chunkLoop_eq_contexts H P Code NumIn NumOut C NV _ 0 m

/-- Without overflow the chunk count is the quotient rounded up. -/
theorem NumChunks_eq_ceil (H : Header) (L : Nat) (hV : 0 < H.VectorsPerChunk)
    (hL : L + H.VectorsPerChunk < 2147483648) :
    NumChunks H (L : Int) = ⌈(L : ℚ) / (H.VectorsPerChunk : ℚ)⌉ := by
  rw [NumChunks_eq H L hL]
  symm
  rw [Int.ceil_eq_iff]
  have hVq : (0 : ℚ) < (H.VectorsPerChunk : ℚ) := by exact_mod_cast hV
  have h1 := Nat.div_mul_le_self (L + H.VectorsPerChunk - 1) H.VectorsPerChunk
  have h2 := Nat.lt_div_mul_add (a := L + H.VectorsPerChunk - 1) hV
  set q := (L + H.VectorsPerChunk - 1) / H.VectorsPerChunk with hq
  constructor
  · rw [lt_div_iff₀ hVq]
    have : ((q : ℤ) - 1) * H.VectorsPerChunk < L := by
      have : (q : ℤ) * H.VectorsPerChunk ≤ L + H.VectorsPerChunk - 1 := by
        have := h1
        zify at this
        rw [Nat.cast_sub (by omega)] at this
        push_cast at this
        linarith
      linarith
    have h3 : (((q : ℤ) - 1) * H.VectorsPerChunk : ℚ) < (L : ℚ) := by exact_mod_cast this
    simpa using h3
  · rw [div_le_iff₀ hVq]
    have : L ≤ q * H.VectorsPerChunk := by omega
    have h3 : (L : ℚ) ≤ ((q * H.VectorsPerChunk : ℕ) : ℚ) := by exact_mod_cast this
    simpa using h3

/-- The lane counts of `n` full chunks sum to `n * VectorsPerChunk`. -/
theorem sum_lane_counts (V L : Nat) (n : Nat) (h : n * V ≤ L) :
    ((List.range n).map fun (c : Nat) => min ((L : Int) - (c : Int) * (V : Int)) (V : Int)).sum =
      ((n * V : Nat) : Int) := by
  induction n with
  | zero => simp
  | succ n ih =>
    have h2 : (n + 1) * V = n * V + V := by ring
    have h1 : n * V ≤ L := by omega
    rw [List.range_succ, List.map_append, List.sum_append, ih h1]
    simp only [List.map_cons, List.map_nil, List.sum_cons, List.sum_nil, add_zero]
    rw [min_eq_right]
    · push_cast
      ring
    · have : ((n * V + V : Nat) : Int) ≤ L := by
        rw [h2] at h
        exact_mod_cast h
      push_cast at this
      linarith

/-- C24 (the chunk count overflows): with `VectorsPerChunk = 128` and the lane count
`L = 2^31 - 1`, the 32-bit expression `(L + VectorsPerChunk - 1) / VectorsPerChunk`
wraps around and gives `-16777215`, whereas `ceil(L / VectorsPerChunk)` is `16777216`;
the chunk loop then runs no chunk and `Exec` returns with the memory as it was.  The
two agree for all `L` with `L + VectorsPerChunk < 2^31`. -/
theorem chunk_count_overflows :
    NumChunks testHeader 2147483647 = -16777215 ∧
    ⌈(2147483647 : ℚ) / ((testHeader.VectorsPerChunk : Nat) : ℚ)⌉ = 16777216 ∧
    (∀ (F G : Type) (P : Platform F G) (Code : List Nat) (NumIn NumOut : Nat) (C : Nat → Vec F)
      (m : Memory F G), Exec testHeader P Code NumIn NumOut C 2147483647 m = .ok m) ∧
    (∀ (H : Header) (L : Nat), 0 < H.VectorsPerChunk → L + H.VectorsPerChunk < 2147483648 →
      NumChunks H (L : Int) = ⌈(L : ℚ) / (H.VectorsPerChunk : ℚ)⌉) := by
  have h1 : NumChunks testHeader 2147483647 = -16777215 := by decide
  refine ⟨h1, ?_, ?_, ?_⟩
  · rw [Int.ceil_eq_iff]
    simp only [testHeader]
    norm_num
  · intro F G P Code NumIn NumOut C m
    simp only [Exec, h1]
    rfl
  · intro H L hV hL
    exact NumChunks_eq_ceil H L hV hL

/-- C25: for every lane count `L >= 0` (whose chunk count does not overflow `int32`) and
every chunk index `c < NumChunks`, the lane count used for chunk `c` is
`min(L - c * VectorsPerChunk, VectorsPerChunk)`; it is at least 1 and at most
`VectorsPerChunk`; the lane counts of all chunks sum to `L`; and the remaining-lane
counter after the last chunk is `L - NumChunks * VectorsPerChunk`, which is `<= 0` and
`> -VectorsPerChunk`. -/
theorem chunk_lane_counts (H : Header) (P : Platform F G) (Code : List Nat)
    (NumIn NumOut : Nat) (C : Nat → Vec F) (L : Nat) (m : Memory F G)
    (hV : 0 < H.VectorsPerChunk) (hL : L + H.VectorsPerChunk < 2147483648) :
    ChunkLaneCounts H P Code NumIn NumOut C L m := by
  have hN : (NumChunks H (L : Int)).toNat = (L + H.VectorsPerChunk - 1) / H.VectorsPerChunk := by
    rw [NumChunks_eq H L hL, Int.toNat_ofNat]
  have h1 := Nat.div_mul_le_self (L + H.VectorsPerChunk - 1) H.VectorsPerChunk
  have h2 := Nat.lt_div_mul_add (a := L + H.VectorsPerChunk - 1) hV
  rw [← hN] at h1 h2
  refine ⟨Exec_eq_contexts H P Code NumIn NumOut C L m, ?_⟩
  simp only [chunkContext_lanes, NumVectorsAt_eq]
  generalize (NumChunks H (L : Int)).toNat = N at h1 h2
  have hge : L ≤ N * H.VectorsPerChunk := by omega
  have hlt : N * H.VectorsPerChunk < L + H.VectorsPerChunk := by omega
  have hc : ∀ c, c < N → c * H.VectorsPerChunk < L := by
    intro c hc
    have : (c + 1) * H.VectorsPerChunk ≤ N * H.VectorsPerChunk :=
      Nat.mul_le_mul_right _ (by omega)
    have h3 : (c + 1) * H.VectorsPerChunk = c * H.VectorsPerChunk + H.VectorsPerChunk := by ring
    omega
  have hgeI : (L : Int) ≤ (N : Int) * H.VectorsPerChunk := by exact_mod_cast hge
  have hltI : (N : Int) * H.VectorsPerChunk < L + H.VectorsPerChunk := by exact_mod_cast hlt
  refine ⟨?_, ?_, trivial, by linarith, by linarith⟩
  · intro c hcN
    have h4 : (c : Int) * H.VectorsPerChunk < L := by exact_mod_cast hc c hcN
    refine ⟨trivial, ?_, min_le_right _ _⟩
    apply le_min
    · linarith
    · exact_mod_cast hV
  · rcases Nat.eq_zero_or_pos N with rfl | hpos
    · have : L = 0 := by omega
      simp [this]
    · obtain ⟨n, rfl⟩ : ∃ n, N = n + 1 := ⟨N - 1, by omega⟩
      have h3 := hc n (by omega)
      have h4 : (n + 1) * H.VectorsPerChunk = n * H.VectorsPerChunk + H.VectorsPerChunk := by
        ring
      rw [List.range_succ, List.map_append, List.sum_append,
        sum_lane_counts H.VectorsPerChunk L n (by omega)]
      simp only [List.map_cons, List.map_nil, List.sum_cons, List.sum_nil, add_zero]
      rw [min_eq_left]
      · push_cast
        ring
      · have : (L : Int) ≤ ((n * H.VectorsPerChunk + H.VectorsPerChunk : Nat) : Int) := by
          exact_mod_cast (by omega : L ≤ n * H.VectorsPerChunk + H.VectorsPerChunk)
        push_cast at this
        linarith

/-- Witness of C25: the test program over 130 lanes, two chunks of 128 and 2 lanes. -/
theorem chunk_lane_counts_witness :
    ChunkLaneCounts testHeader ratPlatform (TestCode testHeader) 3 1 TestConstants 130
      (TestMemory 0) :=
  chunk_lane_counts testHeader ratPlatform (TestCode testHeader) 3 1 TestConstants 130
    (TestMemory 0) (by decide) (by decide)

/-- C26 as stated fails for a call with more input registers than `MaxInputRegisters`:
with 33 inputs and one output, slot `NumTempRegisters + 32` = 40 is also the first
output slot, and the output loop, which runs second, leaves it bound to output array 0,
not to input array 32. -/
theorem input_slot_rebound_to_output :
    (32 : Nat) < 33 ∧
    (chunkContext testHeader (TestCode testHeader) 33 1 TestConstants 130 0).RegisterTable
        (testHeader.NumTempRegisters + 32) = some ⟨Bank.Output, 0, 0⟩ ∧
    ¬ ChunkBindings testHeader (TestCode testHeader) 33 1 TestConstants 130 0 (TestMemory 0) := by
  have h : (chunkContext testHeader (TestCode testHeader) 33 1 TestConstants 130 0).RegisterTable
      (testHeader.NumTempRegisters + 32) = some ⟨Bank.Output, 0, 0⟩ := by
    rw [chunkContext_table]
    decide
  refine ⟨by decide, h, ?_⟩
  intro hb
  have h2 := (hb.1 32 (by decide)).1
  rw [h] at h2
  cases h2

/-- C26 (amended): in a call with `NumInputRegisters <= MaxInputRegisters`, in chunk `c`,
input slot `NumTempRegisters + k` is bound to caller input array `k` starting at
element `c * VectorsPerChunk` and output slot
`NumTempRegisters + MaxInputRegisters + k` to caller output array `k` starting at
element `c * VectorsPerChunk`, so lane `j` of the chunk in those slots is element
`c * VectorsPerChunk + j` of the caller array, for every `k` below the respective
register count and every `j`. -/
theorem chunk_bindings (H : Header) (Code : List Nat) (NumIn NumOut : Nat) (C : Nat → Vec F)
    (NV : Int) (c : Nat) (m : Memory F G) (hIn : NumIn ≤ H.MaxInputRegisters) :
    ChunkBindings H Code NumIn NumOut C NV c m := by
  constructor
  · intro k hk
    rw [chunkContext_table, chunkTable_input H NumIn NumOut c k hk hIn]
    exact ⟨rfl, fun j => rfl⟩
  · intro k hk
    rw [chunkContext_table, chunkTable_output H NumIn NumOut c k hk]
    exact ⟨rfl, fun j => rfl⟩

/-- Witness of C26: the second chunk of the test program's call over 130 lanes. -/
theorem chunk_bindings_witness :
    ChunkBindings testHeader (TestCode testHeader) 3 1 TestConstants 130 1 (TestMemory 0) :=
  chunk_bindings testHeader (TestCode testHeader) 3 1 TestConstants 130 1 (TestMemory 0)
    (by decide)

/-- C27: for every call with `NumInputRegisters <= MaxInputRegisters`, the register-table
slots bound to temporaries `[0, NumTempRegisters)`, to inputs
`[NumTempRegisters, NumTempRegisters + NumInputRegisters)` and to outputs
`[NumTempRegisters + MaxInputRegisters, NumTempRegisters + MaxInputRegisters +
NumOutputRegisters)` are pairwise disjoint contiguous ranges, the same in every chunk
(every other slot is null), and each temporary slot refers to the same temporary
buffer in every chunk of the call. -/
theorem register_table_partition (H : Header) (Code : List Nat) (NumIn NumOut : Nat)
    (C : Nat → Vec F) (NV : Int) (hIn : NumIn ≤ H.MaxInputRegisters) :
    TablePartition H Code NumIn NumOut C NV := by
  refine ⟨?_, ?_, ?_, ?_, ?_, ?_⟩
  · intro c s hs
    rw [chunkContext_table]
    simp only [chunkTable]
    rw [if_neg (by omega), if_neg (by omega), if_pos hs]
  · intro c s h1 h2
    rw [chunkContext_table]
    simp only [chunkTable]
    rw [if_neg (by omega), if_pos ⟨h1, h2⟩]
  · intro c s h1 h2
    rw [chunkContext_table]
    simp only [chunkTable]
    rw [if_pos ⟨h1, h2⟩]
  · intro c s h1 h2
    rw [chunkContext_table]
    simp only [chunkTable]
    rw [if_neg (by omega), if_neg (by omega), if_neg (by omega)]
  · intro s
    refine ⟨by omega, by omega, by omega⟩
  · intro c c2 s hs
    rw [chunkContext_table, chunkContext_table]
    simp only [chunkTable]
    rw [if_neg (by omega), if_neg (by omega), if_pos hs, if_neg (by omega), if_neg (by omega)]

/-- Witness of C27: the call of the test program, three inputs and one output. -/
theorem register_table_partition_witness :
    TablePartition testHeader (TestCode testHeader) 3 1 TestConstants 130 :=
  register_table_partition testHeader (TestCode testHeader) 3 1 TestConstants 130 (by decide)

end ChunkState

/-! ## The decode loop on a byte-level program (C28) -/

section DecodeLoop
variable {F G : Type}

theorem encodedBytes_append (es1 es2 : List Encoded) :
    encodedBytes (es1 ++ es2) = encodedBytes es1 ++ encodedBytes es2 := by
  induction es1 with
  | nil => rfl
  | cons e es1 ih =>
    show e.bytes ++ encodedBytes (es1 ++ es2) = (e.bytes ++ encodedBytes es1) ++ encodedBytes es2
    rw [ih, List.append_assoc]

/-- One iteration of the decode loop on a well-formed instruction: its lane loop, then
the loop goes on behind its bytes. -/
theorem execChunk_encoded (H : Header) (P : Platform F G) (e : Encoded) (tail : List Nat)
    (T : Nat → Option Ptr) (C : Nat → Vec F) (n : Int) (fuel : Nat) (m : Memory F G)
    (hwf : e.wellFormed H = true) :
    execChunk H P (fuel + 1) ⟨e.bytes ++ tail, T, C, n⟩ m =
      (e.run H P T C n m).bind fun m2 => execChunk H P fuel ⟨tail, T, C, n⟩ m2 := by
  obtain ⟨Op, dst, d, ops⟩ := e
  simp only [Encoded.wellFormed] at hwf
  cases hk : switchOp H Op with
  | none => simp [hk] at hwf
  | some k =>
    simp only [hk, Bool.and_eq_true, beq_iff_eq] at hwf
    simp only [Encoded.bytes, List.cons_append, execChunk, DecodeOp, nextByte_cons,
      Outcome.bind_ok, hk, Encoded.run]
    rw [KernelClass.Exec_mask P k dst d ops tail T C n m hwf.1 hwf.2, Outcome.bind_assoc]
    rfl

/-- The decode loop on well-formed instructions followed by any bytes: the lane loops
of the instructions in order, then the loop goes on behind them. -/
theorem execChunk_encodedBytes (H : Header) (P : Platform F G) (es : List Encoded)
    (tail : List Nat) (T : Nat → Option Ptr) (C : Nat → Vec F) (n : Int) (fuel : Nat)
    (m : Memory F G) (hwf : es.all (Encoded.wellFormed H) = true) (hfuel : es.length ≤ fuel) :
    execChunk H P fuel ⟨encodedBytes es ++ tail, T, C, n⟩ m =
      (runEncoded H P T C n es m).bind fun m2 =>
        execChunk H P (fuel - es.length) ⟨tail, T, C, n⟩ m2 := by
  induction es generalizing fuel m with
  | nil => rfl
  | cons e es ih =>
    simp only [List.all_cons, Bool.and_eq_true] at hwf
    obtain ⟨f, rfl⟩ : ∃ f, fuel = f + 1 := ⟨fuel - 1, by simp at hfuel; omega⟩
    simp only [encodedBytes, List.append_assoc, runEncoded, Outcome.bind_assoc]
    rw [execChunk_encoded H P e _ T C n f m hwf.1]
    congr 1
    funext m2
    rw [ih f m2 hwf.2 (by simp at hfuel; omega)]
    simp

/-- The terminator ends the decode loop whatever bytes follow it. -/
theorem execChunk_done (H : Header) (P : Platform F G) (extra : List Nat)
    (T : Nat → Option Ptr) (C : Nat → Vec F) (n : Int) (fuel : Nat) (m : Memory F G)
    (hdone : switchOp H (H.opcode .done) = none) :
    execChunk H P (fuel + 1) ⟨H.opcode .done :: extra, T, C, n⟩ m = .ok m := by
  simp [execChunk, DecodeOp, hdone]

/-- The lane loop of a well-formed instruction completes when its registers are bound. -/
theorem Encoded.run_ok (H : Header) (P : Platform F G) (T : Nat → Option Ptr) (C : Nat → Vec F)
    (n : Int) (e : Encoded) (m : Memory F G) (hwf : e.wellFormed H = true)
    (hb : e.bound T = true) : ∃ m2, e.run H P T C n m = .ok m2 := by
  obtain ⟨Op, dst, d, ops⟩ := e
  simp only [Encoded.wellFormed] at hwf
  cases hk : switchOp H Op with
  | none => simp [hk] at hwf
  | some k =>
    simp only [hk, Bool.and_eq_true, beq_iff_eq] at hwf
    simp only [Encoded.bound, Bool.and_eq_true] at hb
    obtain ⟨ins, h1, hw1, hd1, hs1, -⟩ := decodeKernel_mask k dst d ops [] hwf.1 hwf.2
    have hregs := Instr.regs_bound T ins hw1 (by rw [hd1]; exact hb.1)
      (by rw [hs1]; exact Operand.bound_all hb.2)
    obtain ⟨m2, e1⟩ := Instr.exec_ok P T C n ins m hregs
    have h2 := KernelClass.Exec_mask P k dst d ops [] T C n m hwf.1 hwf.2
    rw [KernelClass.Exec_eq] at h2
    simp only [h1, e1, Outcome.bind_ok] at h2
    simp only [Encoded.run, hk]
    cases hf : forLanes (fun i m2 => (readAll T C m2 i (maskOperands d ops)).bind
        (k.apply P m2.seed)) (T dst) n m with
    | ok m3 => exact ⟨m3, rfl⟩
    | fatal op m3 => rw [hf] at h2; cases h2
    | undefined => rw [hf] at h2; cases h2
    | outOfFuel => rw [hf] at h2; cases h2

/-- The lane loops of well-formed instructions complete when their registers are bound. -/
theorem runEncoded_ok (H : Header) (P : Platform F G) (T : Nat → Option Ptr) (C : Nat → Vec F)
    (n : Int) (es : List Encoded) (m : Memory F G) (hwf : es.all (Encoded.wellFormed H) = true)
    (hb : es.all (Encoded.bound T) = true) : ∃ m2, runEncoded H P T C n es m = .ok m2 := by
  induction es generalizing m with
  | nil => exact ⟨m, rfl⟩
  | cons e es ih =>
    simp only [List.all_cons, Bool.and_eq_true] at hwf hb
    obtain ⟨m1, h1⟩ := Encoded.run_ok H P T C n e m hwf.1 hb.1
    obtain ⟨m2, h2⟩ := ih m1 hwf.2 hb.2
    exact ⟨m2, by simp only [runEncoded, h1, Outcome.bind_ok, h2]⟩

theorem Encoded.bytes_length (e : Encoded) : 3 ≤ e.bytes.length := by
  simp [Encoded.bytes]

theorem encodedBytes_length (es : List Encoded) : es.length ≤ (encodedBytes es).length := by
  induction es with
  | nil => simp [encodedBytes]
  | cons e es ih =>
    have := e.bytes_length
    simp only [encodedBytes, List.length_cons, List.length_append]
    omega

/-- C28: for every program made of the well-formed instructions `es` (dispatched opcode,
wired descriptor, operand bytes as the arity asks) followed by one `done` byte and
then any bytes `extra`, the decode loop of a chunk, in any context and with more
iterations allowed than there are instructions, runs exactly the lane loops of `es`
in program order from the first byte and then ends on the terminator: after `j`
instructions the cursor is on instruction `j`, each instruction moves it forward,
and the outcome does not depend on the bytes after the terminator.  Every chunk of
a call of `Exec` starts its decode loop on the first byte of the program. -/
theorem decode_loop_dispatches_program (H : Header) (P : Platform F G) (es : List Encoded)
    (extra : List Nat) (C : Nat → Vec F)
    (hdone : switchOp H (H.opcode .done) = none)
    (hwf : es.all (Encoded.wellFormed H) = true) :
    (∀ (T : Nat → Option Ptr) (n : Int) (fuel : Nat) (m : Memory F G), es.length < fuel →
      DecodeLoopDispatches H P es extra T C n fuel m) ∧
    (∀ (NumIn NumOut : Nat) (NV : Int) (c : Nat) (m : Memory F G),
      (chunkContext H (programOf H es ++ extra) NumIn NumOut C NV c).Code =
          programOf H es ++ extra ∧
        execChunk H P ((programOf H es ++ extra).length + 1)
            (chunkContext H (programOf H es ++ extra) NumIn NumOut C NV c) m =
          runEncoded H P
            (chunkContext H (programOf H es ++ extra) NumIn NumOut C NV c).RegisterTable C
            (chunkContext H (programOf H es ++ extra) NumIn NumOut C NV c).NumVectors es m) ∧
    (∀ (NumIn NumOut : Nat) (NV : Int) (m : Memory F G),
      Exec H P (programOf H es ++ extra) NumIn NumOut C NV m =
        execContexts H P (chunkContext H (programOf H es ++ extra) NumIn NumOut C NV)
          (NumChunks H NV).toNat 0 m) := by
  have hall : ∀ (T : Nat → Option Ptr) (n : Int) (fuel : Nat) (m : Memory F G), es.length < fuel →
      execChunk H P fuel ⟨programOf H es ++ extra, T, C, n⟩ m = runEncoded H P T C n es m := by
    intro T n fuel m hfuel
    simp only [programOf, List.append_assoc]
    rw [execChunk_encodedBytes H P es _ T C n fuel m hwf (by omega)]
    obtain ⟨f, hf⟩ : ∃ f, fuel - es.length = f + 1 := ⟨fuel - es.length - 1, by omega⟩
    rw [hf]
    simp only [List.singleton_append, execChunk_done H P extra T C n f _ hdone]
    exact Outcome.bind_ok_right _
  refine ⟨?_, ?_, ?_⟩
  · intro T n fuel m hfuel
    refine ⟨hall T n fuel m hfuel, ?_, ?_, ?_, ?_⟩
    · intro j hj
      have hsplit : programOf H es ++ extra =
          encodedBytes (es.take j) ++ (programOf H (es.drop j) ++ extra) := by
        simp only [programOf, ← List.append_assoc, ← encodedBytes_append, List.take_append_drop]
      have hwf2 : (es.take j).all (Encoded.wellFormed H) = true := by
        rw [List.all_eq_true] at hwf ⊢
        exact fun e he => hwf e (List.mem_of_mem_take he)
      have hlen : (es.take j).length = j := by simp [hj]
      have := execChunk_encodedBytes H P (es.take j) (programOf H (es.drop j) ++ extra) T C n
        fuel m hwf2 (by omega)
      rw [hlen] at this
      rw [hsplit]
      exact this
    · intro j hj
      have hd : es.drop j = es.get ⟨j, hj⟩ :: es.drop (j + 1) := by
        simp
      rw [hd]
      have := (es.get ⟨j, hj⟩).bytes_length
      simp only [programOf, encodedBytes, List.length_append]
      omega
    · intro m2
      obtain ⟨f, hf⟩ : ∃ f, fuel - es.length = f + 1 := ⟨fuel - es.length - 1, by omega⟩
      rw [hf, List.drop_length]
      exact execChunk_done H P extra T C n f m2 hdone
    · intro hb
      rw [hall T n fuel m hfuel]
      exact runEncoded_ok H P T C n es m hwf hb
  · intro NumIn NumOut NV c m
    refine ⟨rfl, ?_⟩
    have hlen : es.length < (programOf H es ++ extra).length + 1 := by
      have := encodedBytes_length es
      simp only [programOf, List.length_append]
      omega
    exact hall _ _ _ m hlen
  · intro NumIn NumOut NV m
    exact Exec_eq_contexts H P _ NumIn NumOut C NV m

/-- Witness of C28: the six instructions of the test program are well formed and their
bytes followed by `done` are `TestCode`. -/
theorem decode_loop_dispatches_program_witness :
    programOf testHeader (TestEncoded testHeader) = TestCode testHeader ∧
    ((∀ (T : Nat → Option Ptr) (n : Int) (fuel : Nat) (m : Memory ℚ Nat),
        (TestEncoded testHeader).length < fuel →
        DecodeLoopDispatches testHeader ratPlatform (TestEncoded testHeader) [] T TestConstants
          n fuel m) ∧
      (∀ (NumIn NumOut : Nat) (NV : Int) (c : Nat) (m : Memory ℚ Nat),
        (chunkContext testHeader (programOf testHeader (TestEncoded testHeader) ++ [])
            NumIn NumOut TestConstants NV c).Code =
            programOf testHeader (TestEncoded testHeader) ++ [] ∧
          execChunk testHeader ratPlatform
              ((programOf testHeader (TestEncoded testHeader) ++ []).length + 1)
              (chunkContext testHeader (programOf testHeader (TestEncoded testHeader) ++ [])
                NumIn NumOut TestConstants NV c) m =
            runEncoded testHeader ratPlatform
              (chunkContext testHeader (programOf testHeader (TestEncoded testHeader) ++ [])
                NumIn NumOut TestConstants NV c).RegisterTable TestConstants
              (chunkContext testHeader (programOf testHeader (TestEncoded testHeader) ++ [])
                NumIn NumOut TestConstants NV c).NumVectors (TestEncoded testHeader) m) ∧
      (∀ (NumIn NumOut : Nat) (NV : Int) (m : Memory ℚ Nat),
        Exec testHeader ratPlatform (programOf testHeader (TestEncoded testHeader) ++ [])
            NumIn NumOut TestConstants NV m =
          execContexts testHeader ratPlatform
            (chunkContext testHeader (programOf testHeader (TestEncoded testHeader) ++ [])
              NumIn NumOut TestConstants NV) (NumChunks testHeader NV).toNat 0 m)) :=
  ⟨by decide, decode_loop_dispatches_program testHeader ratPlatform (TestEncoded testHeader) []
    TestConstants (by decide) (by decide)⟩

end DecodeLoop

/-! ## Unwired descriptors in the decode loop, empty calls (C31, C32) -/

section UnwiredAndEmpty
variable {F G : Type}

/-- A unary dispatcher on a descriptor other than 0x00 and 0x01 reads no operand and
leaves the memory as it is. -/
theorem unaryExec_unwired (K : G → Vec F → Vec F × G) (dst d : Nat)
    (rest : List Nat) (T : Nat → Option Ptr) (C : Nat → Vec F) (n : Int) (m : Memory F G)
    (h0 : d ≠ 0) (h1 : d ≠ 1) :
    TUnaryVectorKernel.Exec K ⟨dst :: d :: rest, T, C, n⟩ m = .ok (⟨rest, T, C, n⟩, m) := by
  simp only [TUnaryVectorKernel.Exec, DecodeRegister, DecodeSrcOperandTypes, nextByte_cons,
    Outcome.monad_bind, Outcome.bind_ok, Outcome.monad_pure, SRCOP_RRR, SRCOP_RRC]
  rw [if_neg h0, if_neg h1]

/-- The dispatcher of any kernel class on an unwired descriptor returns with the cursor
behind the descriptor byte and the memory as it is. -/
theorem KernelClass.dispatcher_unwired (P : Platform F G) (k : KernelClass) (dst d : Nat)
    (rest : List Nat) (T : Nat → Option Ptr) (C : Nat → Vec F) (n : Int) (m : Memory F G)
    (hw : wiredDescriptor k d = false) :
    k.Exec P ⟨dst :: d :: rest, T, C, n⟩ m = .ok (⟨rest, T, C, n⟩, m) := by
  cases k with
  | unary k =>
    simp only [wiredDescriptor, SRCOP_RRR, SRCOP_RRC, decide_eq_false_iff_not, not_or] at hw
    exact unaryExec_unwired _ dst d rest T C n m hw.1 hw.2
  | binary k =>
    simp only [wiredDescriptor, SRCOP_RRR, SRCOP_RRC, SRCOP_RCR, SRCOP_RCC,
      decide_eq_false_iff_not, not_or] at hw
    exact binaryExec_unwired _ dst d rest T C n m hw.1 hw.2.1 hw.2.2.1 hw.2.2.2
  | trinary k =>
    simp only [wiredDescriptor, SRCOP_RRR, SRCOP_RRC, SRCOP_RCR, SRCOP_RCC, SRCOP_CCR,
      SRCOP_CCC, decide_eq_false_iff_not, not_or] at hw
    exact trinaryExec_unwired _ dst d rest T C n m hw.1 hw.2.1 hw.2.2.2.2.2 hw.2.2.2.2.1
      hw.2.2.2.1 hw.2.2.1

/-- C31: when the dispatcher of a dispatched opcode meets an unwired descriptor, it has
advanced the cursor by exactly 2 bytes (destination and descriptor) and consumed no
operand byte: it returns with the memory unchanged and the cursor on the byte after
the descriptor, and the decode loop goes on from there, so the next byte it
interprets as an opcode is the first operand byte of the instruction. -/
theorem unwired_descriptor_cursor (H : Header) (P : Platform F G) (Op : Nat) (k : KernelClass)
    (dst d : Nat) (rest : List Nat) (T : Nat → Option Ptr) (C : Nat → Vec F) (n : Int)
    (fuel : Nat) (m : Memory F G) (hk : switchOp H Op = some k)
    (hw : wiredDescriptor k d = false) :
    k.Exec P ⟨dst :: d :: rest, T, C, n⟩ m = .ok (⟨rest, T, C, n⟩, m) ∧
    (dst :: d :: rest).length = rest.length + 2 ∧
    execChunk H P (fuel + 1) ⟨Op :: dst :: d :: rest, T, C, n⟩ m =
      execChunk H P fuel ⟨rest, T, C, n⟩ m ∧
    (∀ (b : Nat) (rest2 : List Nat), rest = b :: rest2 →
      (DecodeOp ⟨rest, T, C, n⟩ : Outcome (Memory F G) _) = .ok (b, ⟨rest2, T, C, n⟩)) := by
  have h1 := KernelClass.dispatcher_unwired P k dst d rest T C n m hw
  refine ⟨h1, by simp, ?_, ?_⟩
  · simp only [execChunk, DecodeOp, nextByte_cons, Outcome.bind_ok, hk, h1]
  · rintro b rest2 rfl
    rfl

/-- Witness of C31: `mad` with the unwired descriptor `SRCOP_CRC`; its first operand byte
0x00 is then read as the opcode `done`, which ends the chunk. -/
theorem unwired_descriptor_cursor_witness :
    execChunk testHeader ratPlatform 1
        ⟨[0x00, 0x09, 0x0a, 0x00], chunkTable testHeader 3 1 0, TestConstants, 2⟩
        (TestMemory 0) = .ok (TestMemory 0) ∧
    ((KernelClass.trinary .Mad).Exec ratPlatform
          ⟨0x28 :: SRCOP_CRC :: [0x00, 0x09, 0x0a, 0x00], chunkTable testHeader 3 1 0,
            TestConstants, 2⟩ (TestMemory 0) =
        .ok (⟨[0x00, 0x09, 0x0a, 0x00], chunkTable testHeader 3 1 0, TestConstants, 2⟩,
          TestMemory 0) ∧
      (0x28 :: SRCOP_CRC :: [0x00, 0x09, 0x0a, 0x00]).length =
        ([0x00, 0x09, 0x0a, 0x00] : List Nat).length + 2 ∧
      execChunk testHeader ratPlatform (1 + 1)
          ⟨testHeader.opcode .mad :: 0x28 :: SRCOP_CRC :: [0x00, 0x09, 0x0a, 0x00],
            chunkTable testHeader 3 1 0, TestConstants, 2⟩ (TestMemory 0) =
        execChunk testHeader ratPlatform 1
          ⟨[0x00, 0x09, 0x0a, 0x00], chunkTable testHeader 3 1 0, TestConstants, 2⟩
          (TestMemory 0) ∧
      (∀ (b : Nat) (rest2 : List Nat), [0x00, 0x09, 0x0a, 0x00] = b :: rest2 →
        (DecodeOp ⟨[0x00, 0x09, 0x0a, 0x00], chunkTable testHeader 3 1 0, TestConstants, 2⟩ :
            Outcome (Memory ℚ Nat) _) =
          .ok (b, ⟨rest2, chunkTable testHeader 3 1 0, TestConstants, 2⟩))) :=
  ⟨rfl, unwired_descriptor_cursor testHeader ratPlatform (testHeader.opcode .mad)
    (.trinary .Mad) 0x28 SRCOP_CRC [0x00, 0x09, 0x0a, 0x00] (chunkTable testHeader 3 1 0)
    TestConstants 2 1 (TestMemory 0) (by decide) (by decide)⟩

/-- For a lane count `L <= 0` in the `int32` range the chunk count is not positive. -/
theorem NumChunks_nonpos (H : Header) (L : Int) (hL : L ≤ 0) (hmin : -2147483648 ≤ L)
    (hV : 0 < H.VectorsPerChunk) (hV2 : H.VectorsPerChunk < 2147483648) :
    NumChunks H L ≤ 0 := by
  have hVi : (0 : Int) < (H.VectorsPerChunk : Int) := by exact_mod_cast hV
  have hV2i : (H.VectorsPerChunk : Int) < 2147483648 := by exact_mod_cast hV2
  unfold NumChunks
  rw [wrapInt32_of_range (L + H.VectorsPerChunk) (by omega) (by omega),
    wrapInt32_of_range (L + H.VectorsPerChunk - 1) (by omega) (by omega)]
  by_cases h : 0 ≤ L + (H.VectorsPerChunk : Int) - 1
  · rw [Int.tdiv_eq_zero_of_lt h (by omega)]
  · have h2 : L + (H.VectorsPerChunk : Int) - 1 ≤ 0 := by omega
    have h3 : 0 ≤ (-(L + (H.VectorsPerChunk : Int) - 1)).tdiv (H.VectorsPerChunk : Int) :=
      Int.tdiv_nonneg (by omega) (by omega)
    rw [Int.neg_tdiv] at h3
    omega

/-- C32: for every lane count `L <= 0` (an `int32` value; the chunk size a positive `int32`
constant), the chunk count computed with truncating division is not positive and
`Exec` executes no chunk: whatever the program is (also one without terminator or
with unknown opcodes), it returns normally with the memory, in particular every
input and output array, unchanged. -/
theorem nonpositive_lane_count_runs_nothing (H : Header) (P : Platform F G) (Code : List Nat)
    (NumIn NumOut : Nat) (C : Nat → Vec F) (L : Int) (m : Memory F G)
    (hL : L ≤ 0) (hmin : -2147483648 ≤ L)
    (hV : 0 < H.VectorsPerChunk) (hV2 : H.VectorsPerChunk < 2147483648) :
    NumChunks H L ≤ 0 ∧ (NumChunks H L).toNat = 0 ∧
      Exec H P Code NumIn NumOut C L m = .ok m ∧
      Exec H P Code NumIn NumOut C L m =
        execContexts H P (chunkContext H Code NumIn NumOut C L) 0 0 m := by
  have h := NumChunks_nonpos H L hL hmin hV hV2
  have h0 : (NumChunks H L).toNat = 0 := Int.toNat_eq_zero.mpr h
  refine ⟨h, h0, ?_, ?_⟩
  · simp only [Exec, h0]
    rfl
  · rw [Exec_eq_contexts, h0]

/-- Witness of C32: a program of one byte that is no dispatched opcode and has no
terminator, with lane count -5. -/
theorem nonpositive_lane_count_runs_nothing_witness :
    (NumChunks testHeader (-5) ≤ 0 ∧ (NumChunks testHeader (-5)).toNat = 0 ∧
      Exec testHeader ratPlatform [11] 3 1 TestConstants (-5) (TestMemory 0) =
        .ok (TestMemory 0) ∧
      Exec testHeader ratPlatform [11] 3 1 TestConstants (-5) (TestMemory 0) =
        execContexts testHeader ratPlatform
          (chunkContext testHeader [11] 3 1 TestConstants (-5)) 0 0 (TestMemory 0)) :=
  nonpositive_lane_count_runs_nothing testHeader ratPlatform [11] 3 1 TestConstants (-5)
    (TestMemory 0) (by decide) (by decide) (by decide) (by decide)

end UnwiredAndEmpty

/-! ## The metadata table against the dispatchers and kernels (C33 - C36) -/

section MetadataAgreement
variable {F G : Type}

/-- With distinct opcode values the `switch` takes the case of the enumerator. -/
theorem switchOp_opcode (H : Header) (hinj : Function.Injective H.opcode) (e : EOp) :
    switchOp H (H.opcode e) = e.kernel := by
  cases e <;> simp [switchOp, EOp.kernel, hinj.eq_iff]

/-- The numbering of the enumerators in declaration order is injective. -/
theorem EOp.toNat_injective : Function.Injective EOp.toNat := by
  intro a b h
  cases a <;> cases b <;> first | rfl | (simp [EOp.toNat] at h)

/-- C33: the metadata table and the dispatcher agree on what is implemented: for opcode
values that are distinct per enumerator, an opcode has a `GOpInfo` row carrying the
flag `Implemented` if and only if the `switch` of `VectorVM::Exec` dispatches it to a
kernel. -/
theorem implemented_iff_dispatched (H : Header) (e : EOp)
    (hinj : Function.Injective H.opcode) :
    ((∃ r ∈ GOpInfo, r.BaseOpcode = e ∧ r.Implemented = true) ↔
      ∃ k, switchOp H (H.opcode e) = some k) ∧
    hasImplementedEntry e = (switchOp H (H.opcode e)).isSome := by
  have h2 : hasImplementedEntry e = (switchOp H (H.opcode e)).isSome := by
    rw [switchOp_opcode H hinj e]
    cases e <;> decide
  refine ⟨?_, h2⟩
  rw [← Option.isSome_iff_exists, ← h2]
  simp [hasImplementedEntry, List.any_eq_true]

/-- Witness of C33: `clamp`, with the enumerators numbered in declaration order. -/
theorem implemented_iff_dispatched_witness :
    ((∃ r ∈ GOpInfo, r.BaseOpcode = EOp.clamp ∧ r.Implemented = true) ↔
      ∃ k, switchOp testHeader (testHeader.opcode .clamp) = some k) ∧
    hasImplementedEntry .clamp = (switchOp testHeader (testHeader.opcode .clamp)).isSome :=
  implemented_iff_dispatched testHeader .clamp EOp.toNat_injective

/-- C34 (the flag `Commutative` of `cross` is wrong): the rows of `GOpInfo` that carry the
flag `Commutative` are those of `add`, `mul`, `mad` and `cross`.  In exact arithmetic the
kernels of `add` and `mul` give the same result with the operands exchanged, but the
kernel of `cross` does not: for `a = (1, 0, 0, 0)` and `b = (0, 1, 0, 0)` it gives
`(0, 0, 1, 0)` for `(a, b)` and `(0, 0, -1, 0)` for `(b, a)`; exchanging the operands
negates the first three components. -/
theorem cross_flagged_commutative_but_is_not :
    (GOpInfo.filter fun r => r.Commutative).map (fun r => r.BaseOpcode) =
      [.add, .mul, .mad, .cross] ∧
    (FVectorKernelCross.DoKernel ratPlatform 1 ⟨1, 0, 0, 0⟩ ⟨0, 1, 0, 0⟩).1 = ⟨0, 0, 1, 0⟩ ∧
    (FVectorKernelCross.DoKernel ratPlatform 1 ⟨0, 1, 0, 0⟩ ⟨1, 0, 0, 0⟩).1 = ⟨0, 0, -1, 0⟩ ∧
    (FVectorKernelCross.DoKernel ratPlatform 1 ⟨1, 0, 0, 0⟩ ⟨0, 1, 0, 0⟩).1 ≠
      (FVectorKernelCross.DoKernel ratPlatform 1 ⟨0, 1, 0, 0⟩ ⟨1, 0, 0, 0⟩).1 ∧
    (∀ (K : Type) [LinearOrderedField K] (sqrt sin : K → K) (pow : K → K → K)
      (normalize : Vec K → Vec K) (Rand : Nat → Nat × Nat) (RAND_MAX : Nat) (g : Nat)
      (a b : Vec K),
      FVectorKernelAdd.DoKernel (exactPlatform sqrt sin pow normalize Rand RAND_MAX) g a b =
          FVectorKernelAdd.DoKernel (exactPlatform sqrt sin pow normalize Rand RAND_MAX) g b a ∧
        FVectorKernelMul.DoKernel (exactPlatform sqrt sin pow normalize Rand RAND_MAX) g a b =
          FVectorKernelMul.DoKernel (exactPlatform sqrt sin pow normalize Rand RAND_MAX) g b a ∧
        (FVectorKernelCross.DoKernel (exactPlatform sqrt sin pow normalize Rand RAND_MAX) g a
            b).1 =
          ⟨-(FVectorKernelCross.DoKernel (exactPlatform sqrt sin pow normalize Rand RAND_MAX) g
              b a).1.x,
            -(FVectorKernelCross.DoKernel (exactPlatform sqrt sin pow normalize Rand RAND_MAX) g
              b a).1.y,
            -(FVectorKernelCross.DoKernel (exactPlatform sqrt sin pow normalize Rand RAND_MAX) g
              b a).1.z, 0⟩) := by
  have h1 : (FVectorKernelCross.DoKernel ratPlatform 1 ⟨1, 0, 0, 0⟩ ⟨0, 1, 0, 0⟩).1 =
      ⟨0, 0, 1, 0⟩ := by
    simp [FVectorKernelCross.DoKernel, VectorCross, ratPlatform]
  have h2 : (FVectorKernelCross.DoKernel ratPlatform 1 ⟨0, 1, 0, 0⟩ ⟨1, 0, 0, 0⟩).1 =
      ⟨0, 0, -1, 0⟩ := by
    simp [FVectorKernelCross.DoKernel, VectorCross, ratPlatform]
  refine ⟨by decide, h1, h2, ?_, ?_⟩
  · rw [h1, h2]
    intro h
    have h3 := congrArg Vec.z h
    norm_num at h3
  · intro K _ sqrt sin pow normalize Rand RAND_MAX g a b
    refine ⟨?_, ?_, ?_⟩
    · simp only [FVectorKernelAdd.DoKernel, VectorAdd, exactPlatform, add_comm]
    · simp only [FVectorKernelMul.DoKernel, VectorMultiply, exactPlatform, mul_comm]
    · simp only [FVectorKernelCross.DoKernel, VectorCross, exactPlatform, Vec.mk.injEq,
        and_true]
      refine ⟨?_, ?_, ?_⟩ <;> ring

/-- The rows of `GOpInfo` whose operand kinds give an unwired descriptor for the
dispatcher of their opcode. -/
theorem GOpInfo_not_executable :
    (GOpInfo.filter fun r => r.executable == some false).map (fun r => r.FriendlyName) =
      ["madrri", "lerprri", "clampri"] := by
  decide

/-- C35 as stated fails: the row `madrri` of `GOpInfo` lists the operand kinds
(Register, Register, Const) for the dispatched opcode `mad`; the descriptor whose
bit `j` is set exactly when kind `j` is `Const` is 0x04, which is not a wired case of
the trinary dispatcher: on it the dispatcher reads no operand and runs no kernel. -/
theorem madrri_pattern_not_wired :
    (⟨.mad, false, false, .Register, .Register, .Const, "madrri"⟩ : FVectorVMOpInfo) ∈ GOpInfo ∧
    switchOp testHeader (testHeader.opcode .mad) = some (.trinary .Mad) ∧
    (⟨.mad, false, false, .Register, .Register, .Const, "madrri"⟩ :
      FVectorVMOpInfo).descriptor (KernelClass.trinary .Mad).arity = some 0x04 ∧
    wiredDescriptor (.trinary .Mad) 0x04 = false ∧
    (∀ (dst a b c : Nat) (rest : List Nat) (T : Nat → Option Ptr) (C : Nat → Vec ℚ) (n : Int)
      (m : Memory ℚ Nat),
      TTrinaryVectorKernel.Exec (FVectorKernelMad.DoKernel ratPlatform)
          ⟨dst :: 0x04 :: a :: b :: c :: rest, T, C, n⟩ m =
        .ok (⟨a :: b :: c :: rest, T, C, n⟩, m)) := by
  refine ⟨by decide, by decide, by decide, by decide, ?_⟩
  intro dst a b c rest T C n m
  exact trinaryExec_unwired _ dst 0x04 _ T C n m (by decide) (by decide) (by decide)
    (by decide) (by decide) (by decide)

/-- C35 (amended): for opcode values that are distinct per enumerator, for every row of
`GOpInfo` of a dispatched opcode whose operand kinds within the arity of the kernel
are drawn from Register and Const, the descriptor whose bit `j` is set exactly when
kind `j` is `Const` is a wired case of the dispatcher of that opcode, except for the
pattern (Register, Register, Const) of a three-operand opcode (the rows `madrri`,
`lerprri` and `clampri`), whose descriptor 0x04 is not wired. -/
theorem listed_patterns_wired_but_rrc (H : Header) (r : FVectorVMOpInfo) (k : KernelClass)
    (d : Nat) (hinj : Function.Injective H.opcode) (hr : r ∈ GOpInfo)
    (hk : switchOp H (H.opcode r.BaseOpcode) = some k) (hd : r.descriptor k.arity = some d) :
    (wiredDescriptor k d = true ↔ d ≠ 0x04) ∧
    (d = 0x04 ↔ (k.arity = 3 ∧ r.Src0 = .Register ∧ r.Src1 = .Register ∧ r.Src2 = .Const)) := by
  rw [switchOp_opcode H hinj] at hk
  have key : GOpInfo.all (fun r => match r.BaseOpcode.kernel with
      | some k => match r.descriptor k.arity with
        | some d => decide ((wiredDescriptor k d = true ↔ d ≠ 0x04) ∧
            (d = 0x04 ↔ (k.arity = 3 ∧ r.Src0 = .Register ∧ r.Src1 = .Register ∧
              r.Src2 = .Const)))
        | none => true
      | none => true) = true := by decide
  have := List.all_eq_true.mp key r hr
  simp only [hk, hd, decide_eq_true_eq] at this
  exact this

/-- Witness of C35: the row `clampii`, kinds (Register, Const, Const), descriptor 0x06. -/
theorem listed_patterns_wired_but_rrc_witness :
    (wiredDescriptor (.trinary .Clamp) 0x06 = true ↔ 0x06 ≠ 0x04) ∧
    (0x06 = 0x04 ↔ ((KernelClass.trinary .Clamp).arity = 3 ∧
      (⟨.clamp, false, false, .Register, .Const, .Const, "clampii"⟩ : FVectorVMOpInfo).Src0 =
        .Register ∧
      (⟨.clamp, false, false, .Register, .Const, .Const, "clampii"⟩ : FVectorVMOpInfo).Src1 =
        .Register ∧
      (⟨.clamp, false, false, .Register, .Const, .Const, "clampii"⟩ : FVectorVMOpInfo).Src2 =
        .Const)) :=
  listed_patterns_wired_but_rrc testHeader
    ⟨.clamp, false, false, .Register, .Const, .Const, "clampii"⟩ (.trinary .Clamp) 0x06
    EOp.toNat_injective (by decide) (by decide) (by decide)

/-- C36: for the clamp kernel in exact arithmetic and all operand vectors `x`, `lo`, `hi`,
in every component: if `lo <= hi` the result lies in `[lo, hi]` and equals `x` whenever
`lo <= x <= hi`; if `lo > hi` the result is `hi` regardless of `x`. -/
theorem clamp_kernel_range [LinearOrderedField F] (sqrt sin : F → F) (pow : F → F → F)
    (normalize : Vec F → Vec F) (Rand : G → Nat × G) (RAND_MAX : Nat) (g : G) (x lo hi : Vec F) :
    ((lo.x ≤ hi.x →
        lo.x ≤ (FVectorKernelClamp.DoKernel
          (exactPlatform sqrt sin pow normalize Rand RAND_MAX) g x lo hi).1.x ∧
        (FVectorKernelClamp.DoKernel
          (exactPlatform sqrt sin pow normalize Rand RAND_MAX) g x lo hi).1.x ≤ hi.x ∧
        (lo.x ≤ x.x → x.x ≤ hi.x → (FVectorKernelClamp.DoKernel
          (exactPlatform sqrt sin pow normalize Rand RAND_MAX) g x lo hi).1.x = x.x)) ∧
      (hi.x < lo.x → (FVectorKernelClamp.DoKernel
          (exactPlatform sqrt sin pow normalize Rand RAND_MAX) g x lo hi).1.x = hi.x)) ∧
    ((lo.y ≤ hi.y →
        lo.y ≤ (FVectorKernelClamp.DoKernel
          (exactPlatform sqrt sin pow normalize Rand RAND_MAX) g x lo hi).1.y ∧
        (FVectorKernelClamp.DoKernel
          (exactPlatform sqrt sin pow normalize Rand RAND_MAX) g x lo hi).1.y ≤ hi.y ∧
        (lo.y ≤ x.y → x.y ≤ hi.y → (FVectorKernelClamp.DoKernel
          (exactPlatform sqrt sin pow normalize Rand RAND_MAX) g x lo hi).1.y = x.y)) ∧
      (hi.y < lo.y → (FVectorKernelClamp.DoKernel
          (exactPlatform sqrt sin pow normalize Rand RAND_MAX) g x lo hi).1.y = hi.y)) ∧
    ((lo.z ≤ hi.z →
        lo.z ≤ (FVectorKernelClamp.DoKernel
          (exactPlatform sqrt sin pow normalize Rand RAND_MAX) g x lo hi).1.z ∧
        (FVectorKernelClamp.DoKernel
          (exactPlatform sqrt sin pow normalize Rand RAND_MAX) g x lo hi).1.z ≤ hi.z ∧
        (lo.z ≤ x.z → x.z ≤ hi.z → (FVectorKernelClamp.DoKernel
          (exactPlatform sqrt sin pow normalize Rand RAND_MAX) g x lo hi).1.z = x.z)) ∧
      (hi.z < lo.z → (FVectorKernelClamp.DoKernel
          (exactPlatform sqrt sin pow normalize Rand RAND_MAX) g x lo hi).1.z = hi.z)) ∧
    ((lo.w ≤ hi.w →
        lo.w ≤ (FVectorKernelClamp.DoKernel
          (exactPlatform sqrt sin pow normalize Rand RAND_MAX) g x lo hi).1.w ∧
        (FVectorKernelClamp.DoKernel
          (exactPlatform sqrt sin pow normalize Rand RAND_MAX) g x lo hi).1.w ≤ hi.w ∧
        (lo.w ≤ x.w → x.w ≤ hi.w → (FVectorKernelClamp.DoKernel
          (exactPlatform sqrt sin pow normalize Rand RAND_MAX) g x lo hi).1.w = x.w)) ∧
      (hi.w < lo.w → (FVectorKernelClamp.DoKernel
          (exactPlatform sqrt sin pow normalize Rand RAND_MAX) g x lo hi).1.w = hi.w)) := by
  have key : ∀ a l h : F,
      (l ≤ h → l ≤ min (max a l) h ∧ min (max a l) h ≤ h ∧
        (l ≤ a → a ≤ h → min (max a l) h = a)) ∧
      (h < l → min (max a l) h = h) := by
    intro a l h
    refine ⟨fun hlh => ⟨le_min (le_max_right _ _) hlh, min_le_right _ _, fun h1 h2 => ?_⟩,
      fun hlt => ?_⟩
    · rw [max_eq_left h1, min_eq_left h2]
    · exact min_eq_right (le_trans hlt.le (le_max_right _ _))
  exact ⟨key x.x lo.x hi.x, key x.y lo.y hi.y, key x.z lo.z hi.z, key x.w lo.w hi.w⟩

end MetadataAgreement

end VectorVM
